import Mathlib

/-!
# AT24Cxxx EEPROM driver: shallow embedding and verification

Embedding of `src/at24cxxx.cpp` / `src/at24cxxx.h`.

Modelling conventions.
* The fixed-width types of the source are modelled exactly: `uint8_t` values are reduced
  modulo 256 and `uint16_t` values modulo 65536 wherever the source stores into them.
* `size_t` values are natural numbers.  The only `size_t` operation of the source that can
  leave the range is `lenRemaining -= i` in `readBuffer` (when the bus hands over more bytes
  than were asked for); it is modelled by `subSize`, which wraps modulo `2 ^ sizeBits`.
* `int` has `intBits` bits, a parameter of the model (16 on AVR, 32 on ARM and ESP32).  The
  byte counters `totalread` and `totalWritten` are `int`: `totalread += i` adds a `size_t` to an
  `int`, so the sum is formed in `size_t` and converted back to `int`, which `toInt` models as
  reduction to the two's-complement range of `intBits` bits.
* A pointer into a byte buffer is a function `Nat → Nat` (index to byte) plus an offset.
* The `TwoWire` bus object and the Arduino `delay` function are external: they are a record of
  state transformers over an arbitrary state type, so that theorems quantified over the record
  hold for every behaviour of the bus.
* Every call of the bus, with its result, is appended to an event list, together with a marker
  for each call of `writeAddress` and each call and return of `rawWriteBuffer`.
-/

namespace AT24C

/-! ## Constants and data model -/

/-- Source: `constexpr size_t MAX_ALLOWED_LEN_IN_REQUESTFROM = 255`. -/
def MAX_ALLOWED_LEN_IN_REQUESTFROM : Nat := 255

/-- Source: `enum at24c_error`, value `ERR_OK`. -/
def ERR_OK : Nat := 0
/-- Source: `enum at24c_error`, value `ERR_TOOBIG`. -/
def ERR_TOOBIG : Nat := 1
/-- Source: `enum at24c_error`, value `ERR_NACK`. -/
def ERR_NACK : Nat := 2
/-- Source: `enum at24c_error`, value `ERR_DNACK`. -/
def ERR_DNACK : Nat := 3
/-- Source: `enum at24c_error`, value `ERR_BUS`. -/
def ERR_BUS : Nat := 4

/-- One observable step of a run: a call of the bus (with the value it returned), a call of
`delay`, the entry of `writeAddress` / `rawWriteBuffer` (with the arguments), or the return of
`rawWriteBuffer` (with the final `written`, the final `_lastError` and the value returned). -/
inductive Event where
  | callWriteAddress (address : Nat)
  | callRawWriteBuffer (address len : Nat)
  | returnRawWriteBuffer (written lastError : Nat) (ret : Int)
  | beginTransmission (device : Nat)
  | write (byte ret : Nat)
  | endTransmission (status : Nat)
  | requestFrom (device quantity ret : Nat)
  | available (ret : Int)
  | read (ret : Int)
  | delay (ms : Nat)
  deriving DecidableEq

/-- The external collaborators: the `TwoWire` methods the driver calls and Arduino `delay`,
as transformers of a hidden state `σ`. -/
structure TwoWire (σ : Type) where
  beginTransmission : σ → Nat → σ
  write : σ → Nat → σ × Nat
  endTransmission : σ → σ × Nat
  requestFrom : σ → Nat → Nat → σ × Nat
  available : σ → σ × Int
  read : σ → σ × Int
  delay : σ → Nat → σ

/-- The data members of `class AT24Cxxx` (the `_wire` pointer is passed separately). -/
structure AT24Cxxx where
  i2cAddress : Nat
  size : Int
  writeDelay : Nat
  lastError : Nat
  pageSize : Nat

/-- Source: the constructor `AT24Cxxx::AT24Cxxx(uint8_t address, TwoWire&, int writeDelay,
uint16_t size, uint8_t pageSize)`; each member initialiser converts to the member type
(`uint8_t _i2cAddress`, `int _size`, `uint8_t _writeDelay`, `uint8_t _pageSize`). -/
def AT24Cxxx.new (address : Nat) (writeDelay : Int) (size : Nat) (pageSize : Nat) : AT24Cxxx :=
  { i2cAddress := address % 256
    size := ((size % 65536 : Nat) : Int)
    writeDelay := (writeDelay % 256).toNat
    lastError := ERR_OK
    pageSize := pageSize % 256 }

/-- Source: `AT24Cxxx::getLastError`. -/
def getLastError (self : AT24Cxxx) : Nat := self.lastError

/-- Source: `AT24Cxxx::length` (`int _size` returned as `uint16_t`). -/
def length (self : AT24Cxxx) : Nat := (self.size % 65536).toNat

/-- Subtraction of `size_t` values on a platform whose `size_t` has `sizeBits` bits. -/
def subSize (sizeBits a b : Nat) : Nat :=
  if b ≤ a then a - b else (a + 2 ^ sizeBits - b % 2 ^ sizeBits) % 2 ^ sizeBits

/-- One more than `INT_MAX` on a platform whose `int` has `intBits` bits: `2 ^ (intBits - 1)`. -/
def intLimit (intBits : Nat) : Int := 2 ^ (intBits - 1)

/-- Conversion to `int` on a platform whose `int` has `intBits` bits (two's complement): the
value congruent to `x` modulo `2 ^ intBits` (written `2 * intLimit`) in the range
`-intLimit .. intLimit - 1`. -/
def toInt (intBits : Nat) (x : Int) : Int :=
  (x + intLimit intBits) % (2 * intLimit intBits) - intLimit intBits

/-! ## writeAddress -/

/-- Source: `AT24Cxxx::writeAddress`.  Returns the new bus state and the events. -/
def writeAddress {σ : Type} (w : TwoWire σ) (self : AT24Cxxx) (address : Nat) (s : σ) :
    σ × List Event :=
  let s1 := w.beginTransmission s self.i2cAddress
  let hi := (address / 256) % 256
  let r1 := w.write s1 hi
  let lo := address % 256
  let r2 := w.write r1.1 lo
  (r2.1, [Event.callWriteAddress address, Event.beginTransmission self.i2cAddress,
          Event.write hi r1.2, Event.write lo r2.2])

/-! ## readBuffer -/

/-- Outcome of the inner `for` loop of `readBuffer`. -/
structure CopyResult (σ : Type) where
  wire : σ
  buf : Nat → Nat
  i : Nat
  events : List Event

/-- Source: `for (i = 0; (i < readBytes) && _wire->available(); i++) dataPointer[i] = _wire->read();`
The first argument is `readBytes - i`; `base` is the offset of `dataPointer` in the buffer. -/
def copyLoop {σ : Type} (w : TwoWire σ) (base : Nat) :
    Nat → Nat → σ → (Nat → Nat) → List Event → CopyResult σ
  | 0, i, s, buf, ev => ⟨s, buf, i, ev⟩
  | k + 1, i, s, buf, ev =>
    let a := w.available s
    if a.2 ≠ 0 then
      let r := w.read a.1
      copyLoop w base k (i + 1) r.1 (Function.update buf (base + i) (r.2 % 256).toNat)
        (ev ++ [Event.available a.2, Event.read r.2])
    else
      ⟨a.1, buf, i, ev ++ [Event.available a.2]⟩

/-- Local variables of `readBuffer`, the object, the bus state, the destination memory and the
events so far. -/
structure ReadState (σ : Type) where
  self : AT24Cxxx
  wire : σ
  buf : Nat → Nat
  dataPointer : Nat
  lenRemaining : Nat
  nextAddress : Nat
  totalread : Int
  numberOfReads : Nat
  events : List Event

/-- Source: the body of the `do ... while` loop of `readBuffer`.  The flag is `true` when the
body was left through `break`.  `totalread += i` (an `int` plus a `size_t`) is stored back into
the `int` through `toInt`. -/
def readBody {σ : Type} (w : TwoWire σ) (intBits sizeBits : Nat) (st : ReadState σ) :
    ReadState σ × Bool :=
  let wa := writeAddress w st.self st.nextAddress st.wire
  let e := w.endTransmission wa.1
  let err := e.2 % 256
  let ev1 := st.events ++ wa.2 ++ [Event.endTransmission e.2]
  if err ≠ ERR_OK then
    ({ st with self := { st.self with lastError := err }, wire := e.1, events := ev1 }, true)
  else
    let bytesToRead := min st.lenRemaining MAX_ALLOWED_LEN_IN_REQUESTFROM
    let rq := w.requestFrom e.1 st.self.i2cAddress bytesToRead
    let readBytes := rq.2
    let c := copyLoop w st.dataPointer readBytes 0 rq.1 st.buf
      (ev1 ++ [Event.requestFrom st.self.i2cAddress bytesToRead rq.2])
    ({ self := { st.self with lastError := err }
       wire := c.wire
       buf := c.buf
       dataPointer := st.dataPointer + c.i
       lenRemaining := subSize sizeBits st.lenRemaining c.i
       nextAddress := (st.nextAddress + c.i) % 65536
       totalread := toInt intBits (st.totalread + (c.i : Int))
       numberOfReads := st.numberOfReads
       events := c.events }, false)

/-- Source: the `do { ... } while ((lenRemaining > 0) && (++numberOfReads < len))` loop of
`readBuffer`.  `numberOfReads` is a `uint8_t`, so `++numberOfReads` is taken modulo 256.
The types give the loop no bound, so it runs on fuel: `none` means that the loop is still
running after `fuel` iterations. -/
def readLoop {σ : Type} (w : TwoWire σ) (intBits sizeBits len : Nat) :
    Nat → ReadState σ → Option (ReadState σ)
  | 0, _ => none
  | fuel + 1, st =>
    let b := readBody w intBits sizeBits st
    if b.2 then some b.1
    else if 0 < b.1.lenRemaining then
      let n := (b.1.numberOfReads + 1) % 256
      if n < len then readLoop w intBits sizeBits len fuel { b.1 with numberOfReads := n }
      else some { b.1 with numberOfReads := n }
    else some b.1

/-- What a caller sees after `readBuffer`: the return value, the object, the bus, the
destination memory and the events of the call. -/
structure ReadResult (σ : Type) where
  ret : Int
  self : AT24Cxxx
  wire : σ
  buf : Nat → Nat
  events : List Event

/-- Source: `AT24Cxxx::readBuffer(uint16_t address, uint8_t *data, size_t len)`.
`buf` is the memory `data` points to. -/
def readBuffer {σ : Type} (w : TwoWire σ) (intBits sizeBits fuel : Nat) (self : AT24Cxxx)
    (address : Nat) (buf : Nat → Nat) (len : Nat) (s : σ) : Option (ReadResult σ) :=
  let self1 := { self with lastError := ERR_OK }
  if len = 0 then some ⟨0, self1, s, buf, []⟩
  else
    (readLoop w intBits sizeBits len fuel
      { self := self1, wire := s, buf := buf, dataPointer := 0, lenRemaining := len,
        nextAddress := address % 65536, totalread := 0, numberOfReads := 0, events := [] }).map
      fun st => ⟨st.totalread, st.self, st.wire, st.buf, st.events⟩

/-! ## rawWriteBuffer and writeBuffer -/

/-- Source: `for (written = 0; written < len; written++) { if (_wire->write(data[written]) != 1) break; }`
The first argument is `len - written`.  Returns the bus state, `written` and the events. -/
def queueLoop {σ : Type} (w : TwoWire σ) (data : Nat → Nat) :
    Nat → Nat → σ → List Event → σ × Nat × List Event
  | 0, written, s, ev => (s, written, ev)
  | k + 1, written, s, ev =>
    let r := w.write s (data written)
    if r.2 ≠ 1 then (r.1, written, ev ++ [Event.write (data written) r.2])
    else queueLoop w data k (written + 1) r.1 (ev ++ [Event.write (data written) r.2])

/-- What `rawWriteBuffer` leaves behind: return value, object, bus state, events of the call,
and the value of the local `written` at the end of the byte loop. -/
structure RawWriteResult (σ : Type) where
  ret : Int
  self : AT24Cxxx
  wire : σ
  events : List Event
  queued : Nat

/-- Source: `AT24Cxxx::rawWriteBuffer(uint16_t address, const uint8_t *data, size_t len)`. -/
def rawWriteBuffer {σ : Type} (w : TwoWire σ) (self : AT24Cxxx) (address : Nat)
    (data : Nat → Nat) (len : Nat) (s : σ) : RawWriteResult σ :=
  let wa := writeAddress w { self with lastError := ERR_OK } address s
  let q := queueLoop w data len 0 wa.1 (Event.callRawWriteBuffer address len :: wa.2)
  let e := w.endTransmission q.1
  let err := e.2 % 256
  let s1 := w.delay e.1 self.writeDelay
  { ret := if err = 0 then (q.2.1 : Int) else 0
    self := { self with lastError := err }
    wire := s1
    events := q.2.2 ++ [Event.endTransmission e.2, Event.delay self.writeDelay,
      Event.returnRawWriteBuffer q.2.1 err (if err = 0 then (q.2.1 : Int) else 0)]
    queued := q.2.1 }

/-- Local variables of `writeBuffer`, the object, the bus state and the events so far. -/
structure WriteState (σ : Type) where
  self : AT24Cxxx
  wire : σ
  dataToWrite : Nat
  lenRemaining : Nat
  nextAddress : Nat
  totalWritten : Int
  numberOfWrites : Nat
  events : List Event

/-- Source: the body of the `do ... while` loop of `writeBuffer`.  The flag is `true` when the
body was left through `break`.  `written` never exceeds `lenRemaining` (it is at most
`bytesToWrite`), so `lenRemaining -= written` cannot wrap.  `totalWritten += written` (an `int`
plus a `size_t`) is stored back into the `int` through `toInt`.  The source computes
`nextAddress % _pageSize`, which is a division by zero when `_pageSize == 0`; the model is
meant for `pageSize > 0` (the device invariant), and the theorems that depend on the chunk
length assume it. -/
def writeBody {σ : Type} (w : TwoWire σ) (intBits : Nat) (data : Nat → Nat) (st : WriteState σ) :
    WriteState σ × Bool :=
  let locationOnPage := st.nextAddress % st.self.pageSize
  let maxBytesToWrite := st.self.pageSize - locationOnPage
  let bytesToWrite := min maxBytesToWrite st.lenRemaining
  let r := rawWriteBuffer w st.self st.nextAddress (fun i => data (st.dataToWrite + i))
    bytesToWrite st.wire
  let written := r.ret.toNat
  if getLastError r.self ≠ ERR_OK then
    ({ st with self := r.self, wire := r.wire, events := st.events ++ r.events }, true)
  else
    ({ self := r.self
       wire := r.wire
       dataToWrite := st.dataToWrite + written
       lenRemaining := st.lenRemaining - written
       nextAddress := (st.nextAddress + written) % 65536
       totalWritten := toInt intBits (st.totalWritten + (written : Int))
       numberOfWrites := st.numberOfWrites
       events := st.events ++ r.events }, false)

/-- Source: the `do { ... } while ((lenRemaining > 0) && (++numberOfWrites < len))` loop of
`writeBuffer`.  `numberOfWrites` is a `size_t` that stays below `len`, so it cannot wrap. -/
def writeLoop {σ : Type} (w : TwoWire σ) (intBits : Nat) (data : Nat → Nat) (len : Nat)
    (st : WriteState σ) : WriteState σ :=
  let b := writeBody w intBits data st
  if b.2 then b.1
  else if 0 < b.1.lenRemaining then
    if b.1.numberOfWrites + 1 < len then
      writeLoop w intBits data len { b.1 with numberOfWrites := b.1.numberOfWrites + 1 }
    else { b.1 with numberOfWrites := b.1.numberOfWrites + 1 }
  else b.1
termination_by len - st.numberOfWrites
decreasing_by
  simp_wf
  have h : (writeBody w intBits data st).1.numberOfWrites = st.numberOfWrites := by
    unfold writeBody
    dsimp only
    split <;> rfl
  have hb : (writeBody w intBits data st).1.numberOfWrites + 1 < len := by assumption
  rw [h] at hb ⊢
  omega

/-- What a caller sees after `writeBuffer`. -/
structure WriteResult (σ : Type) where
  ret : Int
  self : AT24Cxxx
  wire : σ
  events : List Event

/-- Source: `AT24Cxxx::writeBuffer(uint16_t address, const uint8_t *data, size_t len)`. -/
def writeBuffer {σ : Type} (w : TwoWire σ) (intBits : Nat) (self : AT24Cxxx) (address : Nat)
    (data : Nat → Nat) (len : Nat) (s : σ) : WriteResult σ :=
  let st := writeLoop w intBits data len
    { self := self, wire := s, dataToWrite := 0, lenRemaining := len,
      nextAddress := address % 65536, totalWritten := 0, numberOfWrites := 0, events := [] }
  ⟨st.totalWritten, st.self, st.wire, st.events⟩

/-! ## Single-byte accessors -/

/-- What a caller sees after `read`: the byte returned, the object, the bus state, the events,
and the return value of the inner `readBuffer` call. -/
structure ReadByteResult (σ : Type) where
  value : Nat
  self : AT24Cxxx
  wire : σ
  events : List Event
  count : Int

/-- Source: `AT24Cxxx::read(int idx)`.  `idx` is converted to `uint16_t`; `result0` is the
indeterminate initial content of the local `result`. -/
def read {σ : Type} (w : TwoWire σ) (intBits sizeBits fuel : Nat) (self : AT24Cxxx) (idx : Int)
    (result0 : Nat) (s : σ) : Option (ReadByteResult σ) :=
  (readBuffer w intBits sizeBits fuel self (idx % 65536).toNat (fun _ => result0) 1 s).map
    fun r => ⟨r.buf 0, r.self, r.wire, r.events, r.ret⟩

/-- Source: `AT24Cxxx::write(int idx, uint8_t val)`. -/
def write {σ : Type} (w : TwoWire σ) (intBits : Nat) (self : AT24Cxxx) (idx : Int) (val : Nat)
    (s : σ) :
    WriteResult σ :=
  writeBuffer w intBits self (idx % 65536).toNat (fun _ => val) 1 s

/-- What a caller sees after `update`. -/
structure UpdateResult (σ : Type) where
  self : AT24Cxxx
  wire : σ
  events : List Event

/-- Source: `AT24Cxxx::update(int idx, uint8_t val)`: `if (val != read(idx)) write(idx, val);` -/
def update {σ : Type} (w : TwoWire σ) (intBits sizeBits fuel : Nat) (self : AT24Cxxx) (idx : Int)
    (val : Nat) (result0 : Nat) (s : σ) : Option (UpdateResult σ) :=
  match read w intBits sizeBits fuel self idx result0 s with
  | none => none
  | some r =>
    if val ≠ r.value then
      let wr := write w intBits r.self idx val r.wire
      some ⟨wr.self, wr.wire, r.events ++ wr.events⟩
    else some ⟨r.self, r.wire, r.events⟩

/-! ## Reading the event list -/

/-- The `(address, len)` arguments of the `rawWriteBuffer` calls in an event list, in order. -/
def rawWrites (ev : List Event) : List (Nat × Nat) :=
  ev.filterMap fun e =>
    match e with
    | Event.callRawWriteBuffer a n => some (a, n)
    | _ => none

/-- The `(written, lastError, return value)` of the `rawWriteBuffer` returns, in order. -/
def rawReturns (ev : List Event) : List (Nat × Nat × Int) :=
  ev.filterMap fun e =>
    match e with
    | Event.returnRawWriteBuffer q l r => some (q, l, r)
    | _ => none

/-- The durations of the `delay` calls in an event list, in order. -/
def delays (ev : List Event) : List Nat :=
  ev.filterMap fun e =>
    match e with
    | Event.delay ms => some ms
    | _ => none

/-- The statuses returned by the `endTransmission` calls in an event list, in order. -/
def statuses (ev : List Event) : List Nat :=
  ev.filterMap fun e =>
    match e with
    | Event.endTransmission st => some st
    | _ => none

/-- The arguments of the `writeAddress` calls in an event list, in order. -/
def addressCalls (ev : List Event) : List Nat :=
  ev.filterMap fun e =>
    match e with
    | Event.callWriteAddress a => some a
    | _ => none

/-- The quantities asked for by the `requestFrom` calls in an event list, in order. -/
def requests (ev : List Event) : List Nat :=
  ev.filterMap fun e =>
    match e with
    | Event.requestFrom _ n _ => some n
    | _ => none

/-- The values returned by the `read` calls in an event list, in order: the bytes received. -/
def received (ev : List Event) : List Int :=
  ev.filterMap fun e =>
    match e with
    | Event.read v => some v
    | _ => none

/-- The numbers of bytes the `requestFrom` calls in an event list returned, in order. -/
def deliveries (ev : List Event) : List Nat :=
  ev.filterMap fun e =>
    match e with
    | Event.requestFrom _ _ r => some r
    | _ => none

/-- The data phase and close of one raw write: `write` calls only, then `endTransmission`,
then `delay`, then the return marker, and nothing after it. -/
def isRawWriteTail : List Event → Bool
  | [Event.endTransmission _, Event.delay _, Event.returnRawWriteBuffer _ _ _] => true
  | Event.write _ _ :: t => isRawWriteTail t
  | _ => false

/-- The events of one raw write attempt: the call marker, the address phase opening the
transaction for the same address, then `isRawWriteTail`. -/
def isRawWriteBlock : List Event → Bool
  | Event.callRawWriteBuffer a _ :: Event.callWriteAddress b :: Event.beginTransmission _ :: t =>
    decide (a = b) && isRawWriteTail t
  | _ => false

/-! ## A bus on which nothing goes wrong -/

/-- Every transaction ends with status success. -/
def TransactionsSucceed {σ : Type} (w : TwoWire σ) : Prop :=
  ∀ s, (w.endTransmission s).2 = 0

/-- Every byte handed to `write` is accepted. -/
def AcceptsEveryByte {σ : Type} (w : TwoWire σ) : Prop :=
  ∀ s b, (w.write s b).2 = 1

/-- Every request delivers all the bytes asked for: `requestFrom` returns the quantity and
leaves that many bytes pending, `available` is non-zero exactly while bytes are pending, and
`read` takes one pending byte.  `pending` counts the received bytes not yet read. -/
structure DeliversAll {σ : Type} (w : TwoWire σ) (pending : σ → Nat) : Prop where
  request_ret : ∀ s d n, (w.requestFrom s d n).2 = n
  request_pending : ∀ s d n, pending (w.requestFrom s d n).1 = n
  available_ret : ∀ s, (w.available s).2 ≠ 0 ↔ 0 < pending s
  available_pending : ∀ s, pending (w.available s).1 = pending s
  read_pending : ∀ s, pending (w.read s).1 = pending s - 1

/-! ## A byte-addressable memory behind the bus -/

/-- State of the memory device and of the bus buffers in front of it: the memory cells, the
device address pointer, the bytes queued in the open transaction and the bytes received. -/
structure MemState where
  mem : Nat → Nat
  pointer : Nat
  tx : List Nat
  rx : List Nat

/-- Store `bytes` into consecutive cells starting at `p` (addresses are 16 bits wide). -/
def storeBytes (mem : Nat → Nat) (p : Nat) : List Nat → Nat → Nat
  | [] => mem
  | b :: t => storeBytes (Function.update mem (p % 65536) (b % 256)) (p + 1) t

/-- End of a transaction on the memory device: the first two queued bytes set the address
pointer (high byte first), the rest is stored from there on. -/
def MemState.commit (s : MemState) : MemState :=
  match s.tx with
  | hi :: lo :: bytes =>
    { mem := storeBytes s.mem (hi * 256 + lo) bytes
      pointer := (hi * 256 + lo + bytes.length) % 65536
      tx := []
      rx := s.rx }
  | _ => { s with tx := [] }

/-- A fault-free bus backed by a byte-addressable memory: every byte is accepted, every
transaction succeeds, every request delivers the cells from the address pointer on. -/
def memWire : TwoWire MemState where
  beginTransmission s _ := { s with tx := [] }
  write s b := ({ s with tx := s.tx ++ [b] }, 1)
  endTransmission s := (s.commit, 0)
  requestFrom s _ n :=
    ({ s with rx := (List.range n).map (fun i => s.mem ((s.pointer + i) % 65536))
              pointer := (s.pointer + n) % 65536 }, n)
  available s := (s, (s.rx.length : Int))
  read s :=
    match s.rx with
    | [] => (s, -1)
    | b :: t => ({ s with rx := t }, (b : Int))
  delay s _ := s

/-- A memory device with every cell holding `fill`. -/
def MemState.blank (fill : Nat) : MemState :=
  { mem := fun _ => fill, pointer := 0, tx := [], rx := [] }

/-! ## Scripted buses -/

/-- State of a scripted bus: the statuses still to be returned by `endTransmission` (success
once the list is used up) and the number of received bytes not yet read. -/
structure ScriptState where
  script : List Nat
  pending : Nat

/-- The scripted bus: `accept` is the value every `write` returns, `deliver n` the number of
bytes a request for `n` bytes delivers (each of value `0`). -/
def scriptWire (accept : Nat) (deliver : Nat → Nat) : TwoWire ScriptState where
  beginTransmission s _ := s
  write s _ := (s, accept)
  endTransmission s := ({ s with script := s.script.tail }, s.script.headD 0)
  requestFrom s _ n := ({ s with pending := deliver n }, deliver n)
  available s := (s, (s.pending : Int))
  read s := ({ s with pending := s.pending - 1 }, 0)
  delay s _ := s

/-! ## Buses with a bounded transmit buffer or short deliveries -/

/-- A transmit buffer of bounded capacity: `room` is the number of bytes the open transaction
still accepts; `write` returns 1 exactly when there is room, and uses up one unit of it. -/
structure TxRoom {σ : Type} (w : TwoWire σ) (room : σ → Nat) : Prop where
  write_ret : ∀ s b, (w.write s b).2 = 1 ↔ 0 < room s
  write_room : ∀ s b, room (w.write s b).1 = room s - 1

/-- Every request delivers at most the number of bytes asked for and, when at least one byte
is asked for, at least one byte: `requestFrom` returns that number and leaves as many bytes
pending, `available` is non-zero exactly while bytes are pending, `read` takes one of them. -/
structure DeliversSome {σ : Type} (w : TwoWire σ) (pending : σ → Nat) : Prop where
  request_le : ∀ s d n, (w.requestFrom s d n).2 ≤ n
  request_pos : ∀ s d n, 0 < n → 0 < (w.requestFrom s d n).2
  request_pending : ∀ s d n, pending (w.requestFrom s d n).1 = (w.requestFrom s d n).2
  available_ret : ∀ s, (w.available s).2 ≠ 0 ↔ 0 < pending s
  available_pending : ∀ s, pending (w.available s).1 = pending s
  read_pending : ∀ s, pending (w.read s).1 = pending s - 1

/-- State of the bus `shortWire`: the room left in the open transaction and the number of
received bytes not yet read. -/
structure ShortState where
  room : Nat
  pending : Nat

/-- A bus whose transactions all succeed, whose transmit buffer holds `cap` bytes per
transaction (address bytes included) and whose requests for `n` bytes deliver `deliver n`
bytes (each of value 7). -/
def shortWire (cap : Nat) (deliver : Nat → Nat) : TwoWire ShortState where
  beginTransmission s _ := { s with room := cap }
  write s _ := if 0 < s.room then ({ s with room := s.room - 1 }, 1) else (s, 0)
  endTransmission s := (s, 0)
  requestFrom s _ n := ({ s with pending := deliver n }, deliver n)
  available s := (s, (s.pending : Int))
  read s := ({ s with pending := s.pending - 1 }, 7)
  delay s _ := s

/-! ## The page split, after the wording of the specification -/

/-- The page split of `[a, a + L)` for page size `P`, after the words of the specification:
the first raw write starts at `a` and has length `min (P - a mod P) L`; every later one starts
on the next page boundary and has length `min P remaining`.  Pairs are `(address, length)`. -/
def pageSplit (P a L : Nat) : List (Nat × Nat) :=
  (a, min (P - a % P) L) ::
    (List.range ((L - min (P - a % P) L + P - 1) / P)).map
      (fun j => (a + min (P - a % P) L + P * j, min P (L - min (P - a % P) L - P * j)))

/-! ## The loops, one iteration at a time -/

/-- One turn of the `do ... while` loop of `readBuffer`: the body, then the loop test.  The
flag tells whether the loop goes on to another iteration. -/
def readStep {σ : Type} (w : TwoWire σ) (intBits sizeBits len : Nat) (st : ReadState σ) :
    ReadState σ × Bool :=
  let b := readBody w intBits sizeBits st
  if b.2 then (b.1, false)
  else if 0 < b.1.lenRemaining then
    ({ b.1 with numberOfReads := (b.1.numberOfReads + 1) % 256 },
      decide ((b.1.numberOfReads + 1) % 256 < len))
  else (b.1, false)

/-- The state of `readBuffer` at the iteration boundary reached after `n` turns of the loop
(or at the exit of the loop, if that comes earlier); the flag tells whether the loop is still
running there. -/
def readIter {σ : Type} (w : TwoWire σ) (intBits sizeBits len : Nat) :
    Nat → ReadState σ → ReadState σ × Bool
  | 0, st => (st, true)
  | n + 1, st =>
    if (readStep w intBits sizeBits len st).2 then
      readIter w intBits sizeBits len n (readStep w intBits sizeBits len st).1
    else readStep w intBits sizeBits len st

/-- One turn of the `do ... while` loop of `writeBuffer`: the body, then the loop test.  The
flag tells whether the loop goes on to another iteration. -/
def writeStep {σ : Type} (w : TwoWire σ) (intBits : Nat) (data : Nat → Nat) (len : Nat)
    (st : WriteState σ) :
    WriteState σ × Bool :=
  let b := writeBody w intBits data st
  if b.2 then (b.1, false)
  else if 0 < b.1.lenRemaining then
    ({ b.1 with numberOfWrites := b.1.numberOfWrites + 1 },
      decide (b.1.numberOfWrites + 1 < len))
  else (b.1, false)

/-- The state of `writeBuffer` at the iteration boundary reached after `n` turns of the loop
(or at the exit of the loop, if that comes earlier); the flag tells whether the loop is still
running there. -/
def writeIter {σ : Type} (w : TwoWire σ) (intBits : Nat) (data : Nat → Nat) (len : Nat) :
    Nat → WriteState σ → WriteState σ × Bool
  | 0, st => (st, true)
  | n + 1, st =>
    if (writeStep w intBits data len st).2 then
      writeIter w intBits data len n (writeStep w intBits data len st).1
    else writeStep w intBits data len st

/-! ## Auxiliary definitions for the proofs -/

/-- The `rawWriteBuffer` call made by the loop body of `writeBuffer` in state `st`. -/
def writeCall {σ : Type} (w : TwoWire σ) (data : Nat → Nat) (st : WriteState σ) :
    RawWriteResult σ :=
  rawWriteBuffer w st.self st.nextAddress (fun i => data (st.dataToWrite + i))
    (min (st.self.pageSize - st.nextAddress % st.self.pageSize) st.lenRemaining) st.wire

/-- The initial loop state of `writeBuffer`. -/
def writeInit {σ : Type} (self : AT24Cxxx) (address len : Nat) (s : σ) : WriteState σ :=
  { self := self, wire := s, dataToWrite := 0, lenRemaining := len,
    nextAddress := address % 65536, totalWritten := 0, numberOfWrites := 0, events := [] }

/-- The loop of `writeBuffer` run for at most `fuel` iterations: the same steps as `writeLoop`,
by recursion on `fuel`, so that a concrete run can be evaluated (`writeLoop_eq_fuel` shows that
it agrees with `writeLoop` once `fuel` reaches the bound of the loop). -/
def writeLoopFuel {σ : Type} (w : TwoWire σ) (intBits : Nat) (data : Nat → Nat) (len : Nat) :
    Nat → WriteState σ → WriteState σ
  | 0, st => st
  | fuel + 1, st =>
    let b := writeBody w intBits data st
    if b.2 then b.1
    else if 0 < b.1.lenRemaining then
      if b.1.numberOfWrites + 1 < len then
        writeLoopFuel w intBits data len fuel { b.1 with numberOfWrites := b.1.numberOfWrites + 1 }
      else { b.1 with numberOfWrites := b.1.numberOfWrites + 1 }
    else b.1

/-- The state the loop of `writeBuffer` ends in, described through the returns of its raw
writes: all but the last ended with success and returned the bytes they queued, the total is
the sum of what they returned (converted to `int`), and the last error is the one of the last
raw write. -/
def WriteAccount {σ : Type} (intBits : Nat) (fin : WriteState σ) : Prop :=
  ∃ init last, rawReturns fin.events = init ++ [last] ∧
    (∀ t ∈ init, t.2.1 = 0 ∧ t.2.2 = (t.1 : Int)) ∧
    fin.totalWritten = toInt intBits ((init.map fun t => (t.1 : Int)).sum + last.2.2) ∧
    last.2.2 = (if last.2.1 = 0 then (last.1 : Int) else 0) ∧
    fin.self.lastError = last.2.1 ∧
    (rawWrites fin.events).length = init.length + 1

/-- The `endTransmission` call made by the loop body of `readBuffer` in state `st`. -/
def readEnd {σ : Type} (w : TwoWire σ) (st : ReadState σ) : σ × Nat :=
  w.endTransmission (writeAddress w st.self st.nextAddress st.wire).1

/-- The `requestFrom` call made by the loop body of `readBuffer` in state `st`. -/
def readRequest {σ : Type} (w : TwoWire σ) (st : ReadState σ) : σ × Nat :=
  w.requestFrom (readEnd w st).1 st.self.i2cAddress
    (min st.lenRemaining MAX_ALLOWED_LEN_IN_REQUESTFROM)

/-- The events of the loop body of `readBuffer` in state `st` up to the `requestFrom` call. -/
def readHead {σ : Type} (w : TwoWire σ) (st : ReadState σ) : List Event :=
  st.events ++ (writeAddress w st.self st.nextAddress st.wire).2 ++
    [Event.endTransmission (readEnd w st).2] ++
    [Event.requestFrom st.self.i2cAddress (min st.lenRemaining MAX_ALLOWED_LEN_IN_REQUESTFROM)
      (readRequest w st).2]

/-- The copy loop run by the loop body of `readBuffer` in state `st`. -/
def readCopy {σ : Type} (w : TwoWire σ) (st : ReadState σ) : CopyResult σ :=
  copyLoop w st.dataPointer (readRequest w st).2 0 (readRequest w st).1 st.buf (readHead w st)

/-- The initial loop state of `readBuffer`. -/
def readInit {σ : Type} (self : AT24Cxxx) (address : Nat) (buf : Nat → Nat) (len : Nat)
    (s : σ) : ReadState σ :=
  { self := { self with lastError := ERR_OK }, wire := s, buf := buf, dataPointer := 0,
    lenRemaining := len, nextAddress := address % 65536, totalread := 0, numberOfReads := 0,
    events := [] }

/-- A list of bus `available` and `read` events only. -/
def AllCopy (xs : List Event) : Prop :=
  ∀ e ∈ xs, (∃ r, e = Event.available r) ∨ (∃ r, e = Event.read r)

/-- Loop invariant of `writeBuffer` on a fault-free bus, at the head of an iteration: the
bytes written so far and the bytes remaining add up to `len`, the cursor is `a` plus the bytes
written, and the raw writes so far are the first chunks of the page split. -/
def WriteSplitInv {σ : Type} (intBits P a len : Nat) (st : WriteState σ) : Prop :=
  st.self.pageSize = P ∧ st.dataToWrite + st.lenRemaining = len ∧
    0 < st.lenRemaining ∧ st.nextAddress = a + st.dataToWrite ∧
    st.totalWritten = toInt intBits (st.dataToWrite : Int) ∧ st.numberOfWrites ≤ st.dataToWrite ∧
    ((st.dataToWrite = 0 ∧ rawWrites st.events = []) ∨
      ∃ m, st.dataToWrite = min (P - a % P) len + P * m ∧
        min (P - a % P) len = P - a % P ∧
        rawWrites st.events = (a, min (P - a % P) len) ::
          (List.range m).map (fun j =>
            (a + min (P - a % P) len + P * j, min P (len - min (P - a % P) len - P * j))))

/-- The transfer state of `readBuffer` is consistent: remaining plus bytes transferred (the
advance of `dataPointer`) is the requested length, the `int` total is the number of bytes
transferred converted to `int`, and the cursor is the start address plus the bytes
transferred, modulo `2^16`. -/
def ReadTransferInv {σ : Type} (intBits a len : Nat) (st : ReadState σ) : Prop :=
  st.lenRemaining + st.dataPointer = len ∧
    st.totalread = toInt intBits (st.dataPointer : Int) ∧
    st.nextAddress = (a + st.dataPointer) % 65536

/-- The transfer state of `writeBuffer` is consistent: remaining plus bytes transferred (the
advance of `dataToWrite`) is the requested length, the `int` total is the number of bytes
transferred converted to `int`, and the cursor is the start address plus the bytes
transferred, modulo `2^16`. -/
def WriteTransferInv {σ : Type} (intBits a len : Nat) (st : WriteState σ) : Prop :=
  st.lenRemaining + st.dataToWrite = len ∧
    st.totalWritten = toInt intBits (st.dataToWrite : Int) ∧
    st.nextAddress = (a + st.dataToWrite) % 65536

/-- The destination of `readBuffer` holds the bytes received so far, in order, at the
indices below `dataPointer`, and its initial content `buf0` from there on; the number of bytes
received equals `dataPointer` and the `int` total is that number converted to `int`. -/
def ReadFrameInv {σ : Type} (intBits : Nat) (buf0 : Nat → Nat) (st : ReadState σ) : Prop :=
  st.totalread = toInt intBits (st.dataPointer : Int) ∧
    (received st.events).length = st.dataPointer ∧
    ∀ x, st.buf x =
      if x < st.dataPointer then ((received st.events).getD x 0 % 256).toNat else buf0 x

/-- At the head of an iteration of `readBuffer`: every address phase so far ended with
success, the `int` total is the number of bytes received (converted to `int`), and every
address phase was followed by one request. -/
def ReadErrInv {σ : Type} (intBits : Nat) (st : ReadState σ) : Prop :=
  (∀ x ∈ statuses st.events, x % 256 = 0) ∧
    st.totalread = toInt intBits ((received st.events).length : Int) ∧
    (requests st.events).length = (statuses st.events).length

/-- The first data byte of every transaction is accepted: after `beginTransmission` and the
two address bytes, a `write` returns 1. -/
def AcceptsFirstByte {σ : Type} (w : TwoWire σ) : Prop :=
  ∀ s d b1 b2 b, (w.write (w.write (w.write (w.beginTransmission s d) b1).1 b2).1 b).2 = 1

/-- One step of reading the queued data bytes off an event list.  The two `write` calls that
follow an entry of `writeAddress` carry the address; every later `write` that returned 1 has
queued its byte.  The state is the number of address bytes still to come and the data bytes
queued so far. -/
def queuedStep (st : Nat × List Nat) (e : Event) : Nat × List Nat :=
  match e with
  | Event.callWriteAddress _ => (2, st.2)
  | Event.write b r =>
    if st.1 = 0 then (0, if r = 1 then st.2 ++ [b] else st.2) else (st.1 - 1, st.2)
  | _ => st

/-- The data bytes queued on the bus in an event list, in order. -/
def queuedData (ev : List Event) : List Nat := (ev.foldl queuedStep (0, [])).2

/-- The numbers of bytes the `rawWriteBuffer` calls in an event list returned as written, in
order. -/
def writtenCounts (ev : List Event) : List Nat := (rawReturns ev).map fun t => t.2.2.toNat

/-- The cursor addresses that go with a list of per-operation byte counts `ds` from start
address `a`: the `j`-th is `a` plus the bytes moved by operations `0 .. j-1`, modulo `2^16`. -/
def cursors (a : Nat) (ds : List Nat) : List Nat :=
  (List.range ds.length).map (fun j => (a + (ds.take j).sum) % 65536)

/-- Loop invariant of `readBuffer` on a bus with short deliveries, at the head of an
iteration. -/
def ShortReadInv {σ : Type} (intBits a len : Nat) (st : ReadState σ) : Prop :=
  st.dataPointer + st.lenRemaining = len ∧ 0 < st.lenRemaining ∧
    st.totalread = toInt intBits (st.dataPointer : Int) ∧
    st.nextAddress = (a + st.dataPointer) % 65536 ∧
    st.numberOfReads ≤ st.dataPointer ∧
    (deliveries st.events).sum = st.dataPointer ∧
    (∀ d ∈ deliveries st.events, 1 ≤ d) ∧
    addressCalls st.events = cursors a (deliveries st.events)

/-- Loop invariant of `writeBuffer` on a bus with short writes, at the head of an
iteration. -/
def ShortWriteInv {σ : Type} (intBits a len : Nat) (data : Nat → Nat) (st : WriteState σ) :
    Prop :=
  st.dataToWrite + st.lenRemaining = len ∧ 0 < st.lenRemaining ∧
    st.totalWritten = toInt intBits (st.dataToWrite : Int) ∧
    st.nextAddress = (a + st.dataToWrite) % 65536 ∧
    st.numberOfWrites ≤ st.dataToWrite ∧
    0 < st.self.pageSize ∧
    st.events.foldl queuedStep (0, []) = (0, (List.range st.dataToWrite).map data) ∧
    (writtenCounts st.events).sum = st.dataToWrite ∧
    (∀ d ∈ writtenCounts st.events, 1 ≤ d) ∧
    (rawWrites st.events).map Prod.fst = cursors a (writtenCounts st.events)

/-- A list of bus `write` events only. -/
def AllWrites (ws : List Event) : Prop := ∀ e ∈ ws, ∃ b r, e = Event.write b r

/-! ## Conversion to `int` -/

theorem intLimit_pos (intBits : Nat) : 0 < intLimit intBits := by
  unfold intLimit
  positivity

/-- On a platform whose `int` has at least 16 bits, `INT_MAX` is at least 32767. -/
theorem intLimit_ge (intBits : Nat) (h : 16 ≤ intBits) : 32768 ≤ intLimit intBits := by
  unfold intLimit
  have h1 : (2 : Nat) ^ 15 ≤ 2 ^ (intBits - 1) := Nat.pow_le_pow_right (by decide) (by omega)
  have h2 : ((2 ^ 15 : Nat) : Int) ≤ ((2 ^ (intBits - 1) : Nat) : Int) := Int.ofNat_le.2 h1
  push_cast at h2
  omega

/-- A value in the range of `int` is not changed by the conversion. -/
theorem toInt_of_fits (intBits : Nat) (x : Int) (h1 : -intLimit intBits ≤ x)
    (h2 : x < intLimit intBits) : toInt intBits x = x := by
  unfold toInt
  rw [Int.emod_eq_of_lt (by omega) (by omega)]
  omega

theorem toInt_zero (intBits : Nat) : toInt intBits 0 = 0 :=
  toInt_of_fits intBits 0 (by have := intLimit_pos intBits; omega) (intLimit_pos intBits)

/-- Converting an intermediate sum to `int` does not change the converted total. -/
theorem toInt_add (intBits : Nat) (x y : Int) :
    toInt intBits (toInt intBits x + y) = toInt intBits (x + y) := by
  unfold toInt
  have h : (x + intLimit intBits) % (2 * intLimit intBits) - intLimit intBits + y
      + intLimit intBits = (x + intLimit intBits) % (2 * intLimit intBits) + y := by ring
  rw [h, Int.emod_add_emod]
  congr 2
  ring

/-- The conversion lands in the range of `int`. -/
theorem toInt_range (intBits : Nat) (x : Int) :
    -intLimit intBits ≤ toInt intBits x ∧ toInt intBits x < intLimit intBits := by
  unfold toInt
  have hp := intLimit_pos intBits
  have h1 := Int.emod_nonneg (x + intLimit intBits) (by omega : 2 * intLimit intBits ≠ 0)
  have h2 := Int.emod_lt_of_pos (x + intLimit intBits) (by omega : 0 < 2 * intLimit intBits)
  omega

/-- The conversion of a non-negative value never exceeds the value. -/
theorem toInt_le_self (intBits : Nat) (x : Int) (hx : 0 ≤ x) : toInt intBits x ≤ x := by
  unfold toInt
  have hp := intLimit_pos intBits
  have hq : 0 ≤ (x + intLimit intBits) / (2 * intLimit intBits) :=
    Int.ediv_nonneg (by omega) (by omega)
  have hm := Int.mul_nonneg (by omega : (0 : Int) ≤ 2 * intLimit intBits) hq
  have hd := Int.emod_add_ediv (x + intLimit intBits) (2 * intLimit intBits)
  omega

/-- The running `int` total: adding `n` bytes to the converted count of `m` bytes gives the
converted count of `m + n` bytes. -/
theorem toInt_count (intBits m n : Nat) :
    toInt intBits (toInt intBits (m : Int) + (n : Int)) = toInt intBits ((m + n : Nat) : Int) := by
  rw [toInt_add]
  push_cast
  rfl

/-! ## Lemmas on the event projections -/

@[simp] theorem rawWrites_nil : rawWrites [] = [] := rfl

@[simp] theorem rawWrites_append (a b : List Event) :
    rawWrites (a ++ b) = rawWrites a ++ rawWrites b := by
  simp [rawWrites, List.filterMap_append]

@[simp] theorem rawReturns_nil : rawReturns [] = [] := rfl

@[simp] theorem rawReturns_append (a b : List Event) :
    rawReturns (a ++ b) = rawReturns a ++ rawReturns b := by
  simp [rawReturns, List.filterMap_append]

@[simp] theorem delays_nil : delays [] = [] := rfl

@[simp] theorem delays_append (a b : List Event) :
    delays (a ++ b) = delays a ++ delays b := by
  simp [delays, List.filterMap_append]

@[simp] theorem statuses_nil : statuses [] = [] := rfl

@[simp] theorem statuses_append (a b : List Event) :
    statuses (a ++ b) = statuses a ++ statuses b := by
  simp [statuses, List.filterMap_append]

@[simp] theorem addressCalls_nil : addressCalls [] = [] := rfl

@[simp] theorem addressCalls_append (a b : List Event) :
    addressCalls (a ++ b) = addressCalls a ++ addressCalls b := by
  simp [addressCalls, List.filterMap_append]

@[simp] theorem requests_nil : requests [] = [] := rfl

@[simp] theorem requests_append (a b : List Event) :
    requests (a ++ b) = requests a ++ requests b := by
  simp [requests, List.filterMap_append]

theorem allWrites_nil : AllWrites [] := by
  intro e he
  cases he

theorem allWrites_append {a b : List Event} (ha : AllWrites a) (hb : AllWrites b) :
    AllWrites (a ++ b) := by
  intro e he
  rcases List.mem_append.1 he with h | h
  · exact ha e h
  · exact hb e h

theorem allWrites_single (b r : Nat) : AllWrites [Event.write b r] := by
  intro e he
  simp only [List.mem_singleton] at he
  exact ⟨b, r, he⟩

theorem allWrites_rawWrites {ws : List Event} (h : AllWrites ws) : rawWrites ws = [] := by
  induction ws with
  | nil => rfl
  | cons e t ih =>
    obtain ⟨b, r, rfl⟩ := h _ (List.mem_cons_self _ _)
    have ht : AllWrites t := fun x hx => h x (List.mem_cons_of_mem _ hx)
    simpa [AT24C.rawWrites] using ih ht

theorem allWrites_rawReturns {ws : List Event} (h : AllWrites ws) : rawReturns ws = [] := by
  induction ws with
  | nil => rfl
  | cons e t ih =>
    obtain ⟨b, r, rfl⟩ := h _ (List.mem_cons_self _ _)
    have ht : AllWrites t := fun x hx => h x (List.mem_cons_of_mem _ hx)
    simpa [AT24C.rawReturns] using ih ht

theorem allWrites_delays {ws : List Event} (h : AllWrites ws) : delays ws = [] := by
  induction ws with
  | nil => rfl
  | cons e t ih =>
    obtain ⟨b, r, rfl⟩ := h _ (List.mem_cons_self _ _)
    have ht : AllWrites t := fun x hx => h x (List.mem_cons_of_mem _ hx)
    simpa [AT24C.delays] using ih ht

theorem allWrites_statuses {ws : List Event} (h : AllWrites ws) : statuses ws = [] := by
  induction ws with
  | nil => rfl
  | cons e t ih =>
    obtain ⟨b, r, rfl⟩ := h _ (List.mem_cons_self _ _)
    have ht : AllWrites t := fun x hx => h x (List.mem_cons_of_mem _ hx)
    simpa [AT24C.statuses] using ih ht

theorem allWrites_isRawWriteTail {ws : List Event} (h : AllWrites ws) (st ms q l : Nat)
    (r : Int) :
    isRawWriteTail (ws ++ [Event.endTransmission st, Event.delay ms,
      Event.returnRawWriteBuffer q l r]) = true := by
  induction ws with
  | nil => rfl
  | cons e t ih =>
    obtain ⟨b, x, rfl⟩ := h _ (List.mem_cons_self _ _)
    have ht : AllWrites t := fun y hy => h y (List.mem_cons_of_mem _ hy)
    simpa [AT24C.isRawWriteTail] using ih ht

/-! ## The byte loop and `rawWriteBuffer` -/

/-- The byte loop only appends `write` events, and `written` ends between its start value and
the start value plus the number of bytes left to queue. -/
theorem queueLoop_spec {σ : Type} (w : TwoWire σ) (data : Nat → Nat) (k written : Nat) (s : σ)
    (ev : List Event) :
    ∃ ws, AllWrites ws ∧ (queueLoop w data k written s ev).2.2 = ev ++ ws ∧
      written ≤ (queueLoop w data k written s ev).2.1 ∧
      (queueLoop w data k written s ev).2.1 ≤ written + k := by
  induction k generalizing written s ev with
  | zero => exact ⟨[], allWrites_nil, by simp [queueLoop], le_refl _, le_refl _⟩
  | succ k ih =>
    by_cases h : (w.write s (data written)).2 ≠ 1
    · have e : queueLoop w data (k + 1) written s ev =
          ((w.write s (data written)).1, written,
            ev ++ [Event.write (data written) (w.write s (data written)).2]) := by
        simp only [queueLoop]
        rw [if_pos h]
      rw [e]
      exact ⟨[Event.write (data written) (w.write s (data written)).2], allWrites_single _ _,
        rfl, le_refl _, Nat.le_add_right _ _⟩
    · have e : queueLoop w data (k + 1) written s ev =
          queueLoop w data k (written + 1) (w.write s (data written)).1
            (ev ++ [Event.write (data written) (w.write s (data written)).2]) := by
        simp only [queueLoop]
        rw [if_neg h]
      rw [e]
      obtain ⟨ws, hws, hev, h1, h2⟩ := ih (written + 1) (w.write s (data written)).1
        (ev ++ [Event.write (data written) (w.write s (data written)).2])
      refine ⟨Event.write (data written) (w.write s (data written)).2 :: ws, ?_, ?_, ?_, ?_⟩
      · exact allWrites_append (allWrites_single _ _) hws
      · rw [hev]
        simp
      · omega
      · omega

/-- The shape of the events of one `rawWriteBuffer` call. -/
theorem rawWriteBuffer_events {σ : Type} (w : TwoWire σ) (self : AT24Cxxx) (address : Nat)
    (data : Nat → Nat) (len : Nat) (s : σ) :
    ∃ ws st, AllWrites ws ∧
      (rawWriteBuffer w self address data len s).events =
        [Event.callRawWriteBuffer address len, Event.callWriteAddress address,
          Event.beginTransmission self.i2cAddress] ++ ws ++
        [Event.endTransmission st, Event.delay self.writeDelay,
          Event.returnRawWriteBuffer (rawWriteBuffer w self address data len s).queued
            (rawWriteBuffer w self address data len s).self.lastError
            (rawWriteBuffer w self address data len s).ret] ∧
      (rawWriteBuffer w self address data len s).self.lastError = st % 256 := by
  obtain ⟨ws, hws, hev, -, -⟩ := queueLoop_spec w data len 0
    (writeAddress w { self with lastError := ERR_OK } address s).1
    (Event.callRawWriteBuffer address len ::
      (writeAddress w { self with lastError := ERR_OK } address s).2)
  refine ⟨[Event.write ((address / 256) % 256)
      (w.write (w.beginTransmission s self.i2cAddress) ((address / 256) % 256)).2,
    Event.write (address % 256)
      (w.write (w.write (w.beginTransmission s self.i2cAddress) ((address / 256) % 256)).1
        (address % 256)).2] ++ ws,
    (w.endTransmission (queueLoop w data len 0
      (writeAddress w { self with lastError := ERR_OK } address s).1
      (Event.callRawWriteBuffer address len ::
        (writeAddress w { self with lastError := ERR_OK } address s).2)).1).2,
    allWrites_append (allWrites_append (allWrites_single _ _) (allWrites_single _ _)) hws,
    ?_, rfl⟩
  simp only [rawWriteBuffer]
  rw [hev]
  simp [writeAddress]

theorem rawWriteBuffer_self {σ : Type} (w : TwoWire σ) (self : AT24Cxxx) (address : Nat)
    (data : Nat → Nat) (len : Nat) (s : σ) :
    (rawWriteBuffer w self address data len s).self =
      { self with lastError := (rawWriteBuffer w self address data len s).self.lastError } :=
  rfl

theorem rawWriteBuffer_queued_le {σ : Type} (w : TwoWire σ) (self : AT24Cxxx) (address : Nat)
    (data : Nat → Nat) (len : Nat) (s : σ) :
    (rawWriteBuffer w self address data len s).queued ≤ len := by
  obtain ⟨ws, -, -, -, h⟩ := queueLoop_spec w data len 0
    (writeAddress w { self with lastError := ERR_OK } address s).1
    (Event.callRawWriteBuffer address len ::
      (writeAddress w { self with lastError := ERR_OK } address s).2)
  simpa [rawWriteBuffer] using h

theorem rawWriteBuffer_ret {σ : Type} (w : TwoWire σ) (self : AT24Cxxx) (address : Nat)
    (data : Nat → Nat) (len : Nat) (s : σ) :
    (rawWriteBuffer w self address data len s).ret =
      if (rawWriteBuffer w self address data len s).self.lastError = 0 then
        ((rawWriteBuffer w self address data len s).queued : Int) else 0 :=
  rfl

theorem rawWriteBuffer_ret_toNat_le {σ : Type} (w : TwoWire σ) (self : AT24Cxxx)
    (address : Nat) (data : Nat → Nat) (len : Nat) (s : σ) :
    (rawWriteBuffer w self address data len s).ret.toNat ≤ len := by
  rw [rawWriteBuffer_ret]
  have h := rawWriteBuffer_queued_le w self address data len s
  split
  · simpa using h
  · simp

theorem rawWriteBuffer_rawWrites {σ : Type} (w : TwoWire σ) (self : AT24Cxxx) (address : Nat)
    (data : Nat → Nat) (len : Nat) (s : σ) :
    rawWrites (rawWriteBuffer w self address data len s).events = [(address, len)] := by
  obtain ⟨ws, st, hws, hev, -⟩ := rawWriteBuffer_events w self address data len s
  rw [hev, rawWrites_append, rawWrites_append, allWrites_rawWrites hws]
  rfl

theorem rawWriteBuffer_delays {σ : Type} (w : TwoWire σ) (self : AT24Cxxx) (address : Nat)
    (data : Nat → Nat) (len : Nat) (s : σ) :
    delays (rawWriteBuffer w self address data len s).events = [self.writeDelay] := by
  obtain ⟨ws, st, hws, hev, -⟩ := rawWriteBuffer_events w self address data len s
  rw [hev, delays_append, delays_append, allWrites_delays hws]
  rfl

theorem rawWriteBuffer_rawReturns {σ : Type} (w : TwoWire σ) (self : AT24Cxxx) (address : Nat)
    (data : Nat → Nat) (len : Nat) (s : σ) :
    rawReturns (rawWriteBuffer w self address data len s).events =
      [((rawWriteBuffer w self address data len s).queued,
        (rawWriteBuffer w self address data len s).self.lastError,
        (rawWriteBuffer w self address data len s).ret)] := by
  obtain ⟨ws, st, hws, hev, -⟩ := rawWriteBuffer_events w self address data len s
  rw [hev, rawReturns_append, rawReturns_append, allWrites_rawReturns hws]
  rfl

theorem rawWriteBuffer_statuses {σ : Type} (w : TwoWire σ) (self : AT24Cxxx) (address : Nat)
    (data : Nat → Nat) (len : Nat) (s : σ) :
    ∃ st, statuses (rawWriteBuffer w self address data len s).events = [st] ∧
      (rawWriteBuffer w self address data len s).self.lastError = st % 256 := by
  obtain ⟨ws, st, hws, hev, hst⟩ := rawWriteBuffer_events w self address data len s
  refine ⟨st, ?_, hst⟩
  rw [hev, statuses_append, statuses_append, allWrites_statuses hws]
  rfl

theorem rawWriteBuffer_isRawWriteBlock {σ : Type} (w : TwoWire σ) (self : AT24Cxxx)
    (address : Nat) (data : Nat → Nat) (len : Nat) (s : σ) :
    isRawWriteBlock (rawWriteBuffer w self address data len s).events = true := by
  obtain ⟨ws, st, hws, hev, -⟩ := rawWriteBuffer_events w self address data len s
  rw [hev]
  simp only [List.cons_append, List.nil_append, isRawWriteBlock, decide_True, Bool.true_and]
  exact allWrites_isRawWriteTail hws _ _ _ _ _

/-! ## The loop of `writeBuffer` -/

theorem writeBody_eq {σ : Type} (w : TwoWire σ) (intBits : Nat) (data : Nat → Nat)
    (st : WriteState σ) :
    writeBody w intBits data st =
      if (writeCall w data st).self.lastError ≠ 0 then
        ({ st with self := (writeCall w data st).self, wire := (writeCall w data st).wire,
                   events := st.events ++ (writeCall w data st).events }, true)
      else
        ({ self := (writeCall w data st).self
           wire := (writeCall w data st).wire
           dataToWrite := st.dataToWrite + (writeCall w data st).ret.toNat
           lenRemaining := st.lenRemaining - (writeCall w data st).ret.toNat
           nextAddress := (st.nextAddress + (writeCall w data st).ret.toNat) % 65536
           totalWritten :=
             toInt intBits (st.totalWritten + ((writeCall w data st).ret.toNat : Int))
           numberOfWrites := st.numberOfWrites
           events := st.events ++ (writeCall w data st).events }, false) :=
  rfl

theorem writeBody_numberOfWrites {σ : Type} (w : TwoWire σ) (intBits : Nat) (data : Nat → Nat)
    (st : WriteState σ) : (writeBody w intBits data st).1.numberOfWrites = st.numberOfWrites := by
  rw [writeBody_eq]
  split <;> rfl

theorem writeBody_events {σ : Type} (w : TwoWire σ) (intBits : Nat) (data : Nat → Nat)
    (st : WriteState σ) :
    (writeBody w intBits data st).1.events = st.events ++ (writeCall w data st).events := by
  rw [writeBody_eq]
  split <;> rfl

theorem writeBody_self {σ : Type} (w : TwoWire σ) (intBits : Nat) (data : Nat → Nat)
    (st : WriteState σ) :
    (writeBody w intBits data st).1.self = (writeCall w data st).self := by
  rw [writeBody_eq]
  split <;> rfl

theorem writeCall_pageSize {σ : Type} (w : TwoWire σ) (data : Nat → Nat) (st : WriteState σ) :
    (writeCall w data st).self.pageSize = st.self.pageSize :=
  rfl

theorem writeCall_writeDelay {σ : Type} (w : TwoWire σ) (data : Nat → Nat)
    (st : WriteState σ) : (writeCall w data st).self.writeDelay = st.self.writeDelay :=
  rfl

theorem writeLoop_unfold {σ : Type} (w : TwoWire σ) (intBits : Nat) (data : Nat → Nat) (len : Nat)
    (st : WriteState σ) :
    writeLoop w intBits data len st =
      if (writeBody w intBits data st).2 = true then (writeBody w intBits data st).1
      else if 0 < (writeBody w intBits data st).1.lenRemaining then
        if (writeBody w intBits data st).1.numberOfWrites + 1 < len then
          writeLoop w intBits data len { (writeBody w intBits data st).1 with
            numberOfWrites := (writeBody w intBits data st).1.numberOfWrites + 1 }
        else { (writeBody w intBits data st).1 with
          numberOfWrites := (writeBody w intBits data st).1.numberOfWrites + 1 }
      else (writeBody w intBits data st).1 := by
  rw [writeLoop]

/-- Proof rule for the `do ... while` loop of `writeBuffer`: `I` holds at the head of every
iteration, `Q` at every exit. -/
theorem writeLoop_rule {σ : Type} (w : TwoWire σ) (intBits : Nat) (data : Nat → Nat) (len : Nat)
    (I Q : WriteState σ → Prop)
    (hbreak : ∀ st, I st → (writeBody w intBits data st).2 = true → Q (writeBody w intBits data st).1)
    (hdone : ∀ st, I st → (writeBody w intBits data st).2 = false →
      ¬ 0 < (writeBody w intBits data st).1.lenRemaining → Q (writeBody w intBits data st).1)
    (hcap : ∀ st, I st → (writeBody w intBits data st).2 = false →
      0 < (writeBody w intBits data st).1.lenRemaining →
      ¬ (writeBody w intBits data st).1.numberOfWrites + 1 < len →
      Q { (writeBody w intBits data st).1 with
        numberOfWrites := (writeBody w intBits data st).1.numberOfWrites + 1 })
    (hnext : ∀ st, I st → (writeBody w intBits data st).2 = false →
      0 < (writeBody w intBits data st).1.lenRemaining →
      (writeBody w intBits data st).1.numberOfWrites + 1 < len →
      I { (writeBody w intBits data st).1 with
        numberOfWrites := (writeBody w intBits data st).1.numberOfWrites + 1 })
    (st : WriteState σ) (h : I st) : Q (writeLoop w intBits data len st) := by
  obtain ⟨n, hn⟩ : ∃ n, len - st.numberOfWrites = n := ⟨_, rfl⟩
  induction n using Nat.strong_induction_on generalizing st with
  | _ n ih =>
    rw [writeLoop_unfold]
    have hnum := writeBody_numberOfWrites w intBits data st
    split_ifs with h1 h2 h3
    · exact hbreak st h h1
    · have h1f : (writeBody w intBits data st).2 = false := by simpa using h1
      refine ih (len - (st.numberOfWrites + 1)) (by omega) _ (hnext st h h1f h2 h3) ?_
      simp only [hnum]
    · have h1f : (writeBody w intBits data st).2 = false := by simpa using h1
      exact hcap st h h1f h2 h3
    · have h1f : (writeBody w intBits data st).2 = false := by simpa using h1
      exact hdone st h h1f h2

/-- A property kept by the loop body and independent of the iteration counter holds after
the loop. -/
theorem writeLoop_invariant {σ : Type} (w : TwoWire σ) (intBits : Nat) (data : Nat → Nat)
    (len : Nat)
    (J : WriteState σ → Prop)
    (hbody : ∀ st, J st → J (writeBody w intBits data st).1)
    (hcount : ∀ st n, J st → J { st with numberOfWrites := n })
    (st : WriteState σ) (h : J st) : J (writeLoop w intBits data len st) :=
  writeLoop_rule w intBits data len J J
    (fun st hst _ => hbody st hst)
    (fun st hst _ _ => hbody st hst)
    (fun st hst _ _ _ => hcount _ _ (hbody st hst))
    (fun st hst _ _ _ => hcount _ _ (hbody st hst))
    st h

theorem writeBuffer_eq {σ : Type} (w : TwoWire σ) (intBits : Nat) (self : AT24Cxxx) (address : Nat)
    (data : Nat → Nat) (len : Nat) (s : σ) :
    writeBuffer w intBits self address data len s =
      ⟨(writeLoop w intBits data len (writeInit self address len s)).totalWritten,
        (writeLoop w intBits data len (writeInit self address len s)).self,
        (writeLoop w intBits data len (writeInit self address len s)).wire,
        (writeLoop w intBits data len (writeInit self address len s)).events⟩ :=
  rfl

theorem writeBuffer_ret {σ : Type} (w : TwoWire σ) (intBits : Nat) (self : AT24Cxxx)
    (address : Nat) (data : Nat → Nat) (len : Nat) (s : σ) :
    (writeBuffer w intBits self address data len s).ret =
      (writeLoop w intBits data len (writeInit self address len s)).totalWritten :=
  rfl

theorem writeBuffer_self {σ : Type} (w : TwoWire σ) (intBits : Nat) (self : AT24Cxxx)
    (address : Nat) (data : Nat → Nat) (len : Nat) (s : σ) :
    (writeBuffer w intBits self address data len s).self =
      (writeLoop w intBits data len (writeInit self address len s)).self :=
  rfl

theorem writeBuffer_events {σ : Type} (w : TwoWire σ) (intBits : Nat) (self : AT24Cxxx)
    (address : Nat) (data : Nat → Nat) (len : Nat) (s : σ) :
    (writeBuffer w intBits self address data len s).events =
      (writeLoop w intBits data len (writeInit self address len s)).events :=
  rfl

/-! ## C1: no raw write crosses a page boundary -/

/-- A span of `n` bytes at `a` with `n ≤ P - a % P` stays inside one page. -/
theorem span_in_page (P a n : Nat) (hP : 0 < P) (hn : n ≤ P - a % P) (h0 : 0 < n) :
    (a + n - 1) / P = a / P := by
  have hmod : a % P < P := Nat.mod_lt _ hP
  have hdiv : P * (a / P) + a % P = a := Nat.div_add_mod a P
  apply Nat.div_eq_of_lt_le
  · calc a / P * P = P * (a / P) := Nat.mul_comm _ _
      _ ≤ a + n - 1 := by omega
  · calc a + n - 1 < P * (a / P) + P := by omega
      _ = (a / P).succ * P := by rw [Nat.succ_mul, Nat.mul_comm]

/-- C1. For every bus behaviour, start address, data, length and page size `P > 0`, every raw
write `(a, n)` that `writeBuffer` issues satisfies `n ≤ P - a % P`; hence, when `n > 0`, its
first address `a` and its last address `a + n - 1` lie in the same page. -/
theorem writeBuffer_rawWrite_within_page {σ : Type} (w : TwoWire σ) (intBits : Nat)
    (self : AT24Cxxx)
    (address : Nat) (data : Nat → Nat) (len : Nat) (s : σ) (hP : 0 < self.pageSize) :
    ∀ p ∈ rawWrites (writeBuffer w intBits self address data len s).events,
      p.2 ≤ self.pageSize - p.1 % self.pageSize ∧
      (0 < p.2 → (p.1 + p.2 - 1) / self.pageSize = p.1 / self.pageSize) := by
  have key := writeLoop_invariant w intBits data len
    (fun st => st.self.pageSize = self.pageSize ∧
      ∀ p ∈ rawWrites st.events, p.2 ≤ self.pageSize - p.1 % self.pageSize)
    (by
      intro st hst
      obtain ⟨hp, hev⟩ := hst
      refine ⟨by rw [writeBody_self, writeCall_pageSize, hp], ?_⟩
      intro p hp2
      rw [writeBody_events, rawWrites_append] at hp2
      rcases List.mem_append.1 hp2 with h | h
      · exact hev p h
      · rw [writeCall, rawWriteBuffer_rawWrites] at h
        simp only [List.mem_singleton] at h
        subst h
        simp only [hp]
        exact Nat.min_le_left _ _)
    (fun st n hst => hst)
    (writeInit self address len s)
    ⟨rfl, by intro p hp; simp [writeInit] at hp⟩
  intro p hp
  rw [writeBuffer_eq] at hp
  have h1 := key.2 p hp
  exact ⟨h1, fun h0 => span_in_page _ _ _ hP h1 h0⟩

/-- C1 at page size 16: writing 20 bytes at address 10 to the memory device. -/
theorem writeBuffer_rawWrite_within_page_witness :
    0 < (AT24Cxxx.new 80 10 256 16).pageSize ∧
    ∀ p ∈ rawWrites (writeBuffer memWire 16 (AT24Cxxx.new 80 10 256 16) 10 (fun i => i) 20
        (MemState.blank 255)).events,
      p.2 ≤ (AT24Cxxx.new 80 10 256 16).pageSize - p.1 % (AT24Cxxx.new 80 10 256 16).pageSize ∧
      (0 < p.2 → (p.1 + p.2 - 1) / (AT24Cxxx.new 80 10 256 16).pageSize
        = p.1 / (AT24Cxxx.new 80 10 256 16).pageSize) :=
  ⟨by decide, writeBuffer_rawWrite_within_page memWire 16 (AT24Cxxx.new 80 10 256 16) 10
    (fun i => i) 20 (MemState.blank 255) (by decide)⟩

/-! ## C6: one settling delay per raw write attempt -/

/-- C6. For every bus behaviour, the events of a `writeBuffer` call are a sequence of blocks,
one per raw write attempt; each block is the call of `rawWriteBuffer`, the address phase that
opens the transaction, `write` calls, one `endTransmission` (whatever status it returns),
then exactly one `delay`, then the return.  The number of `delay` calls, the number of
`endTransmission` calls and the number of raw write attempts are equal. -/
theorem writeBuffer_one_delay_per_rawWrite {σ : Type} (w : TwoWire σ) (intBits : Nat)
    (self : AT24Cxxx)
    (address : Nat) (data : Nat → Nat) (len : Nat) (s : σ) :
    ∃ blocks : List (List Event),
      (writeBuffer w intBits self address data len s).events = blocks.flatten ∧
      (∀ b ∈ blocks, isRawWriteBlock b = true) ∧
      blocks.length = (rawWrites (writeBuffer w intBits self address data len s).events).length ∧
      (delays (writeBuffer w intBits self address data len s).events).length =
        (rawWrites (writeBuffer w intBits self address data len s).events).length ∧
      (statuses (writeBuffer w intBits self address data len s).events).length =
        (rawWrites (writeBuffer w intBits self address data len s).events).length := by
  rw [writeBuffer_eq]
  refine writeLoop_invariant w intBits data len
    (fun st => ∃ blocks : List (List Event), st.events = blocks.flatten ∧
      (∀ b ∈ blocks, isRawWriteBlock b = true) ∧
      blocks.length = (rawWrites st.events).length ∧
      (delays st.events).length = (rawWrites st.events).length ∧
      (statuses st.events).length = (rawWrites st.events).length)
    ?_ (fun st n hst => hst) (writeInit self address len s)
    ⟨[], rfl, fun b hb => (by cases hb), rfl, rfl, rfl⟩
  intro st hst
  obtain ⟨blocks, hev, hall, hlen, hdel, hsta⟩ := hst
  obtain ⟨x, hx, -⟩ := rawWriteBuffer_statuses w st.self st.nextAddress
    (fun i => data (st.dataToWrite + i))
    (min (st.self.pageSize - st.nextAddress % st.self.pageSize) st.lenRemaining) st.wire
  refine ⟨blocks ++ [(writeCall w data st).events], ?_, ?_, ?_, ?_, ?_⟩
  · rw [writeBody_events, hev]
    simp
  · intro b hb
    rcases List.mem_append.1 hb with h | h
    · exact hall b h
    · simp only [List.mem_singleton] at h
      subst h
      exact rawWriteBuffer_isRawWriteBlock _ _ _ _ _ _
  · rw [writeBody_events, rawWrites_append, writeCall, rawWriteBuffer_rawWrites]
    simp [hlen]
  · rw [writeBody_events, rawWrites_append, delays_append, writeCall, rawWriteBuffer_rawWrites,
      rawWriteBuffer_delays]
    simp [hdel]
  · rw [writeBody_events, rawWrites_append, statuses_append, writeCall,
      rawWriteBuffer_rawWrites, hx]
    simp [hsta]

/-! ## The number of raw writes (C10) -/

/-- For every bus behaviour `writeBuffer` issues at least one raw write and at most
`max len 1` raw writes. -/
theorem writeBuffer_rawWrites_length {σ : Type} (w : TwoWire σ) (intBits : Nat) (self : AT24Cxxx)
    (address : Nat) (data : Nat → Nat) (len : Nat) (s : σ) :
    1 ≤ (rawWrites (writeBuffer w intBits self address data len s).events).length ∧
      (rawWrites (writeBuffer w intBits self address data len s).events).length ≤ max len 1 := by
  rw [writeBuffer_eq]
  have hstep : ∀ st : WriteState σ,
      (rawWrites (writeBody w intBits data st).1.events).length = (rawWrites st.events).length + 1 := by
    intro st
    rw [writeBody_events, rawWrites_append, writeCall, rawWriteBuffer_rawWrites]
    simp
  refine writeLoop_rule w intBits data len
    (fun st => (rawWrites st.events).length = st.numberOfWrites ∧ st.numberOfWrites < max len 1)
    (fun st => 1 ≤ (rawWrites st.events).length ∧ (rawWrites st.events).length ≤ max len 1)
    ?_ ?_ ?_ ?_ (writeInit self address len s) ⟨rfl, by simp [writeInit]⟩
  · intro st hst _
    rw [hstep]
    omega
  · intro st hst _ _
    rw [hstep]
    omega
  · intro st hst _ _ _
    show 1 ≤ (rawWrites (writeBody w intBits data st).1.events).length ∧ _
    rw [hstep]
    omega
  · intro st hst _ _ h
    rw [writeBody_numberOfWrites] at h
    show (rawWrites (writeBody w intBits data st).1.events).length
      = (writeBody w intBits data st).1.numberOfWrites + 1 ∧ _
    rw [hstep, writeBody_numberOfWrites]
    constructor
    · omega
    · show st.numberOfWrites + 1 < max len 1
      omega

/-- C10 (code at the failing input). With `len = 0` the loop body of `writeBuffer` still runs
once: for every bus behaviour exactly one raw write, of zero data bytes, is issued. -/
theorem writeBuffer_zero_length_rawWrite {σ : Type} (w : TwoWire σ) (intBits : Nat)
    (self : AT24Cxxx)
    (address : Nat) (data : Nat → Nat) (s : σ) :
    rawWrites (writeBuffer w intBits self address data 0 s).events = [(address % 65536, 0)] ∧
      ¬ (rawWrites (writeBuffer w intBits self address data 0 s).events).length ≤ 0 := by
  have h : rawWrites (writeBuffer w intBits self address data 0 s).events = [(address % 65536, 0)] := by
    rw [writeBuffer_eq]
    refine writeLoop_rule w intBits data 0
      (fun st => st = writeInit self address 0 s)
      (fun st => rawWrites st.events = [(address % 65536, 0)]) ?_ ?_ ?_ ?_
      (writeInit self address 0 s) rfl
    · intro st hst _
      subst hst
      rw [writeBody_events, rawWrites_append, writeCall, rawWriteBuffer_rawWrites]
      simp [writeInit]
    · intro st hst _ _
      subst hst
      rw [writeBody_events, rawWrites_append, writeCall, rawWriteBuffer_rawWrites]
      simp [writeInit]
    · intro st hst _ _ _
      subst hst
      show rawWrites (writeBody w intBits data _).1.events = _
      rw [writeBody_events, rawWrites_append, writeCall, rawWriteBuffer_rawWrites]
      simp [writeInit]
    · intro st hst _ _ h
      omega
  rw [h]
  exact ⟨rfl, by simp⟩

/-! ## C5: accounting of a write that fails part-way -/

theorem writeLoop_eq_fuel {σ : Type} (w : TwoWire σ) (intBits : Nat) (data : Nat → Nat) (len : Nat)
    (fuel : Nat) (st : WriteState σ) (h : len - st.numberOfWrites ≤ fuel) (h1 : 0 < fuel) :
    writeLoop w intBits data len st = writeLoopFuel w intBits data len fuel st := by
  induction fuel generalizing st with
  | zero => omega
  | succ fuel ih =>
    rw [writeLoop_unfold]
    simp only [writeLoopFuel]
    have hnum := writeBody_numberOfWrites w intBits data st
    split_ifs with h2 h3 h4
    · rfl
    · apply ih
      · show len - ((writeBody w intBits data st).1.numberOfWrites + 1) ≤ fuel
        omega
      · omega
    · rfl
    · rfl

/-- Evaluation of `writeBuffer` through `writeLoopFuel`. -/
theorem writeBuffer_eq_fuel {σ : Type} (w : TwoWire σ) (intBits : Nat) (self : AT24Cxxx)
    (address : Nat)
    (data : Nat → Nat) (len : Nat) (s : σ) :
    writeBuffer w intBits self address data len s =
      ⟨(writeLoopFuel w intBits data len (len + 1) (writeInit self address len s)).totalWritten,
        (writeLoopFuel w intBits data len (len + 1) (writeInit self address len s)).self,
        (writeLoopFuel w intBits data len (len + 1) (writeInit self address len s)).wire,
        (writeLoopFuel w intBits data len (len + 1) (writeInit self address len s)).events⟩ := by
  rw [writeBuffer_eq, writeLoop_eq_fuel w intBits data len (len + 1) (writeInit self address len s)
    (by simp [writeInit]) (Nat.succ_pos _)]

theorem writeBody_of_error {σ : Type} (w : TwoWire σ) (intBits : Nat) (data : Nat → Nat)
    (st : WriteState σ)
    (h : (writeCall w data st).self.lastError ≠ 0) :
    writeBody w intBits data st =
      ({ st with self := (writeCall w data st).self, wire := (writeCall w data st).wire,
                 events := st.events ++ (writeCall w data st).events }, true) := by
  rw [writeBody_eq, if_pos h]

theorem writeBody_of_ok {σ : Type} (w : TwoWire σ) (intBits : Nat) (data : Nat → Nat)
    (st : WriteState σ)
    (h : (writeCall w data st).self.lastError = 0) :
    writeBody w intBits data st =
      ({ self := (writeCall w data st).self
         wire := (writeCall w data st).wire
         dataToWrite := st.dataToWrite + (writeCall w data st).ret.toNat
         lenRemaining := st.lenRemaining - (writeCall w data st).ret.toNat
         nextAddress := (st.nextAddress + (writeCall w data st).ret.toNat) % 65536
         totalWritten :=
           toInt intBits (st.totalWritten + ((writeCall w data st).ret.toNat : Int))
         numberOfWrites := st.numberOfWrites
         events := st.events ++ (writeCall w data st).events }, false) := by
  rw [writeBody_eq, if_neg (not_not.2 h)]

theorem writeBody_break_iff {σ : Type} (w : TwoWire σ) (intBits : Nat) (data : Nat → Nat)
    (st : WriteState σ) :
    (writeBody w intBits data st).2 = true ↔ (writeCall w data st).self.lastError ≠ 0 := by
  by_cases h : (writeCall w data st).self.lastError = 0
  · rw [writeBody_of_ok w intBits data st h]
    simp [h]
  · rw [writeBody_of_error w intBits data st h]
    simp [h]

theorem writeCall_rawReturns {σ : Type} (w : TwoWire σ) (data : Nat → Nat)
    (st : WriteState σ) :
    rawReturns (writeCall w data st).events =
      [((writeCall w data st).queued, (writeCall w data st).self.lastError,
        (writeCall w data st).ret)] :=
  rawWriteBuffer_rawReturns _ _ _ _ _ _

theorem writeCall_rawWrites {σ : Type} (w : TwoWire σ) (data : Nat → Nat)
    (st : WriteState σ) :
    rawWrites (writeCall w data st).events =
      [(st.nextAddress, min (st.self.pageSize - st.nextAddress % st.self.pageSize)
        st.lenRemaining)] :=
  rawWriteBuffer_rawWrites _ _ _ _ _ _

theorem writeCall_ret {σ : Type} (w : TwoWire σ) (data : Nat → Nat) (st : WriteState σ) :
    (writeCall w data st).ret =
      if (writeCall w data st).self.lastError = 0 then ((writeCall w data st).queued : Int)
      else 0 :=
  rfl

theorem writeLoop_account {σ : Type} (w : TwoWire σ) (intBits : Nat) (self : AT24Cxxx)
    (address : Nat)
    (data : Nat → Nat) (len : Nat) (s : σ) :
    WriteAccount intBits (writeLoop w intBits data len (writeInit self address len s)) := by
  have hfin : ∀ st : WriteState σ,
      ((∀ t ∈ rawReturns st.events, t.2.1 = 0 ∧ t.2.2 = (t.1 : Int)) ∧
        st.totalWritten = toInt intBits ((rawReturns st.events).map fun t => (t.1 : Int)).sum ∧
        (rawWrites st.events).length = (rawReturns st.events).length) →
      ∀ n, WriteAccount intBits { (writeBody w intBits data st).1 with numberOfWrites := n } := by
    intro st hst n
    obtain ⟨hall, htot, hlen⟩ := hst
    refine ⟨rawReturns st.events, ((writeCall w data st).queued,
      (writeCall w data st).self.lastError, (writeCall w data st).ret), ?_, hall, ?_, ?_, ?_, ?_⟩
    · show rawReturns (writeBody w intBits data st).1.events = _
      rw [writeBody_events, rawReturns_append, writeCall_rawReturns]
    · show (writeBody w intBits data st).1.totalWritten = _
      by_cases h : (writeCall w data st).self.lastError = 0
      · rw [writeBody_of_ok w intBits data st h]
        simp only [writeCall_ret, h, if_true, htot]
        rw [toInt_add]
        simp
      · rw [writeBody_of_error w intBits data st h]
        simp only [writeCall_ret, h, if_false, htot]
        simp
    · exact writeCall_ret w data st
    · show (writeBody w intBits data st).1.self.lastError = _
      rw [writeBody_self]
    · show (rawWrites (writeBody w intBits data st).1.events).length = _
      rw [writeBody_events, rawWrites_append, writeCall_rawWrites]
      simp [hlen]
  refine writeLoop_rule w intBits data len
    (fun st => (∀ t ∈ rawReturns st.events, t.2.1 = 0 ∧ t.2.2 = (t.1 : Int)) ∧
      st.totalWritten = toInt intBits ((rawReturns st.events).map fun t => (t.1 : Int)).sum ∧
      (rawWrites st.events).length = (rawReturns st.events).length)
    (WriteAccount intBits) ?_ ?_ ?_ ?_ (writeInit self address len s)
    ⟨fun t ht => (by simp [writeInit] at ht), (toInt_zero intBits).symm, rfl⟩
  · intro st hst _
    exact hfin st hst (writeBody w intBits data st).1.numberOfWrites
  · intro st hst _ _
    exact hfin st hst (writeBody w intBits data st).1.numberOfWrites
  · intro st hst _ _ _
    exact hfin st hst _
  · intro st hst hb _ _
    obtain ⟨hall, htot, hlen⟩ := hst
    have hok : (writeCall w data st).self.lastError = 0 := by
      by_contra hne
      have := (writeBody_break_iff w intBits data st).2 hne
      rw [hb] at this
      cases this
    refine ⟨?_, ?_, ?_⟩
    · intro t ht
      change t ∈ rawReturns (writeBody w intBits data st).1.events at ht
      rw [writeBody_events, rawReturns_append, writeCall_rawReturns] at ht
      rcases List.mem_append.1 ht with h | h
      · exact hall t h
      · simp only [List.mem_singleton] at h
        subst h
        exact ⟨hok, by simp [writeCall_ret, hok]⟩
    · show (writeBody w intBits data st).1.totalWritten
        = toInt intBits
          ((rawReturns (writeBody w intBits data st).1.events).map fun t => (t.1 : Int)).sum
      rw [writeBody_events, rawReturns_append, writeCall_rawReturns,
        writeBody_of_ok w intBits data st hok]
      simp only [writeCall_ret, hok, if_true, htot]
      rw [toInt_add]
      simp
    · show (rawWrites (writeBody w intBits data st).1.events).length
        = (rawReturns (writeBody w intBits data st).1.events).length
      rw [writeBody_events, rawWrites_append, rawReturns_append, writeCall_rawReturns,
        writeCall_rawWrites]
      simp [hlen]

theorem sum_queued_nonneg (l : List (Nat × Nat × Int)) :
    0 ≤ (l.map fun t => (t.1 : Int)).sum := by
  induction l with
  | nil => simp
  | cons t l ih =>
    simp only [List.map_cons, List.sum_cons]
    omega

/-- C5 (as amended). For a device with a positive page size: if the `k`-th raw write of a
`writeBuffer` call ends with address-NACK, then it is the last raw write of the call (exactly
`k` raw writes are issued), raw writes `1..k-1` ended with success and each returned the
number of bytes it queued, the `k`-th returns 0 whatever it queued, `writeBuffer` returns the
sum of the bytes written by raw writes `1..k-1` converted to `int` (exactly that sum whenever
it is at most `INT_MAX`), and `getLastError()` is `ERR_NACK`. -/
theorem writeBuffer_nack_accounting {σ : Type} (w : TwoWire σ) (intBits : Nat) (self : AT24Cxxx)
    (address : Nat) (data : Nat → Nat) (len : Nat) (s : σ) (k q : Nat) (x : Int)
    (_hP : 0 < self.pageSize) (hk : 1 ≤ k)
    (hnack : (rawReturns (writeBuffer w intBits self address data len s).events)[k - 1]? =
      some (q, ERR_NACK, x)) :
    (rawWrites (writeBuffer w intBits self address data len s).events).length = k ∧
    (rawReturns (writeBuffer w intBits self address data len s).events).length = k ∧
    x = 0 ∧
    (∀ t ∈ (rawReturns (writeBuffer w intBits self address data len s).events).take (k - 1),
      t.2.1 = ERR_OK ∧ t.2.2 = (t.1 : Int)) ∧
    (writeBuffer w intBits self address data len s).ret = toInt intBits
      (((rawReturns (writeBuffer w intBits self address data len s).events).take (k - 1)).map
        fun t => (t.1 : Int)).sum ∧
    ((((rawReturns (writeBuffer w intBits self address data len s).events).take (k - 1)).map
        fun t => (t.1 : Int)).sum < intLimit intBits →
      (writeBuffer w intBits self address data len s).ret =
        (((rawReturns (writeBuffer w intBits self address data len s).events).take (k - 1)).map
          fun t => (t.1 : Int)).sum) ∧
    getLastError (writeBuffer w intBits self address data len s).self = ERR_NACK := by
  obtain ⟨init, last, hret, hall, htot, hlast, herr, hlen⟩ :=
    writeLoop_account w intBits self address data len s
  rw [writeBuffer_eq] at hnack ⊢
  simp only [getLastError]
  rw [hret] at hnack ⊢
  have hidx : k - 1 = init.length := by
    rcases Nat.lt_trichotomy (k - 1) init.length with h | h | h
    · rw [List.getElem?_append_left h] at hnack
      have hmem := List.getElem?_mem hnack
      have := (hall _ hmem).1
      simp [ERR_NACK] at this
    · exact h
    · rw [List.getElem?_append_right (Nat.le_of_lt h)] at hnack
      have : k - 1 - init.length = (k - 1 - init.length - 1) + 1 := by omega
      rw [this] at hnack
      simp at hnack
  have hl : last = (q, ERR_NACK, x) := by
    rw [hidx, List.getElem?_append_right (le_refl _)] at hnack
    simpa using hnack
  subst hl
  have hx : x = 0 := by simpa [ERR_NACK] using hlast
  have htake : (init ++ [(q, ERR_NACK, x)]).take (k - 1) = init := by
    rw [hidx]
    simp
  rw [htake]
  have hval : (writeLoop w intBits data len (writeInit self address len s)).totalWritten =
      toInt intBits (init.map fun t => (t.1 : Int)).sum := by
    rw [htot, hx]
    simp
  refine ⟨by omega, by simp; omega, hx, fun t ht => ⟨(hall t ht).1, (hall t ht).2⟩, hval,
    fun hfit => ?_, herr⟩
  have hpos := intLimit_pos intBits
  have hnn := sum_queued_nonneg init
  show (writeLoop w intBits data len (writeInit self address len s)).totalWritten = _
  rw [hval]
  exact toInt_of_fits _ _ (by omega) hfit

/-- C5 on a bus whose third transaction ends with address-NACK: 40 bytes at address 10 with
page size 16 give raw writes of 6, 16 and 16 bytes; the third one fails and 22 is returned. -/
theorem writeBuffer_nack_accounting_witness :
    (0 < (AT24Cxxx.new 80 10 256 16).pageSize ∧ 1 ≤ 3 ∧
      (rawReturns (writeBuffer (scriptWire 1 fun _ => 0) 16 (AT24Cxxx.new 80 10 256 16) 10
        (fun i => i) 40 ⟨[0, 0, 2], 0⟩).events)[3 - 1]? = some (16, ERR_NACK, 0)) ∧
    ((rawWrites (writeBuffer (scriptWire 1 fun _ => 0) 16 (AT24Cxxx.new 80 10 256 16) 10
        (fun i => i) 40 ⟨[0, 0, 2], 0⟩).events).length = 3 ∧
      (writeBuffer (scriptWire 1 fun _ => 0) 16 (AT24Cxxx.new 80 10 256 16) 10
        (fun i => i) 40 ⟨[0, 0, 2], 0⟩).ret = 22) := by
  have h : (rawReturns (writeBuffer (scriptWire 1 fun _ => 0) 16 (AT24Cxxx.new 80 10 256 16) 10
      (fun i => i) 40 ⟨[0, 0, 2], 0⟩).events) = [(6, 0, 6), (16, 0, 16), (16, 2, 0)] := by
    rw [writeBuffer_eq_fuel]
    decide
  have key := writeBuffer_nack_accounting (scriptWire 1 fun _ => 0) 16 (AT24Cxxx.new 80 10 256 16)
    10 (fun i => i) 40 ⟨[0, 0, 2], 0⟩ 3 16 0 (by decide) (by decide) (by rw [h]; rfl)
  refine ⟨⟨by decide, by decide, by rw [h]; rfl⟩, key.1, ?_⟩
  rw [key.2.2.2.2.2.1 (by rw [h]; decide), h]
  decide

/-! ## The copy loop and the loop of `readBuffer` -/

theorem allCopy_nil : AllCopy [] := by
  intro e he
  cases he

theorem allCopy_append {a b : List Event} (ha : AllCopy a) (hb : AllCopy b) :
    AllCopy (a ++ b) := by
  intro e he
  rcases List.mem_append.1 he with h | h
  · exact ha e h
  · exact hb e h

theorem allCopy_available (r : Int) : AllCopy [Event.available r] := by
  intro e he
  simp only [List.mem_singleton] at he
  exact Or.inl ⟨r, he⟩

theorem allCopy_pair (a r : Int) : AllCopy [Event.available a, Event.read r] := by
  intro e he
  simp only [List.mem_cons, List.mem_singleton, List.not_mem_nil, or_false] at he
  rcases he with h | h
  · exact Or.inl ⟨a, h⟩
  · exact Or.inr ⟨r, h⟩

theorem allCopy_tail {e : Event} {t : List Event} (h : AllCopy (e :: t)) : AllCopy t :=
  fun x hx => h x (List.mem_cons_of_mem _ hx)

theorem allCopy_rawWrites {xs : List Event} (h : AllCopy xs) : rawWrites xs = [] := by
  induction xs with
  | nil => rfl
  | cons e t ih =>
    rcases h _ (List.mem_cons_self _ _) with ⟨r, rfl⟩ | ⟨r, rfl⟩ <;>
      simpa [AT24C.rawWrites] using ih (allCopy_tail h)

theorem allCopy_addressCalls {xs : List Event} (h : AllCopy xs) : addressCalls xs = [] := by
  induction xs with
  | nil => rfl
  | cons e t ih =>
    rcases h _ (List.mem_cons_self _ _) with ⟨r, rfl⟩ | ⟨r, rfl⟩ <;>
      simpa [AT24C.addressCalls] using ih (allCopy_tail h)

theorem allCopy_requests {xs : List Event} (h : AllCopy xs) : requests xs = [] := by
  induction xs with
  | nil => rfl
  | cons e t ih =>
    rcases h _ (List.mem_cons_self _ _) with ⟨r, rfl⟩ | ⟨r, rfl⟩ <;>
      simpa [AT24C.requests] using ih (allCopy_tail h)

theorem allCopy_statuses {xs : List Event} (h : AllCopy xs) : statuses xs = [] := by
  induction xs with
  | nil => rfl
  | cons e t ih =>
    rcases h _ (List.mem_cons_self _ _) with ⟨r, rfl⟩ | ⟨r, rfl⟩ <;>
      simpa [AT24C.statuses] using ih (allCopy_tail h)

theorem allCopy_delays {xs : List Event} (h : AllCopy xs) : delays xs = [] := by
  induction xs with
  | nil => rfl
  | cons e t ih =>
    rcases h _ (List.mem_cons_self _ _) with ⟨r, rfl⟩ | ⟨r, rfl⟩ <;>
      simpa [AT24C.delays] using ih (allCopy_tail h)

theorem copyLoop_succ {σ : Type} (w : TwoWire σ) (base k i : Nat) (s : σ) (buf : Nat → Nat)
    (ev : List Event) :
    copyLoop w base (k + 1) i s buf ev =
      if (w.available s).2 ≠ 0 then
        copyLoop w base k (i + 1) (w.read (w.available s).1).1
          (Function.update buf (base + i) ((w.read (w.available s).1).2 % 256).toNat)
          (ev ++ [Event.available (w.available s).2, Event.read (w.read (w.available s).1).2])
      else ⟨(w.available s).1, buf, i, ev ++ [Event.available (w.available s).2]⟩ :=
  rfl

/-- The copy loop only appends `available` and `read` events, and `i` ends between its start
value and the start value plus the number of bytes the request reported. -/
theorem copyLoop_spec {σ : Type} (w : TwoWire σ) (base k i : Nat) (s : σ) (buf : Nat → Nat)
    (ev : List Event) :
    ∃ xs, AllCopy xs ∧ (copyLoop w base k i s buf ev).events = ev ++ xs ∧
      i ≤ (copyLoop w base k i s buf ev).i ∧ (copyLoop w base k i s buf ev).i ≤ i + k := by
  induction k generalizing i s buf ev with
  | zero => exact ⟨[], allCopy_nil, by simp [copyLoop], le_refl _, le_refl _⟩
  | succ k ih =>
    rw [copyLoop_succ]
    split
    · obtain ⟨xs, hxs, hev, h1, h2⟩ := ih (i + 1) (w.read (w.available s).1).1
        (Function.update buf (base + i) ((w.read (w.available s).1).2 % 256).toNat)
        (ev ++ [Event.available (w.available s).2, Event.read (w.read (w.available s).1).2])
      refine ⟨[Event.available (w.available s).2, Event.read (w.read (w.available s).1).2]
        ++ xs, allCopy_append (allCopy_pair _ _) hxs, ?_, by omega, by omega⟩
      rw [hev]
      simp
    · exact ⟨[Event.available (w.available s).2], allCopy_available _, rfl, le_refl _,
        Nat.le_add_right _ _⟩

/-- On a bus that delivers all it reported, the copy loop copies all `k` pending bytes. -/
theorem copyLoop_all {σ : Type} (w : TwoWire σ) (pending : σ → Nat)
    (hw : DeliversAll w pending) (base k i : Nat) (s : σ) (buf : Nat → Nat) (ev : List Event)
    (hp : pending s = k) : (copyLoop w base k i s buf ev).i = i + k := by
  induction k generalizing i s buf ev with
  | zero => rfl
  | succ k ih =>
    rw [copyLoop_succ]
    have hav : (w.available s).2 ≠ 0 := (hw.available_ret s).2 (by omega)
    rw [if_pos hav, ih]
    · omega
    · rw [hw.read_pending, hw.available_pending, hp]
      rfl

theorem readBody_eq {σ : Type} (w : TwoWire σ) (intBits sizeBits : Nat) (st : ReadState σ) :
    readBody w intBits sizeBits st =
      if (readEnd w st).2 % 256 ≠ ERR_OK then
        ({ st with self := { st.self with lastError := (readEnd w st).2 % 256 },
                   wire := (readEnd w st).1,
                   events := st.events ++ (writeAddress w st.self st.nextAddress st.wire).2 ++
                     [Event.endTransmission (readEnd w st).2] }, true)
      else
        ({ self := { st.self with lastError := (readEnd w st).2 % 256 }
           wire := (readCopy w st).wire
           buf := (readCopy w st).buf
           dataPointer := st.dataPointer + (readCopy w st).i
           lenRemaining := subSize sizeBits st.lenRemaining (readCopy w st).i
           nextAddress := (st.nextAddress + (readCopy w st).i) % 65536
           totalread := toInt intBits (st.totalread + ((readCopy w st).i : Int))
           numberOfReads := st.numberOfReads
           events := (readCopy w st).events }, false) :=
  rfl

theorem readBody_numberOfReads {σ : Type} (w : TwoWire σ) (intBits sizeBits : Nat)
    (st : ReadState σ) : (readBody w intBits sizeBits st).1.numberOfReads = st.numberOfReads := by
  rw [readBody_eq]
  split <;> rfl

theorem readBody_lastError {σ : Type} (w : TwoWire σ) (intBits sizeBits : Nat) (st : ReadState σ) :
    (readBody w intBits sizeBits st).1.self = { st.self with lastError := (readEnd w st).2 % 256 } := by
  rw [readBody_eq]
  split <;> rfl

theorem readBody_of_error {σ : Type} (w : TwoWire σ) (intBits sizeBits : Nat) (st : ReadState σ)
    (h : (readEnd w st).2 % 256 ≠ 0) :
    readBody w intBits sizeBits st =
      ({ st with self := { st.self with lastError := (readEnd w st).2 % 256 },
                 wire := (readEnd w st).1,
                 events := st.events ++ (writeAddress w st.self st.nextAddress st.wire).2 ++
                   [Event.endTransmission (readEnd w st).2] }, true) := by
  have h2 : (readEnd w st).2 % 256 ≠ ERR_OK := h
  rw [readBody_eq, if_pos h2]

theorem readBody_of_ok {σ : Type} (w : TwoWire σ) (intBits sizeBits : Nat) (st : ReadState σ)
    (h : (readEnd w st).2 % 256 = 0) :
    readBody w intBits sizeBits st =
      ({ self := { st.self with lastError := (readEnd w st).2 % 256 }
         wire := (readCopy w st).wire
         buf := (readCopy w st).buf
         dataPointer := st.dataPointer + (readCopy w st).i
         lenRemaining := subSize sizeBits st.lenRemaining (readCopy w st).i
         nextAddress := (st.nextAddress + (readCopy w st).i) % 65536
         totalread := toInt intBits (st.totalread + ((readCopy w st).i : Int))
         numberOfReads := st.numberOfReads
         events := (readCopy w st).events }, false) := by
  have h2 : ¬ ((readEnd w st).2 % 256 ≠ ERR_OK) := not_not.2 h
  rw [readBody_eq, if_neg h2]

theorem readLoop_succ {σ : Type} (w : TwoWire σ) (intBits sizeBits len fuel : Nat)
    (st : ReadState σ) :
    readLoop w intBits sizeBits len (fuel + 1) st =
      if (readBody w intBits sizeBits st).2 = true then some (readBody w intBits sizeBits st).1
      else if 0 < (readBody w intBits sizeBits st).1.lenRemaining then
        if ((readBody w intBits sizeBits st).1.numberOfReads + 1) % 256 < len then
          readLoop w intBits sizeBits len fuel { (readBody w intBits sizeBits st).1 with
            numberOfReads := ((readBody w intBits sizeBits st).1.numberOfReads + 1) % 256 }
        else some { (readBody w intBits sizeBits st).1 with
          numberOfReads := ((readBody w intBits sizeBits st).1.numberOfReads + 1) % 256 }
      else some (readBody w intBits sizeBits st).1 :=
  rfl

/-- Proof rule for the `do ... while` loop of `readBuffer` with a termination measure: `I`
holds at the head of every iteration, `Q` at every exit, and `μ` is positive at the head of an
iteration and falls from one iteration to the next; then `μ st` units of fuel are enough. -/
theorem readLoop_rule {σ : Type} (w : TwoWire σ) (intBits sizeBits len : Nat)
    (I Q : ReadState σ → Prop) (μ : ReadState σ → Nat)
    (hpos : ∀ st, I st → 0 < μ st)
    (hbreak : ∀ st, I st → (readBody w intBits sizeBits st).2 = true → Q (readBody w intBits sizeBits st).1)
    (hdone : ∀ st, I st → (readBody w intBits sizeBits st).2 = false →
      ¬ 0 < (readBody w intBits sizeBits st).1.lenRemaining → Q (readBody w intBits sizeBits st).1)
    (hcap : ∀ st, I st → (readBody w intBits sizeBits st).2 = false →
      0 < (readBody w intBits sizeBits st).1.lenRemaining →
      ¬ ((readBody w intBits sizeBits st).1.numberOfReads + 1) % 256 < len →
      Q { (readBody w intBits sizeBits st).1 with
        numberOfReads := ((readBody w intBits sizeBits st).1.numberOfReads + 1) % 256 })
    (hnext : ∀ st, I st → (readBody w intBits sizeBits st).2 = false →
      0 < (readBody w intBits sizeBits st).1.lenRemaining →
      ((readBody w intBits sizeBits st).1.numberOfReads + 1) % 256 < len →
      I { (readBody w intBits sizeBits st).1 with
        numberOfReads := ((readBody w intBits sizeBits st).1.numberOfReads + 1) % 256 } ∧
      μ { (readBody w intBits sizeBits st).1 with
        numberOfReads := ((readBody w intBits sizeBits st).1.numberOfReads + 1) % 256 } < μ st)
    (fuel : Nat) (st : ReadState σ) (h : I st) (hfuel : μ st ≤ fuel) :
    ∃ r, readLoop w intBits sizeBits len fuel st = some r ∧ Q r := by
  induction fuel generalizing st with
  | zero =>
    have := hpos st h
    omega
  | succ fuel ih =>
    rw [readLoop_succ]
    split_ifs with h1 h2 h3
    · exact ⟨_, rfl, hbreak st h h1⟩
    · have h1f : (readBody w intBits sizeBits st).2 = false := by simpa using h1
      obtain ⟨hI, hμ⟩ := hnext st h h1f h2 h3
      exact ih _ hI (by omega)
    · have h1f : (readBody w intBits sizeBits st).2 = false := by simpa using h1
      exact ⟨_, rfl, hcap st h h1f h2 h3⟩
    · have h1f : (readBody w intBits sizeBits st).2 = false := by simpa using h1
      exact ⟨_, rfl, hdone st h h1f h2⟩

/-- Proof rule for the loop of `readBuffer` without termination: `Q` holds whenever the loop
comes to an end. -/
theorem readLoop_partial {σ : Type} (w : TwoWire σ) (intBits sizeBits len : Nat)
    (I Q : ReadState σ → Prop)
    (hbreak : ∀ st, I st → (readBody w intBits sizeBits st).2 = true → Q (readBody w intBits sizeBits st).1)
    (hdone : ∀ st, I st → (readBody w intBits sizeBits st).2 = false →
      ¬ 0 < (readBody w intBits sizeBits st).1.lenRemaining → Q (readBody w intBits sizeBits st).1)
    (hcap : ∀ st, I st → (readBody w intBits sizeBits st).2 = false →
      0 < (readBody w intBits sizeBits st).1.lenRemaining →
      ¬ ((readBody w intBits sizeBits st).1.numberOfReads + 1) % 256 < len →
      Q { (readBody w intBits sizeBits st).1 with
        numberOfReads := ((readBody w intBits sizeBits st).1.numberOfReads + 1) % 256 })
    (hnext : ∀ st, I st → (readBody w intBits sizeBits st).2 = false →
      0 < (readBody w intBits sizeBits st).1.lenRemaining →
      ((readBody w intBits sizeBits st).1.numberOfReads + 1) % 256 < len →
      I { (readBody w intBits sizeBits st).1 with
        numberOfReads := ((readBody w intBits sizeBits st).1.numberOfReads + 1) % 256 })
    (fuel : Nat) (st r : ReadState σ) (h : I st)
    (hr : readLoop w intBits sizeBits len fuel st = some r) : Q r := by
  induction fuel generalizing st with
  | zero => cases hr
  | succ fuel ih =>
    rw [readLoop_succ] at hr
    split_ifs at hr with h1 h2 h3
    · cases hr
      exact hbreak st h h1
    · have h1f : (readBody w intBits sizeBits st).2 = false := by simpa using h1
      exact ih _ (hnext st h h1f h2 h3) hr
    · have h1f : (readBody w intBits sizeBits st).2 = false := by simpa using h1
      cases hr
      exact hcap st h h1f h2 h3
    · have h1f : (readBody w intBits sizeBits st).2 = false := by simpa using h1
      cases hr
      exact hdone st h h1f h2

theorem readBuffer_eq {σ : Type} (w : TwoWire σ) (intBits sizeBits fuel : Nat) (self : AT24Cxxx)
    (address : Nat) (buf : Nat → Nat) (len : Nat) (s : σ) (hlen : len ≠ 0) :
    readBuffer w intBits sizeBits fuel self address buf len s =
      (readLoop w intBits sizeBits len fuel (readInit self address buf len s)).map
        fun st => ⟨st.totalread, st.self, st.wire, st.buf, st.events⟩ := by
  simp only [readBuffer, if_neg hlen, readInit]

/-! ## Reads on a fault-free bus (C2, C8) -/

theorem writeAddress_events {σ : Type} (w : TwoWire σ) (self : AT24Cxxx) (address : Nat)
    (s : σ) :
    ∃ r1 r2, (writeAddress w self address s).2 =
      [Event.callWriteAddress address, Event.beginTransmission self.i2cAddress,
        Event.write ((address / 256) % 256) r1, Event.write (address % 256) r2] :=
  ⟨_, _, rfl⟩

theorem readHead_addressCalls {σ : Type} (w : TwoWire σ) (st : ReadState σ) :
    addressCalls (readHead w st) = addressCalls st.events ++ [st.nextAddress] := by
  obtain ⟨r1, r2, h⟩ := writeAddress_events w st.self st.nextAddress st.wire
  rw [readHead, h]
  simp only [addressCalls_append]
  simp [addressCalls]

theorem readHead_requests {σ : Type} (w : TwoWire σ) (st : ReadState σ) :
    requests (readHead w st) =
      requests st.events ++ [min st.lenRemaining MAX_ALLOWED_LEN_IN_REQUESTFROM] := by
  obtain ⟨r1, r2, h⟩ := writeAddress_events w st.self st.nextAddress st.wire
  rw [readHead, h]
  simp only [requests_append]
  simp [requests]

theorem readHead_rawWrites {σ : Type} (w : TwoWire σ) (st : ReadState σ) :
    rawWrites (readHead w st) = rawWrites st.events := by
  obtain ⟨r1, r2, h⟩ := writeAddress_events w st.self st.nextAddress st.wire
  rw [readHead, h]
  simp only [rawWrites_append]
  simp [rawWrites]

theorem readCopy_events {σ : Type} (w : TwoWire σ) (st : ReadState σ) :
    ∃ xs, AllCopy xs ∧ (readCopy w st).events = readHead w st ++ xs := by
  obtain ⟨xs, hxs, hev, -, -⟩ := copyLoop_spec w st.dataPointer (readRequest w st).2 0
    (readRequest w st).1 st.buf (readHead w st)
  exact ⟨xs, hxs, hev⟩

/-- One iteration of the loop of `readBuffer` whose address phase ends with success, on a bus
that delivers all it is asked for: no `break`, and exactly `min lenRemaining 255` bytes are
moved. -/
theorem readBody_deliversAll {σ : Type} (w : TwoWire σ) (intBits : Nat) (pending : σ → Nat)
    (hD : DeliversAll w pending) (sizeBits : Nat) (st : ReadState σ)
    (hend : (readEnd w st).2 % 256 = 0) :
    (readBody w intBits sizeBits st).2 = false ∧
    (readBody w intBits sizeBits st).1.self = { st.self with lastError := 0 } ∧
    (readBody w intBits sizeBits st).1.dataPointer = st.dataPointer + min st.lenRemaining 255 ∧
    (readBody w intBits sizeBits st).1.lenRemaining = st.lenRemaining - min st.lenRemaining 255 ∧
    (readBody w intBits sizeBits st).1.nextAddress =
      (st.nextAddress + min st.lenRemaining 255) % 65536 ∧
    (readBody w intBits sizeBits st).1.totalread =
      toInt intBits (st.totalread + (min st.lenRemaining 255 : Nat)) ∧
    addressCalls (readBody w intBits sizeBits st).1.events =
      addressCalls st.events ++ [st.nextAddress] ∧
    requests (readBody w intBits sizeBits st).1.events =
      requests st.events ++ [min st.lenRemaining 255] := by
  have hreq : (readRequest w st).2 = min st.lenRemaining 255 := hD.request_ret _ _ _
  have hi : (readCopy w st).i = min st.lenRemaining 255 := by
    rw [readCopy, copyLoop_all w pending hD _ _ _ _ _ _ (by rw [hreq]; exact hD.request_pending _ _ _),
      hreq]
    simp
  obtain ⟨xs, hxs, hev⟩ := readCopy_events w st
  rw [readBody_of_ok w intBits sizeBits st hend]
  refine ⟨rfl, ?_, ?_, ?_, ?_, ?_, ?_, ?_⟩
  · simp only [hend]
  · simp only [hi]
  · simp only [hi, subSize]
    rw [if_pos (Nat.min_le_left _ _)]
  · simp only [hi]
  · simp only [hi]
  · simp only [hev, addressCalls_append, allCopy_addressCalls hxs, readHead_addressCalls]
    simp
  · simp only [hev, requests_append, allCopy_requests hxs, readHead_requests]
    simp [MAX_ALLOWED_LEN_IN_REQUESTFROM]

/-- One iteration of the loop of `readBuffer` on a fault-free bus: no `break`, and exactly
`min lenRemaining 255` bytes are moved. -/
theorem readBody_faultFree {σ : Type} (w : TwoWire σ) (intBits : Nat) (pending : σ → Nat)
    (hT : TransactionsSucceed w) (hD : DeliversAll w pending) (sizeBits : Nat)
    (st : ReadState σ) :
    (readBody w intBits sizeBits st).2 = false ∧
    (readBody w intBits sizeBits st).1.self = { st.self with lastError := 0 } ∧
    (readBody w intBits sizeBits st).1.dataPointer = st.dataPointer + min st.lenRemaining 255 ∧
    (readBody w intBits sizeBits st).1.lenRemaining = st.lenRemaining - min st.lenRemaining 255 ∧
    (readBody w intBits sizeBits st).1.nextAddress =
      (st.nextAddress + min st.lenRemaining 255) % 65536 ∧
    (readBody w intBits sizeBits st).1.totalread =
      toInt intBits (st.totalread + (min st.lenRemaining 255 : Nat)) ∧
    addressCalls (readBody w intBits sizeBits st).1.events =
      addressCalls st.events ++ [st.nextAddress] ∧
    requests (readBody w intBits sizeBits st).1.events =
      requests st.events ++ [min st.lenRemaining 255] :=
  readBody_deliversAll w intBits pending hD sizeBits st (by
    have h : (readEnd w st).2 = 0 := hT _
    rw [h])

/-- The run of `readBuffer` on a fault-free bus, for `len ≥ 1` and fuel at least `len`. -/
theorem readLoop_faultFree {σ : Type} (w : TwoWire σ) (intBits : Nat) (pending : σ → Nat)
    (hT : TransactionsSucceed w) (hD : DeliversAll w pending) (sizeBits fuel : Nat)
    (self : AT24Cxxx) (address : Nat) (buf : Nat → Nat) (len : Nat) (s : σ)
    (hlen : 1 ≤ len) (hfuel : len ≤ fuel) :
    ∃ r, readLoop w intBits sizeBits len fuel (readInit self address buf len s) = some r ∧
      r.totalread = toInt intBits (len : Int) ∧ r.self.lastError = 0 ∧
      addressCalls r.events =
        (List.range ((len + 254) / 255)).map (fun j => (address + 255 * j) % 65536) ∧
      requests r.events =
        (List.range ((len + 254) / 255)).map (fun j => min 255 (len - 255 * j)) ∧
      r.lenRemaining = 0 ∧ r.dataPointer = len := by
  refine readLoop_rule w intBits sizeBits len
    (fun st => ∃ m, st.dataPointer = 255 * m ∧
      st.totalread = toInt intBits ((255 * m : Nat) : Int) ∧
      255 * m + st.lenRemaining = len ∧ 0 < st.lenRemaining ∧
      st.nextAddress = (address + 255 * m) % 65536 ∧ st.numberOfReads = m % 256 ∧
      addressCalls st.events = (List.range m).map (fun j => (address + 255 * j) % 65536) ∧
      requests st.events = (List.range m).map (fun j => min 255 (len - 255 * j)))
    (fun r => r.totalread = toInt intBits (len : Int) ∧ r.self.lastError = 0 ∧
      addressCalls r.events =
        (List.range ((len + 254) / 255)).map (fun j => (address + 255 * j) % 65536) ∧
      requests r.events =
        (List.range ((len + 254) / 255)).map (fun j => min 255 (len - 255 * j)) ∧
      r.lenRemaining = 0 ∧ r.dataPointer = len)
    (fun st => st.lenRemaining) ?_ ?_ ?_ ?_ ?_ fuel (readInit self address buf len s)
    ⟨0, rfl, by simp [readInit, toInt_zero], by simp [readInit],
      by simp [readInit]; omega, by simp [readInit], rfl, rfl, rfl⟩
    (by simpa [readInit] using hfuel)
  · rintro st ⟨m, -, -, -, h, -⟩
    exact h
  · intro st _ hb
    rw [(readBody_faultFree w intBits pending hT hD sizeBits st).1] at hb
    cases hb
  · rintro st ⟨m, hdp, htot, hsum, hpos, hna, hnum, hac, hrq⟩ _ hrem
    obtain ⟨-, hself, hdp1, hlr, -, htr, hac2, hrq2⟩ :=
      readBody_faultFree w intBits pending hT hD sizeBits st
    rw [hlr] at hrem
    have hmin : min st.lenRemaining 255 = st.lenRemaining := by omega
    have hcnt : (len + 254) / 255 = m + 1 := by omega
    refine ⟨?_, by rw [hself], ?_, ?_, by rw [hlr]; omega, by rw [hdp1]; omega⟩
    · have e : 255 * m + min st.lenRemaining 255 = len := by omega
      rw [htr, htot, toInt_count, e]
    · rw [hac2, hac, hna, hcnt, List.range_succ, List.map_append]
      rfl
    · rw [hrq2, hrq, hcnt, List.range_succ, List.map_append]
      have : min st.lenRemaining 255 = min 255 (len - 255 * m) := by omega
      rw [this]
      rfl
  · rintro st ⟨m, hdp, htot, hsum, hpos, hna, hnum, hac, hrq⟩ _ hrem hcap
    obtain ⟨-, hself, -, hlr, -, htr, hac2, hrq2⟩ := readBody_faultFree w intBits pending hT hD sizeBits st
    rw [hlr] at hrem
    rw [readBody_numberOfReads, hnum] at hcap
    omega
  · rintro st ⟨m, hdp, htot, hsum, hpos, hna, hnum, hac, hrq⟩ _ hrem hcap
    obtain ⟨-, hself, hdp2, hlr, hna2, htr, hac2, hrq2⟩ :=
      readBody_faultFree w intBits pending hT hD sizeBits st
    rw [hlr] at hrem
    have hmin : min st.lenRemaining 255 = 255 := by omega
    refine ⟨⟨m + 1, ?_, ?_, ?_, ?_, ?_, ?_, ?_, ?_⟩, ?_⟩
    · show (readBody w intBits sizeBits st).1.dataPointer = _
      rw [hdp2, hdp, hmin]
      omega
    · show (readBody w intBits sizeBits st).1.totalread = _
      have e : 255 * m + min st.lenRemaining 255 = 255 * (m + 1) := by omega
      rw [htr, htot, toInt_count, e]
    · show 255 * (m + 1) + (readBody w intBits sizeBits st).1.lenRemaining = len
      rw [hlr, hmin]
      omega
    · show 0 < (readBody w intBits sizeBits st).1.lenRemaining
      rw [hlr]
      exact hrem
    · show (readBody w intBits sizeBits st).1.nextAddress = _
      rw [hna2, hna, hmin]
      omega
    · show ((readBody w intBits sizeBits st).1.numberOfReads + 1) % 256 = _
      rw [readBody_numberOfReads, hnum]
      omega
    · show addressCalls (readBody w intBits sizeBits st).1.events = _
      rw [hac2, hac, hna, List.range_succ, List.map_append]
      rfl
    · show requests (readBody w intBits sizeBits st).1.events = _
      rw [hrq2, hrq, List.range_succ, List.map_append]
      have : min st.lenRemaining 255 = min 255 (len - 255 * m) := by omega
      rw [this]
      rfl
    · show (readBody w intBits sizeBits st).1.lenRemaining < st.lenRemaining
      rw [hlr, hmin]
      omega

theorem memWire_transactionsSucceed : TransactionsSucceed memWire :=
  fun _ => rfl

theorem memWire_acceptsEveryByte : AcceptsEveryByte memWire :=
  fun _ _ => rfl

theorem memWire_deliversAll : DeliversAll memWire (fun s => s.rx.length) where
  request_ret _ _ _ := rfl
  request_pending s d n := by simp [memWire]
  available_ret s := by
    show ((s.rx.length : Int) ≠ 0) ↔ 0 < s.rx.length
    omega
  available_pending _ := rfl
  read_pending s := by
    show (memWire.read s).1.rx.length = s.rx.length - 1
    cases h : s.rx with
    | nil => simp [memWire, h]
    | cons b t => simp [memWire, h]

/-- C2 (as amended). On a fault-free bus (every transaction ends with success, every request
delivers all the bytes asked for), for every address, destination and length `len`,
`readBuffer` returns (given at least `len` units of fuel) `len` converted to `int`, which is
exactly `len` whenever `len ≤ INT_MAX`, and leaves `getLastError() == ERR_OK`. -/
theorem readBuffer_faultFree_returns_len {σ : Type} (w : TwoWire σ) (intBits : Nat)
    (pending : σ → Nat)
    (hT : TransactionsSucceed w) (hD : DeliversAll w pending) (sizeBits fuel : Nat)
    (self : AT24Cxxx) (address : Nat) (buf : Nat → Nat) (len : Nat) (s : σ)
    (hfuel : len ≤ fuel) :
    ∃ r, readBuffer w intBits sizeBits fuel self address buf len s = some r ∧
      r.ret = toInt intBits (len : Int) ∧
      ((len : Int) < intLimit intBits → r.ret = (len : Int)) ∧
      getLastError r.self = ERR_OK := by
  have hpos := intLimit_pos intBits
  by_cases hlen : len = 0
  · subst hlen
    exact ⟨⟨0, { self with lastError := ERR_OK }, s, buf, []⟩, rfl, (toInt_zero intBits).symm,
      fun _ => rfl, rfl⟩
  · obtain ⟨r, hr, htot, herr, -, -, -⟩ := readLoop_faultFree w intBits pending hT hD sizeBits
      fuel self address buf len s (by omega) hfuel
    rw [readBuffer_eq w intBits sizeBits fuel self address buf len s hlen, hr]
    refine ⟨_, rfl, htot, fun hfit => ?_, herr⟩
    show r.totalread = (len : Int)
    rw [htot]
    exact toInt_of_fits _ _ (by omega) hfit

/-- C2 on the memory device: reading 300 bytes from address 0. -/
theorem readBuffer_faultFree_returns_len_witness :
    (TransactionsSucceed memWire ∧ DeliversAll memWire (fun s => s.rx.length) ∧ 300 ≤ 300) ∧
    ∃ r, readBuffer memWire 16 16 300 (AT24Cxxx.new 80 10 256 16) 0 (fun _ => 0) 300
        (MemState.blank 255) = some r ∧
      r.ret = (300 : Nat) ∧ getLastError r.self = ERR_OK := by
  obtain ⟨r, hr, -, hfit, herr⟩ := readBuffer_faultFree_returns_len memWire 16
    (fun s => s.rx.length) memWire_transactionsSucceed memWire_deliversAll 16 300
    (AT24Cxxx.new 80 10 256 16) 0 (fun _ => 0) 300 (MemState.blank 255) (le_refl _)
  exact ⟨⟨memWire_transactionsSucceed, memWire_deliversAll, le_refl _⟩, r, hr,
    hfit (by decide), herr⟩

/-- C2 as stated fails where the `int` return value cannot hold `len`: with a 16-bit `int`
(AVR), reading 32768 bytes from address 0 of the memory device returns -32768, not 32768. -/
theorem readBuffer_faultFree_return_wraps :
    TransactionsSucceed memWire ∧ DeliversAll memWire (fun s => s.rx.length) ∧
    ∃ r, readBuffer memWire 16 16 32768 (AT24Cxxx.new 80 10 256 16) 0 (fun _ => 0) 32768
        (MemState.blank 255) = some r ∧
      r.ret = -32768 ∧ r.ret ≠ ((32768 : Nat) : Int) ∧ getLastError r.self = ERR_OK := by
  obtain ⟨r, hr, htot, herr, -, -, -⟩ := readLoop_faultFree memWire 16 (fun s => s.rx.length)
    memWire_transactionsSucceed memWire_deliversAll 16 32768 (AT24Cxxx.new 80 10 256 16) 0
    (fun _ => 0) 32768 (MemState.blank 255) (by decide) (le_refl _)
  have hv : toInt 16 ((32768 : Nat) : Int) = -32768 := by decide
  rw [hv] at htot
  rw [readBuffer_eq memWire 16 16 32768 _ 0 _ 32768 _ (by decide), hr]
  refine ⟨memWire_transactionsSucceed, memWire_deliversAll, _, rfl, htot, ?_, herr⟩
  show r.totalread ≠ _
  rw [htot]
  decide

/-- C8 (as amended). On a fault-free bus, for every address `a` and length `len ≥ 1`,
`readBuffer` issues exactly `⌈len / 255⌉` read sub-operations; the `j`-th (from 0) is
addressed at `(a + 255 * j) mod 2^16` (at `a + 255 * j` when `a + len ≤ 2^16`) and requests
`min 255 (len - 255 * j)` bytes, so no request exceeds 255 bytes; `readBuffer(0, 300)` issues
two sub-operations requesting 255 and 45 bytes and, `int` having at least 16 bits as C++
requires, returns 300. -/
theorem readBuffer_faultFree_subOperations {σ : Type} (w : TwoWire σ) (intBits : Nat)
    (pending : σ → Nat) (hT : TransactionsSucceed w) (hD : DeliversAll w pending)
    (sizeBits fuel : Nat) (self : AT24Cxxx) (a : Nat) (buf : Nat → Nat) (len : Nat) (s : σ)
    (hlen : 1 ≤ len) (hfuel : len ≤ fuel) :
    ∃ r, readBuffer w intBits sizeBits fuel self a buf len s = some r ∧
      (addressCalls r.events).length = (len + 254) / 255 ∧
      (requests r.events).length = (len + 254) / 255 ∧
      addressCalls r.events =
        (List.range ((len + 254) / 255)).map (fun j => (a + 255 * j) % 65536) ∧
      (a + len ≤ 65536 →
        addressCalls r.events = (List.range ((len + 254) / 255)).map (fun j => a + 255 * j)) ∧
      requests r.events =
        (List.range ((len + 254) / 255)).map (fun j => min 255 (len - 255 * j)) ∧
      (∀ n ∈ requests r.events, n ≤ 255) ∧
      (a = 0 → len = 300 →
        addressCalls r.events = [0, 255] ∧ requests r.events = [255, 45] ∧
        (16 ≤ intBits → r.ret = 300)) := by
  obtain ⟨r, hr, htot, herr, hac, hrq, -⟩ := readLoop_faultFree w intBits pending hT hD sizeBits
    fuel self a buf len s hlen hfuel
  rw [readBuffer_eq w intBits sizeBits fuel self a buf len s (by omega), hr]
  refine ⟨_, rfl, ?_, ?_, hac, ?_, hrq, ?_, ?_⟩
  · show (addressCalls r.events).length = _
    rw [hac]
    simp
  · show (requests r.events).length = _
    rw [hrq]
    simp
  · intro hfit
    show addressCalls r.events = _
    rw [hac]
    apply List.map_congr_left
    intro j hj
    have hj2 : j < (len + 254) / 255 := List.mem_range.1 hj
    have : a + 255 * j < 65536 := by omega
    exact Nat.mod_eq_of_lt this
  · intro n hn
    change n ∈ requests r.events at hn
    rw [hrq] at hn
    obtain ⟨j, -, rfl⟩ := List.mem_map.1 hn
    exact Nat.min_le_left _ _
  · intro ha hl
    subst ha
    subst hl
    refine ⟨?_, ?_, fun hint => ?_⟩
    · show addressCalls r.events = _
      rw [hac]
      decide
    · show requests r.events = _
      rw [hrq]
      decide
    · have hlim := intLimit_ge intBits hint
      show r.totalread = 300
      rw [htot]
      exact toInt_of_fits _ _ (by omega) (by omega)

/-- C8 on the memory device, with a 16-bit `int`: reading 300 bytes from address 0. -/
theorem readBuffer_faultFree_subOperations_witness :
    (TransactionsSucceed memWire ∧ DeliversAll memWire (fun s => s.rx.length) ∧
      1 ≤ 300 ∧ 300 ≤ 300) ∧
    ∃ r, readBuffer memWire 16 16 300 (AT24Cxxx.new 80 10 256 16) 0 (fun _ => 0) 300
        (MemState.blank 255) = some r ∧
      addressCalls r.events = [0, 255] ∧ requests r.events = [255, 45] ∧ r.ret = 300 := by
  obtain ⟨r, hr, -, -, -, -, -, -, h⟩ :=
    readBuffer_faultFree_subOperations memWire 16 (fun s => s.rx.length)
      memWire_transactionsSucceed memWire_deliversAll 16 300 (AT24Cxxx.new 80 10 256 16) 0
      (fun _ => 0) 300 (MemState.blank 255) (by decide) (le_refl _)
  exact ⟨⟨memWire_transactionsSucceed, memWire_deliversAll, by decide, le_refl _⟩,
    r, hr, (h rfl rfl).1, (h rfl rfl).2.1, (h rfl rfl).2.2 (le_refl _)⟩

/-- C8 as stated fails where the 16-bit address cursor wraps: reading 256 bytes from address
65535 on the memory device, the second sub-operation is addressed at 254, not at
`65535 + 255`. -/
theorem readBuffer_subOperation_address_wraps :
    ∃ r, readBuffer memWire 16 16 256 (AT24Cxxx.new 80 10 256 16) 65535 (fun _ => 0) 256
        (MemState.blank 255) = some r ∧
      addressCalls r.events = [65535, 254] ∧
      addressCalls r.events ≠ (List.range ((256 + 254) / 255)).map (fun j => 65535 + 255 * j) := by
  obtain ⟨r, hr, -, -, hac, -, -⟩ := readLoop_faultFree memWire 16 (fun s => s.rx.length)
    memWire_transactionsSucceed memWire_deliversAll 16 256 (AT24Cxxx.new 80 10 256 16) 65535
    (fun _ => 0) 256 (MemState.blank 255) (by decide) (le_refl _)
  rw [readBuffer_eq memWire 16 16 256 _ 65535 _ 256 _ (by decide), hr]
  refine ⟨_, rfl, ?_, ?_⟩
  · show addressCalls r.events = _
    rw [hac]
    decide
  · show addressCalls r.events ≠ _
    rw [hac]
    decide

/-! ## C9: the iteration cap of `readBuffer` -/

/-- On the bus whose transactions succeed and whose requests deliver nothing, an iteration of
the read loop changes neither the bus state nor `lenRemaining`, and does not `break`. -/
theorem readBody_zeroDelivery (intBits sizeBits : Nat) (st : ReadState ScriptState)
    (hw : st.wire = ⟨[], 0⟩) :
    (readBody (scriptWire 1 fun _ => 0) intBits sizeBits st).2 = false ∧
    (readBody (scriptWire 1 fun _ => 0) intBits sizeBits st).1.wire = ⟨[], 0⟩ ∧
    (readBody (scriptWire 1 fun _ => 0) intBits sizeBits st).1.lenRemaining = st.lenRemaining := by
  have hend : (readEnd (scriptWire 1 fun _ => 0) st).2 = 0 := by
    simp [readEnd, writeAddress, scriptWire, hw]
  have hend1 : (readEnd (scriptWire 1 fun _ => 0) st).1 = ⟨[], 0⟩ := by
    simp [readEnd, writeAddress, scriptWire, hw]
  have hreq : readRequest (scriptWire 1 fun _ => 0) st = (⟨[], 0⟩, 0) := by
    rw [readRequest, hend1]
    rfl
  have hb : ¬ ((readEnd (scriptWire 1 fun _ => 0) st).2 % 256 ≠ ERR_OK) := by
    simp [hend, ERR_OK]
  rw [readBody_eq, if_neg hb]
  simp only [readCopy, hreq, copyLoop, subSize]
  simp

/-- On the zero-delivery bus the read loop with `len ≥ 256` is still running after any number
of iterations: the 8-bit counter never reaches `len`. -/
theorem readLoop_zeroDelivery_runs (intBits sizeBits len fuel : Nat) (st : ReadState ScriptState)
    (hlen : 256 ≤ len) (hw : st.wire = ⟨[], 0⟩) (hrem : 0 < st.lenRemaining) :
    readLoop (scriptWire 1 fun _ => 0) intBits sizeBits len fuel st = none := by
  induction fuel generalizing st with
  | zero => rfl
  | succ fuel ih =>
    obtain ⟨hb, hwire, hlr⟩ := readBody_zeroDelivery intBits sizeBits st hw
    have hcnt : ((readBody (scriptWire 1 fun _ => 0) intBits sizeBits st).1.numberOfReads + 1) % 256
        < len := Nat.lt_of_lt_of_le (Nat.mod_lt _ (by decide)) hlen
    rw [readLoop_succ, hb, hlr]
    simp only [Bool.false_eq_true, if_false, if_pos hrem]
    rw [if_pos hcnt]
    exact ih _ hwire (by show 0 < (readBody _ intBits sizeBits st).1.lenRemaining; rw [hlr]; exact hrem)

/-- C9 (code at the failing input). `readBuffer` with `len = 256` on a bus whose transactions
succeed and whose requests deliver zero bytes does not return, whatever the number of
iterations allowed: the `uint8_t` counter `numberOfReads` wraps from 255 to 0 and stays below
`len`, so the loop is not left after 256 iterations. -/
theorem readBuffer_zeroDelivery_never_returns (intBits sizeBits fuel : Nat) (self : AT24Cxxx)
    (address : Nat) (buf : Nat → Nat) :
    readBuffer (scriptWire 1 fun _ => 0) intBits sizeBits fuel self address buf 256 ⟨[], 0⟩ = none := by
  rw [readBuffer_eq _ intBits sizeBits fuel self address buf 256 _ (by decide),
    readLoop_zeroDelivery_runs intBits sizeBits 256 fuel _ (le_refl _) rfl (by simp [readInit])]
  rfl

/-! ## Writes on a fault-free bus (C7) -/

theorem queueLoop_all {σ : Type} (w : TwoWire σ) (hA : AcceptsEveryByte w) (data : Nat → Nat)
    (k written : Nat) (s : σ) (ev : List Event) :
    (queueLoop w data k written s ev).2.1 = written + k := by
  induction k generalizing written s ev with
  | zero => rfl
  | succ k ih =>
    have e : queueLoop w data (k + 1) written s ev =
        queueLoop w data k (written + 1) (w.write s (data written)).1
          (ev ++ [Event.write (data written) (w.write s (data written)).2]) := by
      simp only [queueLoop]
      rw [if_neg (not_not.2 (hA _ _))]
    rw [e, ih]
    omega

theorem rawWriteBuffer_faultFree {σ : Type} (w : TwoWire σ) (hA : AcceptsEveryByte w)
    (hT : TransactionsSucceed w) (self : AT24Cxxx) (address : Nat) (data : Nat → Nat)
    (len : Nat) (s : σ) :
    (rawWriteBuffer w self address data len s).self.lastError = 0 ∧
    (rawWriteBuffer w self address data len s).ret = (len : Int) := by
  have hq := queueLoop_all w hA data len 0
    (writeAddress w { self with lastError := ERR_OK } address s).1
    (Event.callRawWriteBuffer address len ::
      (writeAddress w { self with lastError := ERR_OK } address s).2)
  have he : (rawWriteBuffer w self address data len s).self.lastError = 0 := by
    simp only [rawWriteBuffer, hT _]
  refine ⟨he, ?_⟩
  rw [rawWriteBuffer_ret, if_pos he]
  simp only [rawWriteBuffer, hq]
  simp

theorem rawWriteBuffer_queued_all {σ : Type} (w : TwoWire σ) (hA : AcceptsEveryByte w)
    (self : AT24Cxxx) (address : Nat) (data : Nat → Nat) (len : Nat) (s : σ) :
    (rawWriteBuffer w self address data len s).queued = len := by
  have hq := queueLoop_all w hA data len 0
    (writeAddress w { self with lastError := ERR_OK } address s).1
    (Event.callRawWriteBuffer address len ::
      (writeAddress w { self with lastError := ERR_OK } address s).2)
  simp only [rawWriteBuffer, hq]
  simp

/-- One iteration of the loop of `writeBuffer` whose transaction ends with success, on a bus
that accepts every byte: no `break`, and the whole chunk
`min (pageSize - nextAddress % pageSize) lenRemaining` is written. -/
theorem writeBody_accepts {σ : Type} (w : TwoWire σ) (intBits : Nat) (hA : AcceptsEveryByte w)
    (data : Nat → Nat) (st : WriteState σ) (hok : (writeCall w data st).self.lastError = 0) :
    (writeBody w intBits data st).2 = false ∧
    (writeBody w intBits data st).1.self.lastError = 0 ∧
    (writeBody w intBits data st).1.self.pageSize = st.self.pageSize ∧
    (writeBody w intBits data st).1.dataToWrite = st.dataToWrite +
      min (st.self.pageSize - st.nextAddress % st.self.pageSize) st.lenRemaining ∧
    (writeBody w intBits data st).1.lenRemaining = st.lenRemaining -
      min (st.self.pageSize - st.nextAddress % st.self.pageSize) st.lenRemaining ∧
    (writeBody w intBits data st).1.nextAddress = (st.nextAddress +
      min (st.self.pageSize - st.nextAddress % st.self.pageSize) st.lenRemaining) % 65536 ∧
    (writeBody w intBits data st).1.totalWritten = toInt intBits (st.totalWritten +
      (min (st.self.pageSize - st.nextAddress % st.self.pageSize) st.lenRemaining : Nat)) ∧
    rawWrites (writeBody w intBits data st).1.events = rawWrites st.events ++
      [(st.nextAddress,
        min (st.self.pageSize - st.nextAddress % st.self.pageSize) st.lenRemaining)] := by
  have hq : (writeCall w data st).queued =
      min (st.self.pageSize - st.nextAddress % st.self.pageSize) st.lenRemaining :=
    rawWriteBuffer_queued_all w hA _ _ _ _ _
  have hr2 : (writeCall w data st).ret.toNat =
      min (st.self.pageSize - st.nextAddress % st.self.pageSize) st.lenRemaining := by
    rw [writeCall_ret, if_pos hok, hq]
    exact Int.toNat_ofNat _
  have hev := writeBody_events w intBits data st
  rw [writeBody_of_ok w intBits data st hok] at hev ⊢
  refine ⟨rfl, hok, rfl, ?_, ?_, ?_, ?_, ?_⟩
  · simp only [hr2]
  · simp only [hr2]
  · simp only [hr2]
  · simp only [hr2]
  · simp only [rawWrites_append, writeCall_rawWrites]

/-- One iteration of the loop of `writeBuffer` on a fault-free bus: no `break`, and the whole
chunk `min (pageSize - nextAddress % pageSize) lenRemaining` is written. -/
theorem writeBody_faultFree {σ : Type} (w : TwoWire σ) (intBits : Nat) (hA : AcceptsEveryByte w)
    (hT : TransactionsSucceed w) (data : Nat → Nat) (st : WriteState σ) :
    (writeBody w intBits data st).2 = false ∧
    (writeBody w intBits data st).1.self.lastError = 0 ∧
    (writeBody w intBits data st).1.self.pageSize = st.self.pageSize ∧
    (writeBody w intBits data st).1.dataToWrite = st.dataToWrite +
      min (st.self.pageSize - st.nextAddress % st.self.pageSize) st.lenRemaining ∧
    (writeBody w intBits data st).1.lenRemaining = st.lenRemaining -
      min (st.self.pageSize - st.nextAddress % st.self.pageSize) st.lenRemaining ∧
    (writeBody w intBits data st).1.nextAddress = (st.nextAddress +
      min (st.self.pageSize - st.nextAddress % st.self.pageSize) st.lenRemaining) % 65536 ∧
    (writeBody w intBits data st).1.totalWritten = toInt intBits (st.totalWritten +
      (min (st.self.pageSize - st.nextAddress % st.self.pageSize) st.lenRemaining : Nat)) ∧
    rawWrites (writeBody w intBits data st).1.events = rawWrites st.events ++
      [(st.nextAddress,
        min (st.self.pageSize - st.nextAddress % st.self.pageSize) st.lenRemaining)] :=
  writeBody_accepts w intBits hA data st
    (rawWriteBuffer_faultFree w hA hT st.self st.nextAddress
      (fun i => data (st.dataToWrite + i))
      (min (st.self.pageSize - st.nextAddress % st.self.pageSize) st.lenRemaining) st.wire).1

/-- The address after the first chunk of a page split is a multiple of the page size, and so
is every address `P * m` further on. -/
theorem aligned_mod (P a m : Nat) (hP : 0 < P) : (a + (P - a % P) + P * m) % P = 0 := by
  have hmod : a % P < P := Nat.mod_lt _ hP
  have hdiv : P * (a / P) + a % P = a := Nat.div_add_mod a P
  have : a + (P - a % P) + P * m = P * (a / P + 1 + m) := by
    rw [Nat.mul_add, Nat.mul_add, Nat.mul_one]
    omega
  rw [this]
  exact Nat.mul_mod_right _ _

theorem ceil_div_eq (P m r : Nat) (h1 : 1 ≤ r) (h2 : r ≤ P) :
    (P * m + r + P - 1) / P = m + 1 := by
  apply Nat.div_eq_of_lt_le
  · rw [Nat.add_mul, Nat.one_mul, Nat.mul_comm m P]
    omega
  · rw [Nat.succ_mul, Nat.add_mul, Nat.one_mul, Nat.mul_comm m P]
    omega

/-- The run of `writeBuffer` on a fault-free bus, for `len ≥ 1` inside the address space. -/
theorem writeLoop_faultFree {σ : Type} (w : TwoWire σ) (intBits : Nat) (hA : AcceptsEveryByte w)
    (hT : TransactionsSucceed w) (self : AT24Cxxx) (a : Nat) (data : Nat → Nat) (len : Nat)
    (s : σ) (hP : 0 < self.pageSize) (hlen : 1 ≤ len) (hfit : a + len ≤ 65536) :
    rawWrites (writeLoop w intBits data len (writeInit self a len s)).events =
        pageSplit self.pageSize a len ∧
      (writeLoop w intBits data len (writeInit self a len s)).totalWritten =
        toInt intBits (len : Int) ∧
      (writeLoop w intBits data len (writeInit self a len s)).self.lastError = 0 ∧
      (writeLoop w intBits data len (writeInit self a len s)).dataToWrite = len := by
  have hmodlt : ∀ x, x % self.pageSize < self.pageSize := fun x => Nat.mod_lt _ hP
  have hexit : ∀ st : WriteState σ, WriteSplitInv intBits self.pageSize a len st →
      (writeBody w intBits data st).2 = false → ¬ 0 < (writeBody w intBits data st).1.lenRemaining →
      rawWrites (writeBody w intBits data st).1.events = pageSplit self.pageSize a len ∧
        (writeBody w intBits data st).1.totalWritten = toInt intBits (len : Int) ∧
        (writeBody w intBits data st).1.self.lastError = 0 ∧
        (writeBody w intBits data st).1.dataToWrite = len := by
    rintro st ⟨hps, hsum, hpos, hna, htot, hnum, hshape⟩ - hrem
    obtain ⟨-, herr, -, hdw0, hlr, -, htw, hrw⟩ := writeBody_faultFree w intBits hA hT data st
    rw [hlr, hps] at hrem
    rw [hps] at htw hrw hdw0
    have hm := hmodlt st.nextAddress
    have hn : min (self.pageSize - st.nextAddress % self.pageSize) st.lenRemaining
        = st.lenRemaining := by omega
    refine ⟨?_, ?_, herr, by rw [hdw0]; omega⟩
    · rw [hrw, hn, pageSplit]
      rcases hshape with ⟨h0, hev⟩ | ⟨m, hd, hn0, hev⟩
      · have hL : st.lenRemaining = len := by omega
        have hnaa : st.nextAddress = a := by omega
        rw [hnaa] at hn
        rw [hev, hL, hnaa]
        rw [hL] at hn
        rw [hn]
        have : (len - len + self.pageSize - 1) / self.pageSize = 0 :=
          Nat.div_eq_of_lt (by omega)
        rw [this]
        rfl
      · have hal := aligned_mod self.pageSize a m hP
        rw [← hn0] at hal
        have hnaa : st.nextAddress =
            a + min (self.pageSize - a % self.pageSize) len + self.pageSize * m := by omega
        rw [hnaa, hal] at hn
        have hcnt : (len - min (self.pageSize - a % self.pageSize) len + self.pageSize - 1)
            / self.pageSize = m + 1 := by
          have : len - min (self.pageSize - a % self.pageSize) len
              = self.pageSize * m + st.lenRemaining := by omega
          rw [this]
          exact ceil_div_eq _ _ _ hpos (by omega)
        rw [hev, hcnt, List.range_succ, List.map_append, hnaa]
        simp only [List.cons_append, List.map_cons, List.map_nil]
        congr 3
        refine Prod.ext rfl ?_
        show st.lenRemaining = _
        simp only [Nat.sub_zero] at hn
        omega
    · have e : st.dataToWrite +
          min (self.pageSize - st.nextAddress % self.pageSize) st.lenRemaining = len := by
        omega
      rw [htw, htot, toInt_count, e]
  refine writeLoop_rule w intBits data len (WriteSplitInv intBits self.pageSize a len)
    (fun fin => rawWrites fin.events = pageSplit self.pageSize a len ∧
      fin.totalWritten = toInt intBits (len : Int) ∧ fin.self.lastError = 0 ∧
      fin.dataToWrite = len)
    ?_ hexit ?_ ?_ (writeInit self a len s)
    ⟨rfl, by simp [writeInit], by simp [writeInit]; omega,
      by simp [writeInit]; omega, by simp [writeInit, toInt_zero], le_refl _,
      Or.inl ⟨rfl, rfl⟩⟩
  · intro st _ hb
    rw [(writeBody_faultFree w intBits hA hT data st).1] at hb
    cases hb
  · rintro st ⟨hps, hsum, hpos, hna, htot, hnum, hshape⟩ _ hrem hcap
    obtain ⟨-, -, -, -, hlr, -, -, -⟩ := writeBody_faultFree w intBits hA hT data st
    rw [hlr, hps] at hrem
    rw [writeBody_numberOfWrites] at hcap
    have hm := hmodlt st.nextAddress
    omega
  · rintro st ⟨hps, hsum, hpos, hna, htot, hnum, hshape⟩ _ hrem hcap
    obtain ⟨-, -, hps2, hdw, hlr, hna2, htw, hrw⟩ := writeBody_faultFree w intBits hA hT data st
    rw [hlr, hps] at hrem
    rw [hps] at hdw hlr hna2 htw hrw
    have hm := hmodlt st.nextAddress
    have hn : min (self.pageSize - st.nextAddress % self.pageSize) st.lenRemaining
        = self.pageSize - st.nextAddress % self.pageSize := by omega
    rw [hn] at hdw hlr hna2 htw hrw
    refine ⟨by rw [hps2, hps], ?_, ?_, ?_, ?_, ?_, ?_⟩
    · show (writeBody w intBits data st).1.dataToWrite + (writeBody w intBits data st).1.lenRemaining = len
      rw [hdw, hlr]
      omega
    · show 0 < (writeBody w intBits data st).1.lenRemaining
      rw [hlr]
      omega
    · show (writeBody w intBits data st).1.nextAddress = a + (writeBody w intBits data st).1.dataToWrite
      rw [hna2, hdw]
      omega
    · show (writeBody w intBits data st).1.totalWritten =
        toInt intBits ((writeBody w intBits data st).1.dataToWrite : Int)
      rw [htw, hdw, htot, toInt_count]
    · show (writeBody w intBits data st).1.numberOfWrites + 1 ≤
        (writeBody w intBits data st).1.dataToWrite
      rw [writeBody_numberOfWrites, hdw]
      omega
    · right
      show ∃ m, (writeBody w intBits data st).1.dataToWrite = _ ∧ _ ∧
        rawWrites (writeBody w intBits data st).1.events = _
      rcases hshape with ⟨h0, hev⟩ | ⟨m, hd, hn0, hev⟩
      · have hnaa : st.nextAddress = a := by omega
        have hL : st.lenRemaining = len := by omega
        rw [hnaa] at hrem
        have hmin0 : min (self.pageSize - a % self.pageSize) len
            = self.pageSize - a % self.pageSize := by omega
        refine ⟨0, ?_, hmin0, ?_⟩
        · rw [hdw, hnaa, h0, hmin0]
          omega
        · rw [hrw, hev, hnaa, hmin0]
          rfl
      · have hal := aligned_mod self.pageSize a m hP
        rw [← hn0] at hal
        have hnaa : st.nextAddress =
            a + min (self.pageSize - a % self.pageSize) len + self.pageSize * m := by omega
        refine ⟨m + 1, ?_, hn0, ?_⟩
        · rw [hdw, hnaa, hal, hd, Nat.mul_add, Nat.mul_one, Nat.sub_zero]
          omega
        · rw [hrw, hev, List.range_succ, List.map_append, hnaa, hal]
          simp only [List.cons_append, List.map_cons, List.map_nil]
          congr 3
          refine Prod.ext rfl ?_
          show self.pageSize - 0 = _
          rw [hnaa, hal] at hrem
          simp only [Nat.sub_zero] at hrem ⊢
          omega

theorem pageSplit_tail_aligned (P a L : Nat) (hP : 0 < P) :
    ∀ p ∈ (pageSplit P a L).tail, p.1 % P = 0 := by
  intro p hp
  simp only [pageSplit, List.tail_cons] at hp
  obtain ⟨j, hj, rfl⟩ := List.mem_map.1 hp
  have hj2 := List.mem_range.1 hj
  have hn0 : min (P - a % P) L = P - a % P := by
    by_contra hne
    have h0 : L - min (P - a % P) L = 0 := by omega
    rw [h0, Nat.zero_add, Nat.div_eq_of_lt (by omega)] at hj2
    omega
  show (a + min (P - a % P) L + P * j) % P = 0
  rw [hn0]
  exact aligned_mod P a j hP

theorem pageSplit_one_page (P a : Nat) (hP : 0 < P) (ha : a % P = 0) :
    pageSplit P a P = [(a, P)] := by
  have hmin : min (P - a % P) P = P := by
    rw [ha]
    omega
  have hc : (P - P + P - 1) / P = 0 := Nat.div_eq_of_lt (by omega)
  rw [pageSplit, hmin, hc]
  rfl

theorem pageSplit_one_page_and_one (P a : Nat) (hP : 0 < P) (ha : a % P = 0) :
    pageSplit P a (P + 1) = [(a, P), (a + P, 1)] := by
  have hmin : min (P - a % P) (P + 1) = P := by
    rw [ha]
    omega
  have hc : (P + 1 - P + P - 1) / P = 1 := by
    have : P + 1 - P + P - 1 = P := by omega
    rw [this]
    exact Nat.div_self hP
  have h1 : min P (P + 1 - P - 0) = 1 := by omega
  rw [pageSplit, hmin, hc]
  simp only [List.range_succ, List.range_zero, List.nil_append, List.map_cons, List.map_nil,
    Nat.mul_zero, Nat.add_zero, h1]

/-- C7 (as amended). On a fault-free bus (every byte accepted, every transaction succeeds),
for every page size `P > 0`, start address `a` and length `len ≥ 1` with `a + len ≤ 2^16`, the
raw writes issued by `writeBuffer` are exactly the page split of `[a, a + len)`: the first is
at `a` with length `min (P - a mod P) len`, every later one starts on a page boundary and has
length `min P remaining`; the call returns `len` converted to `int`, which is exactly `len`
whenever `len ≤ INT_MAX`.  In particular `len = P` at a page boundary gives one raw write of
`P` bytes, `len = P + 1` gives two raw writes (`P`, then 1), and `P = 16`, `a = 10`, `len = 20`
gives raw writes `(10, 6)` and `(16, 14)` with, `int` having at least 16 bits as C++ requires,
return value 20. -/
theorem writeBuffer_faultFree_pageSplit {σ : Type} (w : TwoWire σ) (intBits : Nat)
    (hA : AcceptsEveryByte w) (hT : TransactionsSucceed w) (self : AT24Cxxx) (a : Nat)
    (data : Nat → Nat) (len : Nat) (s : σ) (hP : 0 < self.pageSize)
    (hlen : 1 ≤ len) (hfit : a + len ≤ 65536) :
    rawWrites (writeBuffer w intBits self a data len s).events = pageSplit self.pageSize a len ∧
    (∃ rest, rawWrites (writeBuffer w intBits self a data len s).events =
        (a, min (self.pageSize - a % self.pageSize) len) :: rest ∧
      ∀ p ∈ rest, p.1 % self.pageSize = 0) ∧
    (writeBuffer w intBits self a data len s).ret = toInt intBits (len : Int) ∧
    ((len : Int) < intLimit intBits →
      (writeBuffer w intBits self a data len s).ret = (len : Int)) ∧
    getLastError (writeBuffer w intBits self a data len s).self = ERR_OK ∧
    (a % self.pageSize = 0 → len = self.pageSize →
      rawWrites (writeBuffer w intBits self a data len s).events = [(a, self.pageSize)]) ∧
    (a % self.pageSize = 0 → len = self.pageSize + 1 →
      rawWrites (writeBuffer w intBits self a data len s).events =
        [(a, self.pageSize), (a + self.pageSize, 1)]) ∧
    (self.pageSize = 16 → a = 10 → len = 20 →
      rawWrites (writeBuffer w intBits self a data len s).events = [(10, 6), (16, 14)] ∧
      (16 ≤ intBits → (writeBuffer w intBits self a data len s).ret = 20)) := by
  obtain ⟨hrw, hret, herr, -⟩ :=
    writeLoop_faultFree w intBits hA hT self a data len s hP hlen hfit
  have hrw2 : rawWrites (writeBuffer w intBits self a data len s).events
      = pageSplit self.pageSize a len := hrw
  have hret2 : (writeBuffer w intBits self a data len s).ret = toInt intBits (len : Int) := hret
  have hpos := intLimit_pos intBits
  have hfits : (len : Int) < intLimit intBits →
      (writeBuffer w intBits self a data len s).ret = (len : Int) := fun hlt => by
    rw [hret2]
    exact toInt_of_fits _ _ (by omega) hlt
  refine ⟨hrw2, ⟨_, hrw2, pageSplit_tail_aligned _ _ _ hP⟩, hret2, hfits, herr, ?_, ?_, ?_⟩
  · intro ha hl
    rw [hrw2, hl]
    exact pageSplit_one_page _ _ hP ha
  · intro ha hl
    rw [hrw2, hl]
    exact pageSplit_one_page_and_one _ _ hP ha
  · intro h16 ha hl
    subst ha
    subst hl
    rw [hrw2, h16]
    refine ⟨by decide, fun hint => ?_⟩
    have hlim := intLimit_ge intBits hint
    rw [hfits (by omega)]
    rfl

/-- C7 as amended, on the memory device with page size 16 and a 16-bit `int`: writing 20
bytes at address 10. -/
theorem writeBuffer_faultFree_pageSplit_witness :
    (AcceptsEveryByte memWire ∧ TransactionsSucceed memWire ∧
      0 < (AT24Cxxx.new 80 10 256 16).pageSize ∧ 1 ≤ 20 ∧ 10 + 20 ≤ 65536) ∧
    rawWrites (writeBuffer memWire 16 (AT24Cxxx.new 80 10 256 16) 10 (fun i => i) 20
      (MemState.blank 255)).events = [(10, 6), (16, 14)] ∧
    (writeBuffer memWire 16 (AT24Cxxx.new 80 10 256 16) 10 (fun i => i) 20
      (MemState.blank 255)).ret = 20 := by
  have key := (writeBuffer_faultFree_pageSplit memWire 16 memWire_acceptsEveryByte
    memWire_transactionsSucceed (AT24Cxxx.new 80 10 256 16) 10 (fun i => i) 20
    (MemState.blank 255) (by decide) (by decide) (by decide)).2.2.2.2.2.2.2 rfl rfl rfl
  exact ⟨⟨memWire_acceptsEveryByte, memWire_transactionsSucceed, by decide, by decide,
    by decide⟩, key.1, key.2 (le_refl _)⟩

/-- C7 as stated fails where the `int` return value cannot hold `len`: with a 16-bit `int`
(AVR) and page size 16, writing 32768 bytes at address 0 of the memory device (inside the
16-bit address space) returns -32768, not 32768. -/
theorem writeBuffer_faultFree_return_wraps :
    (AcceptsEveryByte memWire ∧ TransactionsSucceed memWire ∧
      0 < (AT24Cxxx.new 80 10 256 16).pageSize ∧ 1 ≤ 32768 ∧ 0 + 32768 ≤ 65536) ∧
    (writeBuffer memWire 16 (AT24Cxxx.new 80 10 256 16) 0 (fun i => i) 32768
      (MemState.blank 255)).ret = -32768 ∧
    (writeBuffer memWire 16 (AT24Cxxx.new 80 10 256 16) 0 (fun i => i) 32768
      (MemState.blank 255)).ret ≠ ((32768 : Nat) : Int) := by
  obtain ⟨-, hret, -, -⟩ := writeLoop_faultFree memWire 16 memWire_acceptsEveryByte
    memWire_transactionsSucceed (AT24Cxxx.new 80 10 256 16) 0 (fun i => i) 32768
    (MemState.blank 255) (by decide) (by decide) (by decide)
  have hv : toInt 16 ((32768 : Nat) : Int) = -32768 := by decide
  have hret2 : (writeBuffer memWire 16 (AT24Cxxx.new 80 10 256 16) 0 (fun i => i) 32768
      (MemState.blank 255)).ret = -32768 := by
    rw [writeBuffer_ret, hret, hv]
  refine ⟨⟨memWire_acceptsEveryByte, memWire_transactionsSucceed, by decide, by decide,
    by decide⟩, hret2, ?_⟩
  rw [hret2]
  decide

/-! ## C4: `update` writes only when the stored byte differs -/

theorem readBody_rawWrites {σ : Type} (w : TwoWire σ) (intBits sizeBits : Nat) (st : ReadState σ) :
    rawWrites (readBody w intBits sizeBits st).1.events = rawWrites st.events := by
  obtain ⟨r1, r2, h⟩ := writeAddress_events w st.self st.nextAddress st.wire
  obtain ⟨xs, hxs, hev⟩ := readCopy_events w st
  rw [readBody_eq]
  split
  · simp only [h, rawWrites_append]
    simp [rawWrites]
  · simp only [hev, rawWrites_append, allCopy_rawWrites hxs, readHead_rawWrites]
    simp

/-- A copy loop that leaves `i` where it started has stored nothing. -/
theorem copyLoop_buf_of_i_eq {σ : Type} (w : TwoWire σ) (base k i : Nat) (s : σ)
    (buf : Nat → Nat) (ev : List Event) (h : (copyLoop w base k i s buf ev).i = i) :
    (copyLoop w base k i s buf ev).buf = buf := by
  cases k with
  | zero => rfl
  | succ k =>
    rw [copyLoop_succ] at h ⊢
    split at h
    · obtain ⟨xs, -, -, h1, -⟩ := copyLoop_spec w base k (i + 1) (w.read (w.available s).1).1
        (Function.update buf (base + i) ((w.read (w.available s).1).2 % 256).toNat)
        (ev ++ [Event.available (w.available s).2, Event.read (w.read (w.available s).1).2])
      omega
    · rename_i hc
      rw [if_neg hc]

/-- A copy loop that ends with `i = 1` has stored exactly the first byte read from the bus. -/
theorem copyLoop_one {σ : Type} (w : TwoWire σ) (base k : Nat) (s : σ) (buf : Nat → Nat)
    (ev : List Event) (h : (copyLoop w base k 0 s buf ev).i = 1) :
    ∃ b, Event.read b ∈ (copyLoop w base k 0 s buf ev).events ∧
      (copyLoop w base k 0 s buf ev).buf base = (b % 256).toNat := by
  cases k with
  | zero => cases h
  | succ k =>
    rw [copyLoop_succ] at h ⊢
    split at h
    · rename_i hc
      rw [if_pos hc]
      obtain ⟨xs, -, hev, -, -⟩ := copyLoop_spec w base k (0 + 1) (w.read (w.available s).1).1
        (Function.update buf (base + 0) ((w.read (w.available s).1).2 % 256).toNat)
        (ev ++ [Event.available (w.available s).2, Event.read (w.read (w.available s).1).2])
      refine ⟨(w.read (w.available s).1).2, ?_, ?_⟩
      · rw [hev]
        simp
      · rw [copyLoop_buf_of_i_eq w base k (0 + 1) _ _ _ h]
        simp
    · cases h

/-- The copy loop stores at the indices `base + i ..` only. -/
theorem copyLoop_keep {σ : Type} (w : TwoWire σ) (base k i : Nat) (s : σ) (buf : Nat → Nat)
    (ev : List Event) (x : Nat) (hx : x < base + i) :
    (copyLoop w base k i s buf ev).buf x = buf x := by
  induction k generalizing i s buf ev with
  | zero => rfl
  | succ k ih =>
    rw [copyLoop_succ]
    split
    · rw [ih (i + 1) _ _ _ (by omega), Function.update_noteq (by omega)]
    · rfl

/-- A copy loop that copies at least one byte leaves the first byte read from the bus at the
first index. -/
theorem copyLoop_first {σ : Type} (w : TwoWire σ) (base k : Nat) (s : σ) (buf : Nat → Nat)
    (ev : List Event) (h : 1 ≤ (copyLoop w base k 0 s buf ev).i) :
    ∃ b, Event.read b ∈ (copyLoop w base k 0 s buf ev).events ∧
      (copyLoop w base k 0 s buf ev).buf base = (b % 256).toNat := by
  cases k with
  | zero => simp [copyLoop] at h
  | succ k =>
    rw [copyLoop_succ] at h ⊢
    split at h
    · rename_i hc
      rw [if_pos hc]
      obtain ⟨xs, -, hev, -, -⟩ := copyLoop_spec w base k (0 + 1) (w.read (w.available s).1).1
        (Function.update buf (base + 0) ((w.read (w.available s).1).2 % 256).toNat)
        (ev ++ [Event.available (w.available s).2, Event.read (w.read (w.available s).1).2])
      refine ⟨(w.read (w.available s).1).2, ?_, ?_⟩
      · rw [hev]
        simp
      · rw [copyLoop_keep w base k (0 + 1) _ _ _ base (by omega)]
        simp
    · simp at h

/-- With `len = 1` and a positive page size `writeBuffer` issues exactly one raw write, of one
byte. -/
theorem writeBuffer_one_rawWrite {σ : Type} (w : TwoWire σ) (intBits : Nat) (self : AT24Cxxx)
    (address : Nat) (data : Nat → Nat) (s : σ) (hP : 0 < self.pageSize) :
    rawWrites (writeBuffer w intBits self address data 1 s).events = [(address % 65536, 1)] := by
  have hmin : min (self.pageSize - address % 65536 % self.pageSize) 1 = 1 := by
    have := Nat.mod_lt (address % 65536) hP
    omega
  rw [writeBuffer_eq]
  refine writeLoop_rule w intBits data 1
    (fun st => st = writeInit self address 1 s)
    (fun st => rawWrites st.events = [(address % 65536, 1)]) ?_ ?_ ?_ ?_
    (writeInit self address 1 s) rfl
  · intro st hst _
    subst hst
    rw [writeBody_events, rawWrites_append, writeCall_rawWrites]
    simp [writeInit, hmin]
  · intro st hst _ _
    subst hst
    rw [writeBody_events, rawWrites_append, writeCall_rawWrites]
    simp [writeInit, hmin]
  · intro st hst _ _ _
    subst hst
    show rawWrites (writeBody w intBits data _).1.events = _
    rw [writeBody_events, rawWrites_append, writeCall_rawWrites]
    simp [writeInit, hmin]
  · intro st hst _ _ h
    omega

/-- With `len = 1` the loop of `readBuffer` runs its body exactly once. -/
theorem readLoop_one {σ : Type} (w : TwoWire σ) (intBits sizeBits fuel : Nat) (st : ReadState σ)
    (hn : st.numberOfReads = 0) :
    ∃ n, readLoop w intBits sizeBits 1 (fuel + 1) st =
      some { (readBody w intBits sizeBits st).1 with numberOfReads := n } := by
  rw [readLoop_succ]
  split_ifs with h1 h2 h3
  · exact ⟨_, rfl⟩
  · rw [readBody_numberOfReads, hn] at h3
    omega
  · exact ⟨_, rfl⟩
  · exact ⟨_, rfl⟩

/-- C4. For every bus behaviour, every device with a positive page size, index `idx` and
value `val`: `update(idx, val)` returns, and when its read of `idx` succeeds (`readBuffer`
returned 1 with `ERR_OK`) the byte compared is the byte the bus delivered; `update` then issues
zero raw writes if that stored byte equals `val` and exactly one raw write, of one byte at
`idx` (as a 16-bit address), if it differs. -/
theorem update_rawWrite_count {σ : Type} (w : TwoWire σ) (intBits sizeBits fuel : Nat)
    (self : AT24Cxxx) (idx : Int) (val result0 : Nat) (s : σ) (hP : 0 < self.pageSize)
    (hfuel : 1 ≤ fuel) :
    ∃ rd u, read w intBits sizeBits fuel self idx result0 s = some rd ∧
      update w intBits sizeBits fuel self idx val result0 s = some u ∧
      (rd.count = 1 → getLastError rd.self = ERR_OK →
        (∃ b, Event.read b ∈ rd.events ∧ rd.value = (b % 256).toNat) ∧
        (rd.value = val → rawWrites u.events = []) ∧
        (rd.value ≠ val → rawWrites u.events = [((idx % 65536).toNat, 1)] ∧
          (rawWrites u.events).length = 1)) := by
  obtain ⟨fuel, rfl⟩ : ∃ f, fuel = f + 1 := ⟨fuel - 1, by omega⟩
  have hps : (readBody w intBits sizeBits
      (readInit self (idx % 65536).toNat (fun _ => result0) 1 s)).1.self.pageSize =
      self.pageSize := by
    rw [readBody_lastError]
    rfl
  obtain ⟨n, hloop⟩ := readLoop_one w intBits sizeBits fuel
    (readInit self (idx % 65536).toNat (fun _ => result0) 1 s) rfl
  have hrw : rawWrites (readBody w intBits sizeBits
      (readInit self (idx % 65536).toNat (fun _ => result0) 1 s)).1.events = [] := by
    rw [readBody_rawWrites]
    rfl
  have hsucc : (readBody w intBits sizeBits
        (readInit self (idx % 65536).toNat (fun _ => result0) 1 s)).1.totalread = 1 →
      (readBody w intBits sizeBits
        (readInit self (idx % 65536).toNat (fun _ => result0) 1 s)).1.self.lastError = 0 →
      ∃ b, Event.read b ∈ (readBody w intBits sizeBits
          (readInit self (idx % 65536).toNat (fun _ => result0) 1 s)).1.events ∧
        (readBody w intBits sizeBits
          (readInit self (idx % 65536).toNat (fun _ => result0) 1 s)).1.buf 0
          = (b % 256).toNat := by
    intro hcount herr
    rw [readBody_eq] at hcount herr ⊢
    split at hcount
    · rename_i hc
      rw [if_pos hc] at herr
      exact absurd herr hc
    · rename_i hc
      rw [if_neg hc]
      have hi : 1 ≤ (readCopy w (readInit self (idx % 65536).toNat (fun _ => result0) 1 s)).i
          := by
        by_contra hne
        have h0 : (readCopy w
            (readInit self (idx % 65536).toNat (fun _ => result0) 1 s)).i = 0 := by omega
        simp only [h0] at hcount
        have hz : toInt intBits ((readInit self (idx % 65536).toNat (fun _ => result0) 1
            s).totalread + ((0 : Nat) : Int)) = 0 := by
          simp [readInit, toInt_zero]
        rw [hz] at hcount
        exact absurd hcount (by decide)
      exact copyLoop_first w 0 _ _ _ _ hi
  have hread : read w intBits sizeBits (fuel + 1) self idx result0 s = some
      ⟨(readBody w intBits sizeBits (readInit self (idx % 65536).toNat (fun _ => result0) 1 s)).1.buf 0,
        (readBody w intBits sizeBits (readInit self (idx % 65536).toNat (fun _ => result0) 1 s)).1.self,
        (readBody w intBits sizeBits (readInit self (idx % 65536).toNat (fun _ => result0) 1 s)).1.wire,
        (readBody w intBits sizeBits (readInit self (idx % 65536).toNat (fun _ => result0) 1 s)).1.events,
        (readBody w intBits sizeBits
          (readInit self (idx % 65536).toNat (fun _ => result0) 1 s)).1.totalread⟩ := by
    rw [read, readBuffer_eq _ intBits _ _ _ _ _ _ _ (by decide), hloop]
    rfl
  generalize (readBody w intBits sizeBits
    (readInit self (idx % 65536).toNat (fun _ => result0) 1 s)).1 = B at hrw hsucc hread hps
  by_cases hv : val ≠ B.buf 0
  · refine ⟨_, ⟨(write w intBits B.self idx val B.wire).self, (write w intBits B.self idx val B.wire).wire,
      B.events ++ (write w intBits B.self idx val B.wire).events⟩, hread, ?_, ?_⟩
    · rw [update, hread]
      simp only [if_pos hv]
    · intro hcount herr
      have hone := writeBuffer_one_rawWrite w intBits B.self (idx % 65536).toNat
        (fun _ => val) B.wire (by rw [hps]; exact hP)
      have hmod : (idx % 65536).toNat % 65536 = (idx % 65536).toNat := by omega
      rw [hmod] at hone
      refine ⟨hsucc hcount herr, fun h => absurd h.symm hv, fun _ => ⟨?_, ?_⟩⟩ <;>
        simp [rawWrites_append, hrw, write, hone]
  · refine ⟨_, ⟨B.self, B.wire, B.events⟩, hread, ?_, ?_⟩
    · rw [update, hread]
      simp only [if_neg hv]
    · intro hcount herr
      exact ⟨hsucc hcount herr, fun _ => hrw, fun h => absurd (fun e => h e.symm) hv⟩

/-- C4 on the memory device, every cell holding 255: `update(3, 254)` reads 255 and issues
one raw write; the hypothesis on the fuel is met with one unit. -/
theorem update_rawWrite_count_witness :
    (0 < (AT24Cxxx.new 80 10 256 16).pageSize ∧ 1 ≤ 1 ∧
      (read memWire 16 16 1 (AT24Cxxx.new 80 10 256 16) 3 0 (MemState.blank 255)).map
        (fun rd => (rd.count, getLastError rd.self, rd.value)) = some (1, ERR_OK, 255)) ∧
    ∃ rd u, read memWire 16 16 1 (AT24Cxxx.new 80 10 256 16) 3 0 (MemState.blank 255) = some rd ∧
      update memWire 16 16 1 (AT24Cxxx.new 80 10 256 16) 3 254 0 (MemState.blank 255) = some u ∧
      (rd.count = 1 → getLastError rd.self = ERR_OK →
        (∃ b, Event.read b ∈ rd.events ∧ rd.value = (b % 256).toNat) ∧
        (rd.value = 254 → rawWrites u.events = []) ∧
        (rd.value ≠ 254 → rawWrites u.events = [(((3 : Int) % 65536).toNat, 1)] ∧
          (rawWrites u.events).length = 1)) :=
  ⟨⟨by decide, le_refl _, by decide⟩, update_rawWrite_count memWire 16 16 1
    (AT24Cxxx.new 80 10 256 16) 3 254 0 (MemState.blank 255) (by decide) (le_refl _)⟩

/-! ## C3: write then read on the memory device -/

theorem storeBytes_apply (bytes : List Nat) (mem : Nat → Nat) (p x : Nat)
    (hfit : p + bytes.length ≤ 65536) :
    storeBytes mem p bytes x =
      if p ≤ x ∧ x < p + bytes.length then bytes.getD (x - p) 0 % 256 else mem x := by
  induction bytes generalizing mem p with
  | nil =>
    have : ¬ (p ≤ x ∧ x < p + ([] : List Nat).length) := by
      simp only [List.length_nil]
      omega
    rw [if_neg this]
    rfl
  | cons b t ih =>
    have hlen : (b :: t).length = t.length + 1 := rfl
    rw [hlen] at hfit
    have hp : p % 65536 = p := Nat.mod_eq_of_lt (by omega)
    show storeBytes (Function.update mem (p % 65536) (b % 256)) (p + 1) t x = _
    rw [ih _ _ (by omega), hp, hlen]
    by_cases hx : x = p
    · subst hx
      rw [if_neg (by omega), if_pos (by omega)]
      simp
    · by_cases hin : p + 1 ≤ x ∧ x < p + 1 + t.length
      · rw [if_pos hin, if_pos (by omega)]
        have : x - p = (x - (p + 1)) + 1 := by omega
        rw [this]
        rfl
      · rw [if_neg hin, if_neg (by omega), Function.update_noteq hx]

theorem queueLoop_memWire (d : Nat → Nat) (k written : Nat) (s : MemState)
    (ev : List Event) :
    (queueLoop memWire d k written s ev).1 =
      { s with tx := s.tx ++ (List.range k).map (fun j => d (written + j)) } := by
  induction k generalizing written s ev with
  | zero => simp [queueLoop]
  | succ k ih =>
    have e : queueLoop memWire d (k + 1) written s ev =
        queueLoop memWire d k (written + 1) (memWire.write s (d written)).1
          (ev ++ [Event.write (d written) (memWire.write s (d written)).2]) := by
      simp only [queueLoop]
      rw [if_neg (not_not.2 (memWire_acceptsEveryByte _ _))]
    rw [e, ih, List.range_succ_eq_map]
    simp only [memWire, List.map_cons, List.map_map, Nat.add_zero, List.append_assoc,
      List.singleton_append]
    congr 3
    apply List.map_congr_left
    intro j _
    show d (written + 1 + j) = d (written + (j + 1))
    congr 1
    omega

/-- One raw write on the memory device stores the `len` data bytes at `address ..`. -/
theorem rawWriteBuffer_memWire (self : AT24Cxxx) (address : Nat) (d : Nat → Nat) (len : Nat)
    (s : MemState) (ha : address < 65536) :
    (rawWriteBuffer memWire self address d len s).wire.mem =
      storeBytes s.mem address ((List.range len).map d) := by
  have hq := queueLoop_memWire d len 0
    (writeAddress memWire { self with lastError := ERR_OK } address s).1
    (Event.callRawWriteBuffer address len ::
      (writeAddress memWire { self with lastError := ERR_OK } address s).2)
  have haddr : address / 256 % 256 * 256 + address % 256 = address := by omega
  simp only [rawWriteBuffer, hq]
  simp only [writeAddress, memWire, MemState.commit, List.nil_append, List.cons_append,
    Nat.zero_add, haddr]

/-- One iteration of the write loop on the memory device with the cursor invariant. -/
theorem writeBody_memWire (intBits : Nat) (a : Nat) (data : Nat → Nat) (len : Nat)
    (st : WriteState MemState) (hfit : a + len ≤ 65536)
    (hsum : st.dataToWrite + st.lenRemaining = len)
    (hna : st.nextAddress = (a + st.dataToWrite) % 65536)
    (hmem : ∀ i < st.dataToWrite, st.wire.mem (a + i) = data i % 256) :
    ∀ i < (writeBody memWire intBits data st).1.dataToWrite,
      (writeBody memWire intBits data st).1.wire.mem (a + i) = data i % 256 := by
  obtain ⟨-, -, -, hdw, -, -, -, -⟩ :=
    writeBody_faultFree memWire intBits memWire_acceptsEveryByte memWire_transactionsSucceed data st
  have hok : (writeCall memWire data st).self.lastError = 0 :=
    (rawWriteBuffer_faultFree memWire memWire_acceptsEveryByte memWire_transactionsSucceed
      _ _ _ _ _).1
  have hwire : (writeBody memWire intBits data st).1.wire = (writeCall memWire data st).wire := by
    rw [writeBody_of_ok memWire intBits data st hok]
  have hlt : st.nextAddress < 65536 := by
    rw [hna]
    exact Nat.mod_lt _ (by decide)
  intro i hi
  rw [hdw] at hi
  rw [hwire, writeCall, rawWriteBuffer_memWire _ _ _ _ _ hlt]
  by_cases hrem : st.lenRemaining = 0
  · have hn : min (st.self.pageSize - st.nextAddress % st.self.pageSize) st.lenRemaining
        = 0 := by omega
    rw [hn] at hi ⊢
    exact hmem i (by omega)
  · have hna2 : st.nextAddress = a + st.dataToWrite := by
      rw [hna]
      exact Nat.mod_eq_of_lt (by omega)
    have hle : min (st.self.pageSize - st.nextAddress % st.self.pageSize) st.lenRemaining
        ≤ st.lenRemaining := Nat.min_le_right _ _
    rw [storeBytes_apply _ _ _ _ (by simp only [List.length_map, List.length_range]; omega)]
    simp only [List.length_map, List.length_range]
    by_cases hold : i < st.dataToWrite
    · rw [if_neg (by omega)]
      exact hmem i hold
    · rw [if_pos (by omega)]
      have hidx : a + i - st.nextAddress = i - st.dataToWrite := by omega
      rw [hidx, List.getD_eq_getElem?_getD, List.getElem?_map,
        List.getElem?_range (by omega)]
      simp only [Option.map_some', Option.getD_some]
      congr 2
      omega

/-- After `writeBuffer` on the memory device the cells `a .. a + len - 1` hold the data. -/
theorem writeBuffer_memWire (intBits : Nat) (self : AT24Cxxx) (a : Nat) (data : Nat → Nat)
    (len : Nat)
    (s : MemState) (hP : 0 < self.pageSize) (hlen : 1 ≤ len) (hfit : a + len ≤ 65536) :
    ∀ i < len, (writeBuffer memWire intBits self a data len s).wire.mem (a + i) = data i % 256 := by
  obtain ⟨-, -, -, hdone⟩ := writeLoop_faultFree memWire intBits memWire_acceptsEveryByte
    memWire_transactionsSucceed self a data len s hP hlen hfit
  have key := writeLoop_invariant memWire intBits data len
    (fun st => st.dataToWrite + st.lenRemaining = len ∧
      st.nextAddress = (a + st.dataToWrite) % 65536 ∧
      st.totalWritten = toInt intBits (st.dataToWrite : Int) ∧
      ∀ i < st.dataToWrite, st.wire.mem (a + i) = data i % 256)
    (by
      rintro st ⟨hsum, hna, htw, hmem⟩
      obtain ⟨-, -, -, hdw, hlr, hna2, htw2, -⟩ := writeBody_faultFree memWire intBits
        memWire_acceptsEveryByte memWire_transactionsSucceed data st
      have hle : min (st.self.pageSize - st.nextAddress % st.self.pageSize) st.lenRemaining
          ≤ st.lenRemaining := Nat.min_le_right _ _
      refine ⟨?_, ?_, ?_, writeBody_memWire intBits a data len st hfit hsum hna hmem⟩
      · rw [hdw, hlr]
        omega
      · rw [hna2, hdw, hna]
        omega
      · rw [htw2, hdw, htw, toInt_count])
    (fun st n hst => hst)
    (writeInit self a len s)
    ⟨by simp [writeInit], by simp [writeInit], by simp [writeInit, toInt_zero],
      fun i hi => by simp [writeInit] at hi⟩
  obtain ⟨-, -, htw, hmem⟩ := key
  intro i hi
  rw [writeBuffer_eq]
  exact hmem i (by omega)

theorem copyLoop_memWire (base : Nat) (rx : List Nat) (i : Nat) (s : MemState)
    (buf : Nat → Nat) (ev : List Event) (hrx : s.rx = rx) :
    (copyLoop memWire base rx.length i s buf ev).wire.mem = s.mem ∧
    ∀ x, (copyLoop memWire base rx.length i s buf ev).buf x =
      if base + i ≤ x ∧ x < base + i + rx.length then rx.getD (x - (base + i)) 0 % 256
      else buf x := by
  induction rx generalizing i s buf ev with
  | nil =>
    refine ⟨rfl, fun x => ?_⟩
    have : ¬ (base + i ≤ x ∧ x < base + i + ([] : List Nat).length) := by
      simp only [List.length_nil]
      omega
    rw [if_neg this]
    rfl
  | cons b t ih =>
    have hlen : (b :: t).length = t.length + 1 := rfl
    have hav : (memWire.available s).2 ≠ 0 := by
      show ((s.rx.length : Int)) ≠ 0
      rw [hrx, hlen]
      omega
    have hread : memWire.read (memWire.available s).1 = ({ s with rx := t }, (b : Int)) := by
      show memWire.read s = _
      simp only [memWire, hrx]
    rw [hlen, copyLoop_succ, if_pos hav, hread]
    obtain ⟨h1, h2⟩ := ih (i + 1) { s with rx := t }
      (Function.update buf (base + i) ((b : Int) % 256).toNat)
      (ev ++ [Event.available (memWire.available s).2, Event.read (b : Int)]) rfl
    refine ⟨h1, fun x => ?_⟩
    rw [h2 x]
    have hb : ((b : Int) % 256).toNat = b % 256 := by omega
    by_cases hx : x = base + i
    · subst hx
      rw [if_neg (by omega), if_pos (by omega), Function.update_same, hb]
      simp
    · by_cases hin : base + (i + 1) ≤ x ∧ x < base + (i + 1) + t.length
      · rw [if_pos hin, if_pos (by omega)]
        have : x - (base + i) = (x - (base + (i + 1))) + 1 := by omega
        rw [this]
        rfl
      · rw [if_neg hin, if_neg (by omega), Function.update_noteq hx]

/-- One iteration of the read loop on the memory device: the memory is left alone and the
destination receives the cells the cursor points at. -/
theorem readBody_memWire (intBits sizeBits : Nat) (st : ReadState MemState)
    (hna : st.nextAddress < 65536) :
    (readBody memWire intBits sizeBits st).1.wire.mem = st.wire.mem ∧
    ∀ x, (readBody memWire intBits sizeBits st).1.buf x =
      if st.dataPointer ≤ x ∧ x < st.dataPointer + min st.lenRemaining 255 then
        st.wire.mem ((st.nextAddress + (x - st.dataPointer)) % 65536) % 256
      else st.buf x := by
  have haddr : st.nextAddress / 256 % 256 * 256 + st.nextAddress % 256 = st.nextAddress := by
    omega
  have hend : (readEnd memWire st).1 =
      { mem := st.wire.mem, pointer := st.nextAddress % 65536, tx := [], rx := st.wire.rx } := by
    simp only [readEnd, writeAddress, memWire, MemState.commit, List.nil_append,
      List.cons_append, storeBytes, haddr, List.length_nil, Nat.add_zero]
  have hreq : (readRequest memWire st).1 =
      { mem := st.wire.mem
        pointer := (st.nextAddress % 65536 + min st.lenRemaining 255) % 65536
        tx := []
        rx := (List.range (min st.lenRemaining 255)).map
          (fun i => st.wire.mem ((st.nextAddress % 65536 + i) % 65536)) } := by
    rw [readRequest, hend]
    rfl
  have hreq2 : (readRequest memWire st).2 =
      ((List.range (min st.lenRemaining 255)).map
        (fun i => st.wire.mem ((st.nextAddress % 65536 + i) % 65536))).length := by
    rw [List.length_map, List.length_range]
    rfl
  have hb : ¬ ((readEnd memWire st).2 % 256 ≠ ERR_OK) := by
    have : (readEnd memWire st).2 = 0 := memWire_transactionsSucceed _
    simp [this, ERR_OK]
  obtain ⟨h1, h2⟩ := copyLoop_memWire st.dataPointer
    ((List.range (min st.lenRemaining 255)).map
      (fun i => st.wire.mem ((st.nextAddress % 65536 + i) % 65536)))
    0 (readRequest memWire st).1 st.buf (readHead memWire st) (by rw [hreq])
  rw [readBody_eq, if_neg hb]
  simp only [readCopy]
  rw [hreq2]
  refine ⟨by rw [h1, hreq], fun x => ?_⟩
  rw [h2 x]
  simp only [List.length_map, List.length_range, Nat.add_zero]
  by_cases hin : st.dataPointer ≤ x ∧ x < st.dataPointer + min st.lenRemaining 255
  · rw [if_pos hin, if_pos hin, List.getD_eq_getElem?_getD, List.getElem?_map,
      List.getElem?_range (by omega)]
    simp only [Option.map_some', Option.getD_some, Nat.mod_eq_of_lt hna]
  · rw [if_neg hin, if_neg hin]

/-- After `readBuffer` on the memory device the destination holds the cells `a .. a + len - 1`
(addresses modulo `2^16`, cell values modulo 256). -/
theorem readBuffer_memWire (intBits sizeBits fuel : Nat) (self : AT24Cxxx) (a : Nat)
    (buf : Nat → Nat) (len : Nat) (s : MemState) (hlen : 1 ≤ len) (hfuel : len ≤ fuel) :
    ∃ r, readBuffer memWire intBits sizeBits fuel self a buf len s = some r ∧
      r.ret = toInt intBits (len : Int) ∧ getLastError r.self = ERR_OK ∧
      ∀ i < len, r.buf i = s.mem ((a + i) % 65536) % 256 := by
  obtain ⟨r, hr, htot, herr, -, -, -, hdone⟩ := readLoop_faultFree memWire intBits
    (fun s => s.rx.length)
    memWire_transactionsSucceed memWire_deliversAll sizeBits fuel self a buf len s hlen hfuel
  have key := readLoop_partial memWire intBits sizeBits len
    (fun st => st.wire.mem = s.mem ∧ st.nextAddress = (a + st.dataPointer) % 65536 ∧
      st.totalread = toInt intBits (st.dataPointer : Int) ∧
      ∀ i < st.dataPointer, st.buf i = s.mem ((a + i) % 65536) % 256)
    (fun st => st.totalread = toInt intBits (st.dataPointer : Int) ∧
      ∀ i < st.dataPointer, st.buf i = s.mem ((a + i) % 65536) % 256)
    (by
      intro st _ hb
      rw [(readBody_faultFree memWire intBits _ memWire_transactionsSucceed memWire_deliversAll
        sizeBits st).1] at hb
      cases hb)
    ?_ ?_ ?_ fuel (readInit self a buf len s) r
    ⟨rfl, by simp [readInit], by simp [readInit, toInt_zero],
      fun i hi => by simp [readInit] at hi⟩ hr
  · obtain ⟨htr, hbuf⟩ := key
    rw [readBuffer_eq _ intBits _ _ _ _ _ _ _ (by omega), hr]
    refine ⟨_, rfl, htot, herr, fun i hi => ?_⟩
    exact hbuf i (by omega)
  all_goals
    intro st hst
    obtain ⟨hmem, hna, htr, hbuf⟩ := hst
    obtain ⟨-, -, hdp, -, hna2, htr2, -, -⟩ := readBody_faultFree memWire intBits _
      memWire_transactionsSucceed memWire_deliversAll sizeBits st
    obtain ⟨hm2, hb2⟩ := readBody_memWire intBits sizeBits st
      (by rw [hna]; exact Nat.mod_lt _ (by decide))
    have hbuf2 : ∀ i < (readBody memWire intBits sizeBits st).1.dataPointer,
        (readBody memWire intBits sizeBits st).1.buf i = s.mem ((a + i) % 65536) % 256 := by
      intro i hi
      rw [hdp] at hi
      rw [hb2 i]
      by_cases hin : st.dataPointer ≤ i ∧ i < st.dataPointer + min st.lenRemaining 255
      · rw [if_pos hin, hmem, hna]
        congr 2
        omega
      · rw [if_neg hin]
        exact hbuf i (by omega)
    have htr3 : (readBody memWire intBits sizeBits st).1.totalread
        = toInt intBits ((readBody memWire intBits sizeBits st).1.dataPointer : Int) := by
      rw [htr2, hdp, htr, toInt_count]
    have hna3 : (readBody memWire intBits sizeBits st).1.nextAddress
        = (a + (readBody memWire intBits sizeBits st).1.dataPointer) % 65536 := by
      rw [hna2, hdp, hna]
      omega
    intros
    first
      | exact ⟨htr3, hbuf2⟩
      | exact ⟨by rw [hm2, hmem], hna3, htr3, hbuf2⟩

/-- C3. Round trip over the memory device (a fault-free bus backed by a byte-addressable
memory): for every device with a positive page size, every address `a` and every data of
length `len` with `a + len ≤ 2^16`, `writeBuffer(a, data, len)` immediately followed by
`readBuffer(a, buf, len)` returns (given `len` units of fuel) and fills `buf[0 .. len)` with
bytes identical to `data[0 .. len)`. -/
theorem writeBuffer_readBuffer_roundtrip (intBits sizeBits fuel : Nat) (self : AT24Cxxx) (a : Nat)
    (data buf : Nat → Nat) (len : Nat) (s : MemState) (hP : 0 < self.pageSize)
    (hfit : a + len ≤ 65536) (hbytes : ∀ i < len, data i < 256) (hfuel : len ≤ fuel) :
    ∃ r, readBuffer memWire intBits sizeBits fuel
        (writeBuffer memWire intBits self a data len s).self a buf len
        (writeBuffer memWire intBits self a data len s).wire = some r ∧
      ∀ i < len, r.buf i = data i := by
  by_cases hlen : len = 0
  · subst hlen
    exact ⟨⟨0, { (writeBuffer memWire intBits self a data 0 s).self with lastError := ERR_OK },
      (writeBuffer memWire intBits self a data 0 s).wire, buf, []⟩, rfl, fun i hi => by omega⟩
  · obtain ⟨r, hr, -, -, hbuf⟩ := readBuffer_memWire intBits sizeBits fuel
      (writeBuffer memWire intBits self a data len s).self a buf len
      (writeBuffer memWire intBits self a data len s).wire (by omega) hfuel
    refine ⟨r, hr, fun i hi => ?_⟩
    rw [hbuf i hi, Nat.mod_eq_of_lt (by omega : a + i < 65536),
      writeBuffer_memWire intBits self a data len s hP (by omega) hfit i hi, Nat.mod_mod,
      Nat.mod_eq_of_lt (hbytes i hi)]

/-- C3 with page size 16: 20 bytes written at address 10 and read back. -/
theorem writeBuffer_readBuffer_roundtrip_witness :
    (0 < (AT24Cxxx.new 80 10 256 16).pageSize ∧ 10 + 20 ≤ 65536 ∧
      (∀ i < 20, (fun i => i + 1) i < 256) ∧ 20 ≤ 20) ∧
    ∃ r, readBuffer memWire 16 16 20
        (writeBuffer memWire 16 (AT24Cxxx.new 80 10 256 16) 10 (fun i => i + 1) 20
          (MemState.blank 255)).self 10 (fun _ => 0) 20
        (writeBuffer memWire 16 (AT24Cxxx.new 80 10 256 16) 10 (fun i => i + 1) 20
          (MemState.blank 255)).wire = some r ∧
      ∀ i < 20, r.buf i = (fun i => i + 1) i :=
  ⟨⟨by decide, by decide, fun i hi => by show i + 1 < 256; omega, le_refl _⟩,
    writeBuffer_readBuffer_roundtrip 16 16 20 (AT24Cxxx.new 80 10 256 16) 10 (fun i => i + 1)
      (fun _ => 0) 20 (MemState.blank 255) (by decide) (by decide)
      (fun i hi => by show i + 1 < 256; omega) (le_refl _)⟩

/-! ## C11: a read of length zero -/

/-- C11. For every bus, address, destination, prior value of the last-error field and amount
of fuel, `readBuffer` with `len = 0` returns 0, sets the last error to `ERR_OK`, calls the bus
not at all (empty event list, bus state untouched) and leaves the destination as it was. -/
theorem readBuffer_zero_length {σ : Type} (w : TwoWire σ) (intBits sizeBits fuel : Nat)
    (self : AT24Cxxx) (address : Nat) (buf : Nat → Nat) (s : σ) :
    ∃ r, readBuffer w intBits sizeBits fuel self address buf 0 s = some r ∧
      r.ret = 0 ∧ getLastError r.self = ERR_OK ∧ r.events = [] ∧ r.wire = s ∧ r.buf = buf ∧
      r.self = { self with lastError := ERR_OK } :=
  ⟨⟨0, { self with lastError := ERR_OK }, s, buf, []⟩, rfl, rfl, rfl, rfl, rfl, rfl, rfl⟩

/-! ## C17: the address phase -/

/-- C17. For every bus and every 16-bit address `A`, `writeAddress(A)` calls the bus exactly
three times: `beginTransmission` with the configured device address, `write` of `A / 256`,
`write` of `A % 256`, and no `endTransmission`; the two bytes `b1`, `b2` are below 256 and
satisfy `b1 * 256 + b2 = A`, so distinct addresses give distinct byte pairs. -/
theorem writeAddress_high_byte_first {σ : Type} (w : TwoWire σ) (self : AT24Cxxx) (A : Nat)
    (s : σ) (hA : A < 65536) :
    (∃ r1 r2, (writeAddress w self A s).2 =
      [Event.callWriteAddress A, Event.beginTransmission self.i2cAddress,
        Event.write (A / 256) r1, Event.write (A % 256) r2]) ∧
    statuses (writeAddress w self A s).2 = [] ∧
    A / 256 < 256 ∧ A % 256 < 256 ∧ A / 256 * 256 + A % 256 = A ∧
    (∀ B, B < 65536 → (B / 256, B % 256) = (A / 256, A % 256) → B = A) := by
  have hhi : A / 256 % 256 = A / 256 := Nat.mod_eq_of_lt (by omega)
  refine ⟨?_, rfl, by omega, by omega, by omega, ?_⟩
  · obtain ⟨r1, r2, h⟩ := writeAddress_events w self A s
    rw [hhi] at h
    exact ⟨r1, r2, h⟩
  · intro B _ hB
    have h1 : B / 256 = A / 256 := congrArg Prod.fst hB
    have h2 : B % 256 = A % 256 := congrArg Prod.snd hB
    omega

/-- C17 at address 0x1234 on the memory device: the bytes sent are 0x12, then 0x34. -/
theorem writeAddress_high_byte_first_witness :
    4660 < 65536 ∧
    (∃ r1 r2, (writeAddress memWire (AT24Cxxx.new 80 10 256 16) 4660 (MemState.blank 0)).2 =
      [Event.callWriteAddress 4660, Event.beginTransmission 80,
        Event.write 18 r1, Event.write 52 r2]) :=
  ⟨by decide, (writeAddress_high_byte_first memWire (AT24Cxxx.new 80 10 256 16) 4660
    (MemState.blank 0) (by decide)).1⟩

/-! ## C18: the duration of the settling delay -/

/-- For every bus behaviour every `delay` call of a `writeBuffer` call is given the stored
`_writeDelay`, and there is at least one such call. -/
theorem writeBuffer_delays {σ : Type} (w : TwoWire σ) (intBits : Nat) (self : AT24Cxxx)
    (address : Nat)
    (data : Nat → Nat) (len : Nat) (s : σ) :
    (∀ d ∈ delays (writeBuffer w intBits self address data len s).events, d = self.writeDelay) ∧
      delays (writeBuffer w intBits self address data len s).events ≠ [] := by
  rw [writeBuffer_eq]
  have key := writeLoop_rule w intBits data len
    (fun st => st.self.writeDelay = self.writeDelay ∧
      ∀ d ∈ delays st.events, d = self.writeDelay)
    (fun st => (∀ d ∈ delays st.events, d = self.writeDelay) ∧ delays st.events ≠ [])
  have hbody : ∀ st : WriteState σ, (st.self.writeDelay = self.writeDelay ∧
      ∀ d ∈ delays st.events, d = self.writeDelay) →
      (writeBody w intBits data st).1.self.writeDelay = self.writeDelay ∧
      (∀ d ∈ delays (writeBody w intBits data st).1.events, d = self.writeDelay) ∧
      delays (writeBody w intBits data st).1.events ≠ [] := by
    rintro st ⟨hwd, hall⟩
    refine ⟨by rw [writeBody_self, writeCall_writeDelay, hwd], ?_, ?_⟩
    · intro d hd
      rw [writeBody_events, delays_append, writeCall, rawWriteBuffer_delays] at hd
      rcases List.mem_append.1 hd with h | h
      · exact hall d h
      · simp only [List.mem_singleton] at h
        rw [h, hwd]
    · rw [writeBody_events, delays_append, writeCall, rawWriteBuffer_delays]
      simp
  exact key (fun st hst _ => (hbody st hst).2) (fun st hst _ _ => (hbody st hst).2)
    (fun st hst _ _ _ => (hbody st hst).2)
    (fun st hst _ _ _ => ⟨(hbody st hst).1, (hbody st hst).2.1⟩)
    (writeInit self address len s) ⟨rfl, fun d hd => by simp [writeInit] at hd⟩

/-- C18 (code at the failing input). A driver constructed with `writeDelay = 300` stores it in
the `uint8_t` member `_writeDelay` as 44: for every bus behaviour every settling delay of a
`writeBuffer` call lasts 44, not 300, and there is at least one. -/
theorem writeBuffer_delay_truncated {σ : Type} (w : TwoWire σ) (intBits : Nat)
    (i2c size pageSize : Nat)
    (address : Nat) (data : Nat → Nat) (len : Nat) (s : σ) :
    (AT24Cxxx.new i2c 300 size pageSize).writeDelay = 44 ∧
    (∀ d ∈ delays (writeBuffer w intBits (AT24Cxxx.new i2c 300 size pageSize) address data len
      s).events, d = 44 ∧ d ≠ 300) ∧
    delays (writeBuffer w intBits (AT24Cxxx.new i2c 300 size pageSize) address data len s).events
      ≠ [] := by
  have h := writeBuffer_delays w intBits (AT24Cxxx.new i2c 300 size pageSize) address data len s
  have h44 : (AT24Cxxx.new i2c 300 size pageSize).writeDelay = 44 := rfl
  refine ⟨h44, fun d hd => ?_, h.2⟩
  have := h.1 d hd
  rw [h44] at this
  exact ⟨this, by omega⟩

/-! ## Termination of short reads on every bus -/

/-- On every bus `readBuffer` returns when `len ≤ 255` and the fuel is at least `len`: below
256 the 8-bit iteration counter does bound the loop. -/
theorem readBuffer_returns_of_le_255 {σ : Type} (w : TwoWire σ) (intBits sizeBits fuel : Nat)
    (self : AT24Cxxx) (address : Nat) (buf : Nat → Nat) (len : Nat) (s : σ)
    (h255 : len ≤ 255) (hfuel : len ≤ fuel) :
    ∃ r, readBuffer w intBits sizeBits fuel self address buf len s = some r := by
  by_cases hlen : len = 0
  · subst hlen
    exact ⟨_, rfl⟩
  · obtain ⟨fin, hfin, -⟩ := readLoop_rule w intBits sizeBits len
      (fun st => st.numberOfReads < len) (fun _ => True) (fun st => len - st.numberOfReads)
      (fun st h => by show 0 < len - st.numberOfReads; omega)
      (fun _ _ _ => trivial) (fun _ _ _ _ => trivial) (fun _ _ _ _ _ => trivial)
      (fun st h _ _ hc => by
        rw [readBody_numberOfReads] at hc
        have h1 : (st.numberOfReads + 1) % 256 = st.numberOfReads + 1 :=
          Nat.mod_eq_of_lt (by omega)
        refine ⟨?_, ?_⟩
        · show ((readBody w intBits sizeBits st).1.numberOfReads + 1) % 256 < len
          rw [readBody_numberOfReads]
          exact hc
        · show len - ((readBody w intBits sizeBits st).1.numberOfReads + 1) % 256
            < len - st.numberOfReads
          rw [readBody_numberOfReads, h1]
          omega)
      fuel (readInit self address buf len s) (by show 0 < len; omega)
      (by show len - 0 ≤ fuel; omega)
    rw [readBuffer_eq w intBits sizeBits fuel self address buf len s hlen, hfin]
    exact ⟨_, rfl⟩

/-! ## C12: the last error after a call -/

theorem readBody_statuses {σ : Type} (w : TwoWire σ) (intBits sizeBits : Nat) (st : ReadState σ) :
    statuses (readBody w intBits sizeBits st).1.events =
        statuses st.events ++ [(readEnd w st).2] ∧
      (readBody w intBits sizeBits st).1.self.lastError = (readEnd w st).2 % 256 := by
  obtain ⟨r1, r2, h⟩ := writeAddress_events w st.self st.nextAddress st.wire
  obtain ⟨xs, hxs, hev⟩ := readCopy_events w st
  refine ⟨?_, by rw [readBody_lastError]⟩
  rw [readBody_eq]
  split
  · simp only [h, statuses_append]
    simp [statuses]
  · simp only [hev, statuses_append, allCopy_statuses hxs, readHead, h]
    simp [statuses]

theorem writeBody_statuses {σ : Type} (w : TwoWire σ) (intBits : Nat) (data : Nat → Nat)
    (st : WriteState σ) :
    ∃ x, statuses (writeBody w intBits data st).1.events = statuses st.events ++ [x] ∧
      (writeBody w intBits data st).1.self.lastError = x % 256 := by
  obtain ⟨x, hx, herr⟩ := rawWriteBuffer_statuses w st.self st.nextAddress
    (fun i => data (st.dataToWrite + i))
    (min (st.self.pageSize - st.nextAddress % st.self.pageSize) st.lenRemaining) st.wire
  refine ⟨x, ?_, ?_⟩
  · rw [writeBody_events, statuses_append, writeCall, hx]
  · rw [writeBody_self]
    exact herr

/-- C12. For a device with a page size above 0, for every bus behaviour and whatever the
last-error field held before the call: after a `readBuffer` call that returns, and after
every `writeBuffer` call, `getLastError()` is the status returned by the last
`endTransmission` of that call (as stored in the `uint8_t` field, i.e. the status itself for
a status below 256), and it is `ERR_OK` when the call made no `endTransmission`;
`writeBuffer` always makes at least one.  A `readBuffer` call returns whenever `len ≤ 255`
and the fuel is at least `len`. -/
theorem lastError_is_last_status {σ : Type} (w : TwoWire σ) (intBits sizeBits fuel : Nat)
    (self : AT24Cxxx) (address : Nat) (buf data : Nat → Nat) (len : Nat) (s : σ)
    (_hP : 0 < self.pageSize) :
    (∀ r, readBuffer w intBits sizeBits fuel self address buf len s = some r →
      (statuses r.events = [] → getLastError r.self = ERR_OK) ∧
      (∀ x, (statuses r.events).getLast? = some x →
        getLastError r.self = x % 256 ∧ (x < 256 → getLastError r.self = x))) ∧
    (∃ x, (statuses (writeBuffer w intBits self address data len s).events).getLast? = some x ∧
      getLastError (writeBuffer w intBits self address data len s).self = x % 256 ∧
      (x < 256 → getLastError (writeBuffer w intBits self address data len s).self = x)) ∧
    (len ≤ 255 → len ≤ fuel →
      ∃ r, readBuffer w intBits sizeBits fuel self address buf len s = some r) := by
  refine ⟨?_, ?_, readBuffer_returns_of_le_255 w intBits sizeBits fuel self address buf len s⟩
  · intro r hr
    by_cases hlen : len = 0
    · subst hlen
      have : r = ⟨0, { self with lastError := ERR_OK }, s, buf, []⟩ := by
        have h2 : readBuffer w intBits sizeBits fuel self address buf 0 s =
            some ⟨0, { self with lastError := ERR_OK }, s, buf, []⟩ := rfl
        rw [h2] at hr
        exact (Option.some.inj hr).symm
      subst this
      exact ⟨fun _ => rfl, fun x hx => by simp [statuses] at hx⟩
    · rw [readBuffer_eq w intBits sizeBits fuel self address buf len s hlen] at hr
      obtain ⟨fin, hfin, rfl⟩ := Option.map_eq_some'.1 hr
      have key := readLoop_partial w intBits sizeBits len (fun _ => True)
        (fun st => ∃ x, (statuses st.events).getLast? = some x ∧
          st.self.lastError = x % 256)
        (fun st _ _ => ⟨_, by rw [(readBody_statuses w intBits sizeBits st).1]; simp,
          (readBody_statuses w intBits sizeBits st).2⟩)
        (fun st _ _ _ => ⟨_, by rw [(readBody_statuses w intBits sizeBits st).1]; simp,
          (readBody_statuses w intBits sizeBits st).2⟩)
        (fun st _ _ _ _ => ⟨(readEnd w st).2, by
          show (statuses (readBody w intBits sizeBits st).1.events).getLast? = _
          rw [(readBody_statuses w intBits sizeBits st).1]; simp,
          (readBody_statuses w intBits sizeBits st).2⟩)
        (fun st _ _ _ _ => trivial) fuel _ fin trivial hfin
      obtain ⟨x, hx, herr⟩ := key
      refine ⟨fun hnil => ?_, fun y hy => ?_⟩
      · simp only at hnil
        rw [hnil] at hx
        simp at hx
      · simp only at hy
        rw [hx] at hy
        cases hy
        exact ⟨herr, fun hlt => by rw [getLastError]; simp only; rw [herr]; omega⟩
  · rw [writeBuffer_eq]
    have key := writeLoop_rule w intBits data len (fun _ => True)
      (fun st => ∃ x, (statuses st.events).getLast? = some x ∧
        st.self.lastError = x % 256)
      (fun st _ _ => by
        obtain ⟨x, h1, h2⟩ := writeBody_statuses w intBits data st
        exact ⟨x, by rw [h1]; simp, h2⟩)
      (fun st _ _ _ => by
        obtain ⟨x, h1, h2⟩ := writeBody_statuses w intBits data st
        exact ⟨x, by rw [h1]; simp, h2⟩)
      (fun st _ _ _ _ => by
        obtain ⟨x, h1, h2⟩ := writeBody_statuses w intBits data st
        exact ⟨x, by
          show (statuses (writeBody w intBits data st).1.events).getLast? = _
          rw [h1]; simp, h2⟩)
      (fun st _ _ _ _ => trivial) (writeInit self address len s) trivial
    obtain ⟨x, hx, herr⟩ := key
    exact ⟨x, hx, herr, fun hlt => by rw [getLastError]; simp only; rw [herr]; omega⟩

/-- C12 on a bus whose second transaction ends with address-NACK, with a stale `ERR_BUS` in
the last-error field before the call: the read returns with `ERR_NACK`. -/
theorem lastError_is_last_status_witness :
    ∃ r, readBuffer (scriptWire 1 fun n => min n 1) 16 16 3
        { AT24Cxxx.new 80 10 256 16 with lastError := ERR_BUS } 0 (fun _ => 0) 3
        ⟨[0, 2], 0⟩ = some r ∧
      0 < ({ AT24Cxxx.new 80 10 256 16 with lastError := ERR_BUS } : AT24Cxxx).pageSize ∧
      statuses r.events = [0, 2] ∧ getLastError r.self = ERR_NACK := by
  have hs : (readBuffer (scriptWire 1 fun n => min n 1) 16 16 3
      { AT24Cxxx.new 80 10 256 16 with lastError := ERR_BUS } 0 (fun _ => 0) 3
      ⟨[0, 2], 0⟩).map (fun r => statuses r.events) = some [0, 2] := by decide
  obtain ⟨r, hr, hst⟩ := Option.map_eq_some'.1 hs
  have key := (lastError_is_last_status (scriptWire 1 fun n => min n 1) 16 16 3
    { AT24Cxxx.new 80 10 256 16 with lastError := ERR_BUS } 0 (fun _ => 0) (fun _ => 0) 3
    ⟨[0, 2], 0⟩ (by decide)).1 r hr
  exact ⟨r, hr, by decide, hst, (key.2 2 (by rw [hst]; rfl)).1⟩

/-! ## Writes on a bus with a bounded transmit buffer (C19, C13) -/

theorem shortWire_transactionsSucceed (cap : Nat) (deliver : Nat → Nat) :
    TransactionsSucceed (shortWire cap deliver) :=
  fun _ => rfl

theorem shortWire_txRoom (cap : Nat) (deliver : Nat → Nat) :
    TxRoom (shortWire cap deliver) (fun s => s.room) where
  write_ret s b := by
    by_cases h : 0 < s.room <;> simp [shortWire, h]
  write_room s b := by
    by_cases h : 0 < s.room
    · simp [shortWire, h]
    · simp only [shortWire, h, if_false]
      omega

/-- With a bounded transmit buffer the byte loop queues as many bytes as there is room. -/
theorem queueLoop_room {σ : Type} (w : TwoWire σ) (room : σ → Nat) (hR : TxRoom w room)
    (data : Nat → Nat) (k written : Nat) (s : σ) (ev : List Event) :
    (queueLoop w data k written s ev).2.1 = written + min k (room s) := by
  induction k generalizing written s ev with
  | zero => simp [queueLoop]
  | succ k ih =>
    by_cases h : (w.write s (data written)).2 ≠ 1
    · have e : queueLoop w data (k + 1) written s ev =
          ((w.write s (data written)).1, written,
            ev ++ [Event.write (data written) (w.write s (data written)).2]) := by
        simp only [queueLoop]
        rw [if_pos h]
      have h0 : ¬ 0 < room s := fun hp => h ((hR.write_ret s _).2 hp)
      rw [e]
      show written = _
      omega
    · have e : queueLoop w data (k + 1) written s ev =
          queueLoop w data k (written + 1) (w.write s (data written)).1
            (ev ++ [Event.write (data written) (w.write s (data written)).2]) := by
        simp only [queueLoop]
        rw [if_neg h]
      have h1 : 0 < room s := (hR.write_ret s _).1 (not_not.1 h)
      rw [e, ih, hR.write_room]
      omega

/-- With a bounded transmit buffer a raw write queues `min len (room - 2)` data bytes, where
`room` is the room right after `beginTransmission` (two units go to the address bytes). -/
theorem rawWriteBuffer_queued_room {σ : Type} (w : TwoWire σ) (room : σ → Nat)
    (hR : TxRoom w room) (self : AT24Cxxx) (address : Nat) (data : Nat → Nat) (len : Nat)
    (s : σ) :
    (rawWriteBuffer w self address data len s).queued =
      min len (room (w.beginTransmission s self.i2cAddress) - 2) := by
  have hq := queueLoop_room w room hR data len 0
    (writeAddress w { self with lastError := ERR_OK } address s).1
    (Event.callRawWriteBuffer address len ::
      (writeAddress w { self with lastError := ERR_OK } address s).2)
  have hroom : room (writeAddress w { self with lastError := ERR_OK } address s).1 =
      room (w.beginTransmission s self.i2cAddress) - 2 := by
    simp only [writeAddress, hR.write_room]
    omega
  simp only [rawWriteBuffer, hq, hroom]
  omega

theorem rawWriteBuffer_lastError_ok {σ : Type} (w : TwoWire σ) (hT : TransactionsSucceed w)
    (self : AT24Cxxx) (address : Nat) (data : Nat → Nat) (len : Nat) (s : σ) :
    (rawWriteBuffer w self address data len s).self.lastError = 0 := by
  simp only [rawWriteBuffer, hT _]

/-- C19. With a page size above 0, on a bus whose transactions all end in success but which
accepts no data byte (the transmit buffer has room for at most the two address bytes), for
every `len ≥ 1`, `writeBuffer` issues exactly `len` raw writes, each asking for at least one
data byte and each followed by its settling delay, returns 0 and leaves
`getLastError() == ERR_OK`; and on every bus, for `len ≥ 1`, it issues at most `len` raw
writes. -/
theorem writeBuffer_zero_progress {σ : Type} (w : TwoWire σ) (intBits : Nat) (room : σ → Nat)
    (hT : TransactionsSucceed w) (hR : TxRoom w room)
    (hfull : ∀ s d, room (w.beginTransmission s d) ≤ 2)
    (self : AT24Cxxx) (address : Nat) (data : Nat → Nat) (len : Nat) (s : σ)
    (hP : 0 < self.pageSize) (hlen : 1 ≤ len) :
    (rawWrites (writeBuffer w intBits self address data len s).events).length = len ∧
    (∀ p ∈ rawWrites (writeBuffer w intBits self address data len s).events, 1 ≤ p.2) ∧
    (delays (writeBuffer w intBits self address data len s).events).length = len ∧
    (writeBuffer w intBits self address data len s).ret = 0 ∧
    getLastError (writeBuffer w intBits self address data len s).self = ERR_OK ∧
    (∀ (τ : Type) (w2 : TwoWire τ) (s2 : τ),
      (rawWrites (writeBuffer w2 intBits self address data len s2).events).length ≤ len) := by
  have hbody : ∀ st : WriteState σ,
      (writeBody w intBits data st).2 = false ∧
      (writeBody w intBits data st).1.self.lastError = 0 ∧
      (writeBody w intBits data st).1.lenRemaining = st.lenRemaining ∧
      (st.totalWritten = 0 → (writeBody w intBits data st).1.totalWritten = 0) ∧
      rawWrites (writeBody w intBits data st).1.events = rawWrites st.events ++
        [(st.nextAddress, min (st.self.pageSize - st.nextAddress % st.self.pageSize)
          st.lenRemaining)] ∧
      (delays (writeBody w intBits data st).1.events).length = (delays st.events).length + 1 ∧
      (writeBody w intBits data st).1.self.pageSize = st.self.pageSize := by
    intro st
    have hok : (writeCall w data st).self.lastError = 0 :=
      rawWriteBuffer_lastError_ok w hT _ _ _ _ _
    have hq : (writeCall w data st).queued = 0 := by
      rw [writeCall, rawWriteBuffer_queued_room w room hR]
      have := hfull st.wire st.self.i2cAddress
      omega
    have hret : (writeCall w data st).ret.toNat = 0 := by
      rw [writeCall_ret, if_pos hok, hq]
      rfl
    have hev := writeBody_events w intBits data st
    have hself := writeBody_self w intBits data st
    rw [writeBody_of_ok w intBits data st hok] at hev hself ⊢
    refine ⟨rfl, hok, ?_, ?_, ?_, ?_, ?_⟩
    · simp only [hret, Nat.sub_zero]
    · intro h0
      simp only [hret, h0]
      exact toInt_zero intBits
    · simp only [rawWrites_append, writeCall_rawWrites]
    · simp only [delays_append, writeCall, rawWriteBuffer_delays]
      simp
    · exact writeCall_pageSize w data st
  have hstep : ∀ st : WriteState σ,
      (st.lenRemaining = len ∧ st.self.pageSize = self.pageSize ∧
        ∀ p ∈ rawWrites st.events, 1 ≤ p.2) →
      ∀ p ∈ rawWrites (writeBody w intBits data st).1.events, 1 ≤ p.2 := by
    intro st hst p hp
    obtain ⟨-, -, -, -, hrw, -, -⟩ := hbody st
    obtain ⟨hrem, hps, hall⟩ := hst
    rw [hrw, List.mem_append, List.mem_singleton] at hp
    rcases hp with hp | hp
    · exact hall p hp
    · rw [hp, hps, hrem]
      show 1 ≤ min (self.pageSize - st.nextAddress % self.pageSize) len
      have := Nat.mod_lt st.nextAddress hP
      omega
  have key := writeLoop_rule w intBits data len
    (fun st => st.lenRemaining = len ∧ st.totalWritten = 0 ∧
      (rawWrites st.events).length = st.numberOfWrites ∧
      (delays st.events).length = st.numberOfWrites ∧ st.numberOfWrites < len ∧
      st.self.pageSize = self.pageSize ∧ ∀ p ∈ rawWrites st.events, 1 ≤ p.2)
    (fun st => (rawWrites st.events).length = len ∧ (∀ p ∈ rawWrites st.events, 1 ≤ p.2) ∧
      (delays st.events).length = len ∧ st.totalWritten = 0 ∧ st.self.lastError = 0)
    (fun st _ hb => by rw [(hbody st).1] at hb; cases hb)
    (fun st hst _ hrem => by
      obtain ⟨-, -, hlr, -, -, -, -⟩ := hbody st
      rw [hlr, hst.1] at hrem
      omega)
    (fun st hst _ _ hcap => by
      obtain ⟨-, herr, -, htw, hrw, hdl, -⟩ := hbody st
      have hge := hstep st ⟨hst.1, hst.2.2.2.2.2.1, hst.2.2.2.2.2.2⟩
      obtain ⟨-, htot, hc1, hc2, hn, -, -⟩ := hst
      rw [writeBody_numberOfWrites] at hcap
      refine ⟨?_, hge, ?_, htw htot, herr⟩
      · show (rawWrites (writeBody w intBits data st).1.events).length = len
        rw [hrw, List.length_append, hc1]
        simp only [List.length_singleton]
        omega
      · show (delays (writeBody w intBits data st).1.events).length = len
        rw [hdl, hc2]
        omega)
    (fun st hst _ _ hnext => by
      obtain ⟨-, herr, hlr, htw, hrw, hdl, hps⟩ := hbody st
      have hge := hstep st ⟨hst.1, hst.2.2.2.2.2.1, hst.2.2.2.2.2.2⟩
      obtain ⟨hrem, htot, hc1, hc2, hn, hpage, -⟩ := hst
      rw [writeBody_numberOfWrites] at hnext
      refine ⟨?_, htw htot, ?_, ?_, ?_, ?_, hge⟩
      · show (writeBody w intBits data st).1.lenRemaining = len
        rw [hlr, hrem]
      · show (rawWrites (writeBody w intBits data st).1.events).length
          = (writeBody w intBits data st).1.numberOfWrites + 1
        rw [hrw, List.length_append, hc1, writeBody_numberOfWrites]
        rfl
      · show (delays (writeBody w intBits data st).1.events).length
          = (writeBody w intBits data st).1.numberOfWrites + 1
        rw [hdl, hc2, writeBody_numberOfWrites]
      · show (writeBody w intBits data st).1.numberOfWrites + 1 < len
        rw [writeBody_numberOfWrites]
        exact hnext
      · show (writeBody w intBits data st).1.self.pageSize = self.pageSize
        rw [hps, hpage])
    (writeInit self address len s)
    ⟨rfl, rfl, rfl, rfl, by show 0 < len; omega, rfl, fun p hp => by cases hp⟩
  refine ⟨key.1, key.2.1, key.2.2.1, key.2.2.2.1, key.2.2.2.2, fun τ w2 s2 => ?_⟩
  have := (writeBuffer_rawWrites_length w2 intBits self address data len s2).2
  omega

/-- C19 on a bus whose transmit buffer holds exactly the two address bytes: writing 5 bytes
to a device with 16-byte pages issues 5 raw writes and returns 0. -/
theorem writeBuffer_zero_progress_witness :
    (TransactionsSucceed (shortWire 2 fun n => n) ∧
      TxRoom (shortWire 2 fun n => n) (fun s => s.room) ∧
      (∀ (s : ShortState) (d : Nat),
        ((shortWire 2 fun n => n).beginTransmission s d).room ≤ 2) ∧
      0 < (AT24Cxxx.new 80 10 256 16).pageSize ∧ 1 ≤ 5) ∧
    (rawWrites (writeBuffer (shortWire 2 fun n => n) 16 (AT24Cxxx.new 80 10 256 16) 10
      (fun i => i) 5 ⟨0, 0⟩).events).length = 5 ∧
    (writeBuffer (shortWire 2 fun n => n) 16 (AT24Cxxx.new 80 10 256 16) 10
      (fun i => i) 5 ⟨0, 0⟩).ret = 0 := by
  have key := writeBuffer_zero_progress (shortWire 2 fun n => n) 16 (fun s => s.room)
    (shortWire_transactionsSucceed _ _) (shortWire_txRoom _ _) (fun _ _ => le_refl _)
    (AT24Cxxx.new 80 10 256 16) 10 (fun i => i) 5 ⟨0, 0⟩ (by decide) (by decide)
  exact ⟨⟨shortWire_transactionsSucceed _ _, shortWire_txRoom _ _, fun _ _ => le_refl _,
    by decide, by decide⟩, key.1, key.2.2.2.1⟩

/-! ## C16: the transfer state at iteration boundaries -/

theorem readLoop_succ_step {σ : Type} (w : TwoWire σ) (intBits sizeBits len fuel : Nat)
    (st : ReadState σ) :
    readLoop w intBits sizeBits len (fuel + 1) st =
      if (readStep w intBits sizeBits len st).2 then
        readLoop w intBits sizeBits len fuel (readStep w intBits sizeBits len st).1
      else some (readStep w intBits sizeBits len st).1 := by
  rw [readLoop_succ]
  simp only [readStep]
  by_cases h1 : (readBody w intBits sizeBits st).2 = true
  · simp [h1]
  · by_cases h2 : 0 < (readBody w intBits sizeBits st).1.lenRemaining
    · by_cases h3 : ((readBody w intBits sizeBits st).1.numberOfReads + 1) % 256 < len
      · simp [h1, h2, h3]
      · simp [h1, h2, h3]
    · simp [h1, h2]

/-- The state `readLoop` returns is the state at an iteration boundary where the loop has
stopped. -/
theorem readIter_of_readLoop {σ : Type} (w : TwoWire σ) (intBits sizeBits len fuel : Nat)
    (st fin : ReadState σ) (h : readLoop w intBits sizeBits len fuel st = some fin) :
    ∃ n, readIter w intBits sizeBits len n st = (fin, false) := by
  induction fuel generalizing st with
  | zero => cases h
  | succ fuel ih =>
    rw [readLoop_succ_step] at h
    by_cases hs : (readStep w intBits sizeBits len st).2 = true
    · rw [if_pos hs] at h
      obtain ⟨n, hn⟩ := ih _ h
      exact ⟨n + 1, by simp only [readIter, if_pos hs, hn]⟩
    · rw [if_neg hs] at h
      refine ⟨1, ?_⟩
      simp only [readIter, if_neg hs]
      have hf : (readStep w intBits sizeBits len st).2 = false := by simpa using hs
      rw [← Option.some.inj h]
      exact Prod.ext rfl hf

theorem writeLoop_unfold_step {σ : Type} (w : TwoWire σ) (intBits : Nat) (data : Nat → Nat)
    (len : Nat)
    (st : WriteState σ) :
    writeLoop w intBits data len st =
      if (writeStep w intBits data len st).2 then
        writeLoop w intBits data len (writeStep w intBits data len st).1
      else (writeStep w intBits data len st).1 := by
  rw [writeLoop_unfold]
  simp only [writeStep]
  by_cases h1 : (writeBody w intBits data st).2 = true
  · simp [h1]
  · by_cases h2 : 0 < (writeBody w intBits data st).1.lenRemaining
    · by_cases h3 : (writeBody w intBits data st).1.numberOfWrites + 1 < len
      · simp [h1, h2, h3]
      · simp [h1, h2, h3]
    · simp [h1, h2]

/-- The state `writeLoop` ends in is the state at an iteration boundary where the loop has
stopped. -/
theorem writeIter_of_writeLoop {σ : Type} (w : TwoWire σ) (intBits : Nat) (data : Nat → Nat)
    (len : Nat)
    (st : WriteState σ) :
    ∃ n, writeIter w intBits data len n st = (writeLoop w intBits data len st, false) := by
  obtain ⟨k, hk⟩ : ∃ k, len - st.numberOfWrites = k := ⟨_, rfl⟩
  induction k using Nat.strong_induction_on generalizing st with
  | _ k ih =>
    rw [writeLoop_unfold_step]
    by_cases hs : (writeStep w intBits data len st).2 = true
    · rw [if_pos hs]
      have hnum : (writeStep w intBits data len st).1.numberOfWrites = st.numberOfWrites + 1 ∧
          st.numberOfWrites + 1 < len := by
        have hb := writeBody_numberOfWrites w intBits data st
        simp only [writeStep] at hs ⊢
        by_cases h1 : (writeBody w intBits data st).2 = true
        · simp [h1] at hs
        · by_cases h2 : 0 < (writeBody w intBits data st).1.lenRemaining
          · simp only [h1, h2, if_true, if_false, decide_eq_true_eq] at hs ⊢
            simp only [Bool.false_eq_true, if_false, hb] at hs ⊢
            exact ⟨trivial, of_decide_eq_true hs⟩
          · simp [h1, h2] at hs
      obtain ⟨n, hn⟩ := ih (len - (st.numberOfWrites + 1)) (by omega)
        (writeStep w intBits data len st).1 (by rw [hnum.1])
      exact ⟨n + 1, by simp only [writeIter, if_pos hs, hn]⟩
    · rw [if_neg hs]
      refine ⟨1, ?_⟩
      simp only [writeIter, if_neg hs]
      have hf : (writeStep w intBits data len st).2 = false := by simpa using hs
      exact Prod.ext rfl hf

theorem readBody_transfer {σ : Type} (w : TwoWire σ) (intBits sizeBits a len : Nat)
    (hle : ∀ s d n, (w.requestFrom s d n).2 ≤ n) (st : ReadState σ)
    (h : ReadTransferInv intBits a len st) :
    ReadTransferInv intBits a len (readBody w intBits sizeBits st).1 := by
  obtain ⟨hsum, htot, hna⟩ := h
  rw [readBody_eq]
  split
  · exact ⟨hsum, htot, hna⟩
  · obtain ⟨xs, -, -, -, hi⟩ := copyLoop_spec w st.dataPointer (readRequest w st).2 0
      (readRequest w st).1 st.buf (readHead w st)
    have hreq : (readRequest w st).2 ≤ min st.lenRemaining MAX_ALLOWED_LEN_IN_REQUESTFROM :=
      hle _ _ _
    have hci : (readCopy w st).i ≤ st.lenRemaining := by
      have : (readCopy w st).i ≤ 0 + (readRequest w st).2 := hi
      have := Nat.min_le_left st.lenRemaining MAX_ALLOWED_LEN_IN_REQUESTFROM
      omega
    refine ⟨?_, ?_, ?_⟩
    · show subSize sizeBits st.lenRemaining (readCopy w st).i
        + (st.dataPointer + (readCopy w st).i) = len
      rw [subSize, if_pos hci]
      omega
    · show toInt intBits (st.totalread + ((readCopy w st).i : Int))
        = toInt intBits ((st.dataPointer + (readCopy w st).i : Nat) : Int)
      rw [htot, toInt_count]
    · show (st.nextAddress + (readCopy w st).i) % 65536
        = (a + (st.dataPointer + (readCopy w st).i)) % 65536
      rw [hna]
      omega

theorem readStep_transfer {σ : Type} (w : TwoWire σ) (intBits sizeBits a len : Nat)
    (hle : ∀ s d n, (w.requestFrom s d n).2 ≤ n) (st : ReadState σ)
    (h : ReadTransferInv intBits a len st) :
    ReadTransferInv intBits a len (readStep w intBits sizeBits len st).1 := by
  have hb := readBody_transfer w intBits sizeBits a len hle st h
  simp only [readStep]
  split_ifs
  · exact hb
  · exact hb
  · exact hb

theorem readIter_transfer {σ : Type} (w : TwoWire σ) (intBits sizeBits a len : Nat)
    (hle : ∀ s d n, (w.requestFrom s d n).2 ≤ n) (n : Nat) (st : ReadState σ)
    (h : ReadTransferInv intBits a len st) :
    ReadTransferInv intBits a len (readIter w intBits sizeBits len n st).1 := by
  induction n generalizing st with
  | zero => exact h
  | succ n ih =>
    simp only [readIter]
    split_ifs
    · exact ih _ (readStep_transfer w intBits sizeBits a len hle st h)
    · exact readStep_transfer w intBits sizeBits a len hle st h

theorem writeBody_transfer {σ : Type} (w : TwoWire σ) (intBits : Nat) (data : Nat → Nat)
    (a len : Nat)
    (st : WriteState σ) (h : WriteTransferInv intBits a len st) :
    WriteTransferInv intBits a len (writeBody w intBits data st).1 := by
  obtain ⟨hsum, htot, hna⟩ := h
  rw [writeBody_eq]
  split
  · exact ⟨hsum, htot, hna⟩
  · have hle : (writeCall w data st).ret.toNat ≤ st.lenRemaining :=
      Nat.le_trans (rawWriteBuffer_ret_toNat_le _ _ _ _ _ _) (Nat.min_le_right _ _)
    refine ⟨?_, ?_, ?_⟩
    · show st.lenRemaining - (writeCall w data st).ret.toNat
        + (st.dataToWrite + (writeCall w data st).ret.toNat) = len
      omega
    · show toInt intBits (st.totalWritten + ((writeCall w data st).ret.toNat : Int))
        = toInt intBits ((st.dataToWrite + (writeCall w data st).ret.toNat : Nat) : Int)
      rw [htot, toInt_count]
    · show (st.nextAddress + (writeCall w data st).ret.toNat) % 65536
        = (a + (st.dataToWrite + (writeCall w data st).ret.toNat)) % 65536
      rw [hna]
      omega

theorem writeStep_transfer {σ : Type} (w : TwoWire σ) (intBits : Nat) (data : Nat → Nat)
    (a len : Nat)
    (st : WriteState σ) (h : WriteTransferInv intBits a len st) :
    WriteTransferInv intBits a len (writeStep w intBits data len st).1 := by
  have hb := writeBody_transfer w intBits data a len st h
  simp only [writeStep]
  split_ifs
  · exact hb
  · exact hb
  · exact hb

theorem writeIter_transfer {σ : Type} (w : TwoWire σ) (intBits : Nat) (data : Nat → Nat)
    (a len : Nat)
    (n : Nat) (st : WriteState σ) (h : WriteTransferInv intBits a len st) :
    WriteTransferInv intBits a len (writeIter w intBits data len n st).1 := by
  induction n generalizing st with
  | zero => exact h
  | succ n ih =>
    simp only [writeIter]
    split_ifs
    · exact ih _ (writeStep_transfer w intBits data a len st h)
    · exact writeStep_transfer w intBits data a len st h

/-- A count of at most `len` bytes, converted to `int`, is at most `len`, and it is the
count itself, hence not negative, when `len` is below `2^(intBits-1)`. -/
theorem toInt_transferred (intBits moved rest len : Nat) (h : rest + moved = len) :
    toInt intBits (moved : Int) ≤ (len : Int) ∧
    ((len : Int) < intLimit intBits →
      toInt intBits (moved : Int) = (moved : Int) ∧ 0 ≤ toInt intBits (moved : Int) ∧
      (rest : Int) + toInt intBits (moved : Int) = (len : Int)) := by
  have h1 := toInt_le_self intBits (moved : Int) (Int.ofNat_nonneg _)
  have hp := intLimit_pos intBits
  refine ⟨by omega, fun hfit => ?_⟩
  have h2 := toInt_of_fits intBits (moved : Int) (by omega) (by omega)
  rw [h2]
  omega

/-- C16, as amended. With a page size above 0, on a bus that never reports more bytes than
were requested, at every iteration boundary of `readBuffer`, and on every bus at every
iteration boundary of `writeBuffer`: remaining plus bytes moved (the advance of the data
pointer) is the requested length `len`, the `int` total is the number of bytes moved
converted to `int`, and the address cursor is `(a + bytes moved) mod 2^16`; when `len` is
below `2^(intBits-1)`, remaining plus the `int` total is `len`.  The states the loops end in
are such boundaries, hence the count returned never exceeds `len`, and it is not negative
when `len` is below `2^(intBits-1)`. -/
theorem transfer_state_invariant {σ : Type} (w : TwoWire σ) (intBits sizeBits : Nat)
    (self : AT24Cxxx) (a : Nat) (buf data : Nat → Nat) (len : Nat) (s : σ)
    (_hP : 0 < self.pageSize)
    (hle : ∀ s d n, (w.requestFrom s d n).2 ≤ n) :
    (∀ n, (readIter w intBits sizeBits len n (readInit self a buf len s)).1.lenRemaining
          + (readIter w intBits sizeBits len n (readInit self a buf len s)).1.dataPointer
            = len ∧
        (readIter w intBits sizeBits len n (readInit self a buf len s)).1.totalread =
          toInt intBits
            ((readIter w intBits sizeBits len n (readInit self a buf len s)).1.dataPointer
              : Int) ∧
        ((len : Int) < intLimit intBits →
          ((readIter w intBits sizeBits len n (readInit self a buf len s)).1.lenRemaining
              : Int)
            + (readIter w intBits sizeBits len n (readInit self a buf len s)).1.totalread
              = len) ∧
        (readIter w intBits sizeBits len n (readInit self a buf len s)).1.nextAddress =
          (a + (readIter w intBits sizeBits len n (readInit self a buf len s)).1.dataPointer)
            % 65536) ∧
    (∀ n, (writeIter w intBits data len n (writeInit self a len s)).1.lenRemaining
          + (writeIter w intBits data len n (writeInit self a len s)).1.dataToWrite = len ∧
        (writeIter w intBits data len n (writeInit self a len s)).1.totalWritten =
          toInt intBits
            ((writeIter w intBits data len n (writeInit self a len s)).1.dataToWrite : Int) ∧
        ((len : Int) < intLimit intBits →
          ((writeIter w intBits data len n (writeInit self a len s)).1.lenRemaining : Int)
            + (writeIter w intBits data len n (writeInit self a len s)).1.totalWritten
              = len) ∧
        (writeIter w intBits data len n (writeInit self a len s)).1.nextAddress =
          (a + (writeIter w intBits data len n (writeInit self a len s)).1.dataToWrite)
            % 65536) ∧
    (∀ fuel fin, readLoop w intBits sizeBits len fuel (readInit self a buf len s) = some fin →
      ∃ n, readIter w intBits sizeBits len n (readInit self a buf len s) = (fin, false)) ∧
    (∃ n, writeIter w intBits data len n (writeInit self a len s) =
      (writeLoop w intBits data len (writeInit self a len s), false)) ∧
    (∀ fuel r, readBuffer w intBits sizeBits fuel self a buf len s = some r →
      r.ret ≤ (len : Int) ∧ ((len : Int) < intLimit intBits → 0 ≤ r.ret)) ∧
    ((writeBuffer w intBits self a data len s).ret ≤ (len : Int) ∧
      ((len : Int) < intLimit intBits → 0 ≤ (writeBuffer w intBits self a data len s).ret)) := by
  have hr0 : ReadTransferInv intBits a len (readInit self a buf len s) :=
    ⟨rfl, (toInt_zero intBits).symm, by simp [readInit]⟩
  have hw0 : WriteTransferInv intBits a len (writeInit self a len s) :=
    ⟨rfl, (toInt_zero intBits).symm, by simp [writeInit]⟩
  refine ⟨fun n => ?_, fun n => ?_, fun fuel fin h => readIter_of_readLoop _ intBits _ _ _ _ _ h,
    writeIter_of_writeLoop _ intBits _ _ _, fun fuel r hr => ?_, ?_⟩
  · obtain ⟨h1, h2, h3⟩ := readIter_transfer w intBits sizeBits a len hle n _ hr0
    refine ⟨h1, h2, fun hfit => ?_, h3⟩
    rw [h2]
    exact ((toInt_transferred intBits _ _ len h1).2 hfit).2.2
  · obtain ⟨h1, h2, h3⟩ := writeIter_transfer w intBits data a len n _ hw0
    refine ⟨h1, h2, fun hfit => ?_, h3⟩
    rw [h2]
    exact ((toInt_transferred intBits _ _ len h1).2 hfit).2.2
  · by_cases hlen : len = 0
    · subst hlen
      have h2 : readBuffer w intBits sizeBits fuel self a buf 0 s =
          some ⟨0, { self with lastError := ERR_OK }, s, buf, []⟩ := rfl
      rw [h2] at hr
      rw [← Option.some.inj hr]
      exact ⟨le_refl _, fun _ => le_refl _⟩
    · rw [readBuffer_eq w intBits sizeBits fuel self a buf len s hlen] at hr
      obtain ⟨fin, hfin, rfl⟩ := Option.map_eq_some'.1 hr
      obtain ⟨n, hn⟩ := readIter_of_readLoop _ intBits _ _ _ _ _ hfin
      obtain ⟨h1, h2, -⟩ := readIter_transfer w intBits sizeBits a len hle n _ hr0
      rw [hn] at h1 h2
      simp only at h1 h2 ⊢
      rw [h2]
      exact ⟨(toInt_transferred intBits _ _ len h1).1,
        fun hfit => ((toInt_transferred intBits _ _ len h1).2 hfit).2.1⟩
  · obtain ⟨n, hn⟩ := writeIter_of_writeLoop w intBits data len (writeInit self a len s)
    obtain ⟨h1, h2, -⟩ := writeIter_transfer w intBits data a len n _ hw0
    rw [hn] at h1 h2
    simp only at h1 h2
    rw [writeBuffer_ret, h2]
    exact ⟨(toInt_transferred intBits _ _ len h1).1,
      fun hfit => ((toInt_transferred intBits _ _ len h1).2 hfit).2.1⟩

/-- C16 as amended, on the memory device with a 16-bit `int`, whose requests deliver exactly
what is asked for: a transfer of 300 bytes returns a count between 0 and 300. -/
theorem transfer_state_invariant_witness :
    (0 < (AT24Cxxx.new 80 10 256 16).pageSize ∧
      (∀ (s : MemState) (d n : Nat), (memWire.requestFrom s d n).2 ≤ n) ∧
      ((300 : Nat) : Int) < intLimit 16) ∧
    (∀ fuel r, readBuffer memWire 16 16 fuel (AT24Cxxx.new 80 10 256 16) 10 (fun _ => 0) 300
        (MemState.blank 255) = some r → 0 ≤ r.ret ∧ r.ret ≤ ((300 : Nat) : Int)) ∧
    (0 ≤ (writeBuffer memWire 16 (AT24Cxxx.new 80 10 256 16) 10 (fun i => i) 300
        (MemState.blank 255)).ret ∧
      (writeBuffer memWire 16 (AT24Cxxx.new 80 10 256 16) 10 (fun i => i) 300
        (MemState.blank 255)).ret ≤ ((300 : Nat) : Int)) := by
  have key := (transfer_state_invariant memWire 16 16 (AT24Cxxx.new 80 10 256 16) 10
    (fun _ => 0) (fun i => i) 300 (MemState.blank 255) (by decide)
    (fun _ _ _ => le_refl _)).2.2.2.2
  have hfit : ((300 : Nat) : Int) < intLimit 16 := by decide
  exact ⟨⟨by decide, fun _ _ _ => le_refl _, hfit⟩,
    fun fuel r hr => ⟨(key.1 fuel r hr).2 hfit, (key.1 fuel r hr).1⟩,
    key.2.2 hfit, key.2.1⟩

/-- C16 as stated fails where `int` has 16 bits: a fault-free read of 32768 bytes ends at an
iteration boundary with nothing remaining and an `int` total of -32768, so that remaining
plus transferred is not the requested length, and the count returned is negative. -/
theorem transfer_state_total_wraps :
    (∀ (s : MemState) (d n : Nat), (memWire.requestFrom s d n).2 ≤ n) ∧
    ∃ fin n r,
      readIter memWire 16 16 32768 n
        (readInit (AT24Cxxx.new 80 10 65536 128) 0 (fun _ => 0) 32768 (MemState.blank 255))
        = (fin, false) ∧
      readBuffer memWire 16 16 32768 (AT24Cxxx.new 80 10 65536 128) 0 (fun _ => 0) 32768
        (MemState.blank 255) = some r ∧
      r.ret = fin.totalread ∧
      fin.lenRemaining = 0 ∧ fin.totalread = -32768 ∧
      (fin.lenRemaining : Int) + fin.totalread ≠ ((32768 : Nat) : Int) ∧ r.ret < 0 := by
  refine ⟨fun _ _ _ => le_refl _, ?_⟩
  obtain ⟨fin, hfin, htot, -, -, -, hrem, -⟩ := readLoop_faultFree memWire 16
    (fun s => s.rx.length) memWire_transactionsSucceed memWire_deliversAll 16 32768
    (AT24Cxxx.new 80 10 65536 128) 0 (fun _ => 0) 32768 (MemState.blank 255)
    (by decide) (le_refl _)
  obtain ⟨n, hn⟩ := readIter_of_readLoop _ _ _ _ _ _ _ hfin
  have hv : toInt 16 ((32768 : Nat) : Int) = -32768 := by decide
  rw [hv] at htot
  refine ⟨fin, n, ⟨fin.totalread, fin.self, fin.wire, fin.buf, fin.events⟩, hn, ?_, rfl, hrem,
    htot, ?_, ?_⟩
  · rw [readBuffer_eq _ _ _ _ _ _ _ _ _ (by decide), hfin]
    rfl
  · rw [hrem, htot]
    decide
  · show fin.totalread < 0
    rw [htot]
    decide

/-! ## The bytes received by a read (C15, C20) -/

@[simp] theorem received_nil : received [] = [] := rfl

@[simp] theorem received_append (a b : List Event) :
    received (a ++ b) = received a ++ received b := by
  simp [received, List.filterMap_append]

theorem writeAddress_received {σ : Type} (w : TwoWire σ) (self : AT24Cxxx) (address : Nat)
    (s : σ) : received (writeAddress w self address s).2 = [] :=
  rfl

theorem readHead_received {σ : Type} (w : TwoWire σ) (st : ReadState σ) :
    received (readHead w st) = received st.events := by
  rw [readHead]
  simp only [received_append, writeAddress_received]
  simp [received]

theorem readHead_statuses {σ : Type} (w : TwoWire σ) (st : ReadState σ) :
    statuses (readHead w st) = statuses st.events ++ [(readEnd w st).2] := by
  obtain ⟨r1, r2, h⟩ := writeAddress_events w st.self st.nextAddress st.wire
  rw [readHead, h]
  simp only [statuses_append]
  simp [statuses]

/-- The copy loop in full, on every bus: it appends `available` and `read` events only, the
number of bytes received is the advance of `i`, and the destination gets the received bytes,
in order, at the indices `base + i ..`, and is unchanged elsewhere. -/
theorem copyLoop_received {σ : Type} (w : TwoWire σ) (base k i : Nat) (s : σ)
    (buf : Nat → Nat) (ev : List Event) :
    ∃ xs, AllCopy xs ∧ (copyLoop w base k i s buf ev).events = ev ++ xs ∧
      i ≤ (copyLoop w base k i s buf ev).i ∧
      (received xs).length = (copyLoop w base k i s buf ev).i - i ∧
      ∀ x, (copyLoop w base k i s buf ev).buf x =
        if base + i ≤ x ∧ x < base + (copyLoop w base k i s buf ev).i then
          ((received xs).getD (x - (base + i)) 0 % 256).toNat
        else buf x := by
  induction k generalizing i s buf ev with
  | zero =>
    refine ⟨[], allCopy_nil, by simp [copyLoop], le_refl _, by simp [copyLoop], fun x => ?_⟩
    have : ¬ (base + i ≤ x ∧ x < base + (copyLoop w base 0 i s buf ev).i) := by
      show ¬ (base + i ≤ x ∧ x < base + i)
      omega
    rw [if_neg this]
    rfl
  | succ k ih =>
    rw [copyLoop_succ]
    split
    · obtain ⟨xs, hxs, hev, h1, h2, h3⟩ := ih (i + 1) (w.read (w.available s).1).1
        (Function.update buf (base + i) ((w.read (w.available s).1).2 % 256).toNat)
        (ev ++ [Event.available (w.available s).2, Event.read (w.read (w.available s).1).2])
      refine ⟨[Event.available (w.available s).2, Event.read (w.read (w.available s).1).2]
        ++ xs, allCopy_append (allCopy_pair _ _) hxs, ?_, by omega, ?_, fun x => ?_⟩
      · rw [hev]
        simp
      · rw [received_append]
        have : received [Event.available (w.available s).2,
            Event.read (w.read (w.available s).1).2] = [(w.read (w.available s).1).2] := rfl
        rw [this, List.length_append, h2]
        simp only [List.length_singleton]
        omega
      · rw [h3 x, received_append]
        have : received [Event.available (w.available s).2,
            Event.read (w.read (w.available s).1).2] = [(w.read (w.available s).1).2] := rfl
        rw [this]
        by_cases hx : x = base + i
        · subst hx
          rw [if_neg (by omega), if_pos (by omega), Function.update_same]
          simp
        · by_cases hin : base + (i + 1) ≤ x ∧ x <
              base + (copyLoop w base k (i + 1) (w.read (w.available s).1).1
                (Function.update buf (base + i) ((w.read (w.available s).1).2 % 256).toNat)
                (ev ++ [Event.available (w.available s).2,
                  Event.read (w.read (w.available s).1).2])).i
          · rw [if_pos hin, if_pos (by omega)]
            have : x - (base + i) = (x - (base + (i + 1))) + 1 := by omega
            rw [this]
            rfl
          · rw [if_neg hin, if_neg (by omega), Function.update_noteq hx]
    · refine ⟨[Event.available (w.available s).2], allCopy_available _, rfl, le_refl _,
        by simp [received], fun x => ?_⟩
      have : ¬ (base + i ≤ x ∧ x < base + i) := by omega
      rw [if_neg this]

/-- A property kept by the loop body of `readBuffer` and independent of the iteration counter
holds whenever the loop comes to an end. -/
theorem readLoop_invariant {σ : Type} (w : TwoWire σ) (intBits sizeBits len : Nat)
    (J : ReadState σ → Prop)
    (hbody : ∀ st, J st → J (readBody w intBits sizeBits st).1)
    (hcount : ∀ st n, J st → J { st with numberOfReads := n })
    (fuel : Nat) (st r : ReadState σ) (h : J st)
    (hr : readLoop w intBits sizeBits len fuel st = some r) : J r :=
  readLoop_partial w intBits sizeBits len J J
    (fun st hst _ => hbody st hst)
    (fun st hst _ _ => hbody st hst)
    (fun st hst _ _ _ => hcount _ _ (hbody st hst))
    (fun st hst _ _ _ => hcount _ _ (hbody st hst))
    fuel st r h hr

/-- What the copy loop of one iteration does, on every bus. -/
theorem readCopy_received {σ : Type} (w : TwoWire σ) (st : ReadState σ) :
    ∃ xs, AllCopy xs ∧ (readCopy w st).events = readHead w st ++ xs ∧
      (received xs).length = (readCopy w st).i ∧
      ∀ x, (readCopy w st).buf x =
        if st.dataPointer ≤ x ∧ x < st.dataPointer + (readCopy w st).i then
          ((received xs).getD (x - st.dataPointer) 0 % 256).toNat
        else st.buf x := by
  obtain ⟨xs, hxs, hev, -, hlen, hbuf⟩ := copyLoop_received w st.dataPointer
    (readRequest w st).2 0 (readRequest w st).1 st.buf (readHead w st)
  exact ⟨xs, hxs, hev, hlen, hbuf⟩

theorem readBody_frame {σ : Type} (w : TwoWire σ) (intBits sizeBits : Nat) (buf0 : Nat → Nat)
    (st : ReadState σ) (h : ReadFrameInv intBits buf0 st) :
    ReadFrameInv intBits buf0 (readBody w intBits sizeBits st).1 := by
  obtain ⟨htot, hlen, hbuf⟩ := h
  by_cases he : (readEnd w st).2 % 256 = 0
  · obtain ⟨xs, hxs, hev, hrl, hcb⟩ := readCopy_received w st
    rw [readBody_of_ok w intBits sizeBits st he]
    have hrec : received (readCopy w st).events = received st.events ++ received xs := by
      rw [hev, received_append, readHead_received]
    refine ⟨?_, ?_, fun x => ?_⟩
    · show toInt intBits (st.totalread + ((readCopy w st).i : Int))
        = toInt intBits ((st.dataPointer + (readCopy w st).i : Nat) : Int)
      rw [htot, toInt_count]
    · show (received (readCopy w st).events).length = st.dataPointer + (readCopy w st).i
      rw [hrec, List.length_append, hlen, hrl]
    · show (readCopy w st).buf x = if x < st.dataPointer + (readCopy w st).i then
        ((received (readCopy w st).events).getD x 0 % 256).toNat else buf0 x
      rw [hcb x, hrec]
      by_cases h1 : x < st.dataPointer
      · rw [if_neg (by omega), if_pos (by omega), hbuf x, if_pos h1,
          List.getD_append _ _ _ _ (by omega)]
      · by_cases h2 : x < st.dataPointer + (readCopy w st).i
        · rw [if_pos ⟨by omega, h2⟩, if_pos h2,
            List.getD_append_right _ _ _ _ (by omega), hlen]
        · rw [if_neg (by omega), if_neg h2, hbuf x, if_neg h1]
  · rw [readBody_of_error w intBits sizeBits st he]
    refine ⟨htot, ?_, fun x => ?_⟩
    · show (received (st.events ++ (writeAddress w st.self st.nextAddress st.wire).2 ++
        [Event.endTransmission (readEnd w st).2])).length = st.dataPointer
      simp only [received_append, writeAddress_received, List.append_nil]
      simpa [received] using hlen
    · show st.buf x = if x < st.dataPointer then
        ((received (st.events ++ (writeAddress w st.self st.nextAddress st.wire).2 ++
          [Event.endTransmission (readEnd w st).2])).getD x 0 % 256).toNat else buf0 x
      have : received (st.events ++ (writeAddress w st.self st.nextAddress st.wire).2 ++
          [Event.endTransmission (readEnd w st).2]) = received st.events := by
        simp only [received_append, writeAddress_received, List.append_nil]
        simp [received]
      rw [this]
      exact hbuf x

/-- C20, as amended. For every bus behaviour, address and length: when `readBuffer`
returns, with `n` the number of bytes it has received from the bus, it has stored them, in
the order received, at the destination indices `0 .. n - 1`; every destination byte at an
index `≥ n` is unchanged; and the value returned is `n` converted to `int`, which is `n`
itself when `n` is below `2^(intBits-1)`.  (`readBuffer` returns on every bus when
`len ≤ 255` and the fuel is at least `len`.) -/
theorem readBuffer_frame {σ : Type} (w : TwoWire σ) (intBits sizeBits fuel : Nat)
    (self : AT24Cxxx) (address : Nat) (buf : Nat → Nat) (len : Nat) (s : σ) :
    (∀ r, readBuffer w intBits sizeBits fuel self address buf len s = some r →
      r.ret = toInt intBits ((received r.events).length : Int) ∧
      (((received r.events).length : Int) < intLimit intBits →
        r.ret = ((received r.events).length : Int)) ∧
      (∀ x, x < (received r.events).length →
        r.buf x = ((received r.events).getD x 0 % 256).toNat) ∧
      (∀ x, (received r.events).length ≤ x → r.buf x = buf x)) ∧
    (len ≤ 255 → len ≤ fuel →
      ∃ r, readBuffer w intBits sizeBits fuel self address buf len s = some r) := by
  refine ⟨fun r hr => ?_,
    readBuffer_returns_of_le_255 w intBits sizeBits fuel self address buf len s⟩
  have hfits : r.ret = toInt intBits ((received r.events).length : Int) →
      ((received r.events).length : Int) < intLimit intBits →
      r.ret = ((received r.events).length : Int) := by
    intro h hfit
    have hp := intLimit_pos intBits
    rw [h, toInt_of_fits intBits _ (by omega) hfit]
  by_cases hlen : len = 0
  · subst hlen
    have h2 : readBuffer w intBits sizeBits fuel self address buf 0 s =
        some ⟨0, { self with lastError := ERR_OK }, s, buf, []⟩ := rfl
    rw [h2] at hr
    rw [← Option.some.inj hr]
    exact ⟨(toInt_zero intBits).symm, fun _ => rfl, fun x hx => by simp at hx, fun x _ => rfl⟩
  · rw [readBuffer_eq w intBits sizeBits fuel self address buf len s hlen] at hr
    obtain ⟨fin, hfin, rfl⟩ := Option.map_eq_some'.1 hr
    obtain ⟨htot, hl, hbuf⟩ := readLoop_invariant w intBits sizeBits len
      (ReadFrameInv intBits buf) (readBody_frame w intBits sizeBits buf) (fun st n h => h)
      fuel _ fin ⟨(toInt_zero intBits).symm, rfl, fun x => by simp [readInit]⟩ hfin
    have hret : fin.totalread = toInt intBits ((received fin.events).length : Int) := by
      rw [htot, hl]
    refine ⟨hret, hfits hret, fun x hx => ?_, fun x hx => ?_⟩
    · simp only at hx ⊢
      rw [hbuf x, if_pos (by omega)]
    · simp only at hx ⊢
      rw [hbuf x, if_neg (by omega)]

/-- C20 as amended, on the memory device with a 16-bit `int`, every cell holding 255: a read
of 3 bytes into a destination holding 0 returns 3 with three bytes received, indices 0..2 set
to 255 and index 3 left at 0. -/
theorem readBuffer_frame_witness :
    ∃ r, readBuffer memWire 16 16 3 (AT24Cxxx.new 80 10 256 16) 0 (fun _ => 0) 3
        (MemState.blank 255) = some r ∧
      received r.events = [255, 255, 255] ∧ r.ret = 3 ∧ r.buf 2 = 255 ∧ r.buf 3 = 0 := by
  have hs : (readBuffer memWire 16 16 3 (AT24Cxxx.new 80 10 256 16) 0 (fun _ => 0) 3
      (MemState.blank 255)).map (fun r => received r.events) = some [255, 255, 255] := by
    decide
  obtain ⟨r, hr, hrec⟩ := Option.map_eq_some'.1 hs
  obtain ⟨-, h1, h2, h3⟩ := (readBuffer_frame memWire 16 16 3 (AT24Cxxx.new 80 10 256 16) 0
    (fun _ => 0) 3 (MemState.blank 255)).1 r hr
  rw [hrec] at h1 h2 h3
  exact ⟨r, hr, hrec, h1 (by decide), h2 2 (by decide), h3 3 (by decide)⟩

/-- C20 as stated fails where `int` has 16 bits: a read of 32768 bytes from the memory
device, every cell holding 255, into a destination holding 0 returns -32768; index 0 is not
below the value returned, yet the byte there has changed to 255. -/
theorem readBuffer_frame_return_wraps :
    ∃ r, readBuffer memWire 16 16 32768 (AT24Cxxx.new 80 10 65536 128) 0 (fun _ => 0) 32768
        (MemState.blank 255) = some r ∧
      r.ret = -32768 ∧ r.ret ≤ ((0 : Nat) : Int) ∧ r.buf 0 = 255 ∧
      r.buf 0 ≠ (fun _ : Nat => (0 : Nat)) 0 := by
  obtain ⟨r, hr, hret, -, hbuf⟩ := readBuffer_memWire 16 16 32768
    (AT24Cxxx.new 80 10 65536 128) 0 (fun _ => 0) 32768 (MemState.blank 255) (by decide)
    (le_refl _)
  have hv : toInt 16 ((32768 : Nat) : Int) = -32768 := by decide
  rw [hv] at hret
  have h0 : r.buf 0 = 255 := hbuf 0 (by decide)
  refine ⟨r, hr, hret, ?_, h0, ?_⟩
  · rw [hret]
    decide
  · rw [h0]
    decide

/-! ## The scripted bus -/

theorem scriptWire_readEnd (accept : Nat) (deliver : Nat → Nat) (st : ReadState ScriptState) :
    (readEnd (scriptWire accept deliver) st).2 = st.wire.script.headD 0 :=
  rfl

theorem scriptWire_copyLoop_script (accept : Nat) (deliver : Nat → Nat) (base k i : Nat)
    (s : ScriptState) (buf : Nat → Nat) (ev : List Event) :
    (copyLoop (scriptWire accept deliver) base k i s buf ev).wire.script = s.script := by
  induction k generalizing i s buf ev with
  | zero => rfl
  | succ k ih =>
    rw [copyLoop_succ]
    split
    · rw [ih]
      rfl
    · rfl

/-- An iteration of `readBuffer` on the scripted bus uses up one status of the script. -/
theorem scriptWire_readBody_script (accept : Nat) (deliver : Nat → Nat)
    (intBits sizeBits : Nat) (st : ReadState ScriptState) :
    (readBody (scriptWire accept deliver) intBits sizeBits st).1.wire.script =
      st.wire.script.tail := by
  rw [readBody_eq]
  split
  · rfl
  · show (readCopy (scriptWire accept deliver) st).wire.script = _
    rw [readCopy, scriptWire_copyLoop_script]
    rfl

theorem scriptWire_deliversAll (accept : Nat) :
    DeliversAll (scriptWire accept fun n => n) (fun s => s.pending) where
  request_ret _ _ _ := rfl
  request_pending _ _ _ := rfl
  available_ret s := by
    show ((s.pending : Int) ≠ 0) ↔ 0 < s.pending
    omega
  available_pending _ := rfl
  read_pending _ := rfl

theorem scriptWire_acceptsEveryByte (deliver : Nat → Nat) :
    AcceptsEveryByte (scriptWire 1 deliver) :=
  fun _ _ => rfl

theorem scriptWire_queueLoop_wire (accept : Nat) (deliver : Nat → Nat) (data : Nat → Nat)
    (k written : Nat) (s : ScriptState) (ev : List Event) :
    (queueLoop (scriptWire accept deliver) data k written s ev).1 = s := by
  induction k generalizing written ev with
  | zero => rfl
  | succ k ih =>
    simp only [queueLoop]
    split
    · rfl
    · exact ih _ _

/-- A raw write on the scripted bus ends with the first status of the script and uses it
up. -/
theorem scriptWire_writeCall (accept : Nat) (deliver : Nat → Nat) (data : Nat → Nat)
    (st : WriteState ScriptState) :
    (writeCall (scriptWire accept deliver) data st).self.lastError =
        st.wire.script.headD 0 % 256 ∧
      (writeCall (scriptWire accept deliver) data st).wire.script = st.wire.script.tail := by
  constructor
  · simp only [writeCall, rawWriteBuffer, scriptWire_queueLoop_wire]
    rfl
  · simp only [writeCall, rawWriteBuffer, scriptWire_queueLoop_wire]
    rfl

/-- A script of `j + 1` successes followed by the status `e`: its first status and its
rest. -/
theorem script_head (j e : Nat) :
    (List.replicate (j + 1) 0 ++ [e]).headD 0 = 0 ∧
      (List.replicate (j + 1) 0 ++ [e]).tail = List.replicate j 0 ++ [e] := by
  rw [List.replicate_succ]
  exact ⟨rfl, rfl⟩

/-! ## C15: a read stops at the first failed address phase -/

theorem readBody_break_iff {σ : Type} (w : TwoWire σ) (intBits sizeBits : Nat)
    (st : ReadState σ) :
    (readBody w intBits sizeBits st).2 = true ↔ (readEnd w st).2 % 256 ≠ 0 := by
  by_cases h : (readEnd w st).2 % 256 = 0
  · rw [readBody_of_ok w intBits sizeBits st h]
    simp [h]
  · rw [readBody_of_error w intBits sizeBits st h]
    simp [h]

theorem readBody_err_ok {σ : Type} (w : TwoWire σ) (intBits sizeBits : Nat) (st : ReadState σ)
    (h : ReadErrInv intBits st) (hb : (readBody w intBits sizeBits st).2 = false) :
    ReadErrInv intBits (readBody w intBits sizeBits st).1 := by
  obtain ⟨hall, htot, hreq⟩ := h
  have he : (readEnd w st).2 % 256 = 0 := by
    by_contra hne
    rw [(readBody_break_iff w intBits sizeBits st).2 hne] at hb
    cases hb
  obtain ⟨xs, hxs, hev, hrl, -⟩ := readCopy_received w st
  rw [readBody_of_ok w intBits sizeBits st he]
  refine ⟨?_, ?_, ?_⟩
  · intro x hx
    change x ∈ statuses (readCopy w st).events at hx
    rw [hev, statuses_append, allCopy_statuses hxs, List.append_nil, readHead_statuses] at hx
    rcases List.mem_append.1 hx with h1 | h1
    · exact hall x h1
    · simp only [List.mem_singleton] at h1
      rw [h1]
      exact he
  · show toInt intBits (st.totalread + ((readCopy w st).i : Int))
      = toInt intBits ((received (readCopy w st).events).length : Int)
    rw [hev, received_append, readHead_received, List.length_append, hrl, htot, toInt_count]
  · show (requests (readCopy w st).events).length = (statuses (readCopy w st).events).length
    rw [hev, statuses_append, requests_append, allCopy_statuses hxs, allCopy_requests hxs,
      readHead_statuses, readHead_requests]
    simp [hreq]

/-- A turn of the loop of `readBuffer` after which the loop goes on: the body did not
`break`, and the counter was stepped. -/
theorem readStep_running {σ : Type} (w : TwoWire σ) (intBits sizeBits len : Nat)
    (st : ReadState σ) (h : (readStep w intBits sizeBits len st).2 = true) :
    (readBody w intBits sizeBits st).2 = false ∧
    (readStep w intBits sizeBits len st).1 =
      { (readBody w intBits sizeBits st).1 with
        numberOfReads := ((readBody w intBits sizeBits st).1.numberOfReads + 1) % 256 } := by
  simp only [readStep] at h ⊢
  by_cases h1 : (readBody w intBits sizeBits st).2 = true
  · simp [h1] at h
  · by_cases h2 : 0 < (readBody w intBits sizeBits st).1.lenRemaining
    · simp [h1, h2]
    · simp [h1, h2] at h

/-- The state at an iteration boundary of `readBuffer` where the loop is still running,
after `n` turns: every address phase so far ended with success, there were `n` of them, and
the rest of the run is the run of the loop from that state. -/
theorem readIter_running {σ : Type} (w : TwoWire σ) (intBits sizeBits len n : Nat)
    (st S : ReadState σ) (hI : ReadErrInv intBits st)
    (h : readIter w intBits sizeBits len n st = (S, true)) :
    ReadErrInv intBits S ∧
    (statuses S.events).length = (statuses st.events).length + n ∧
    ∀ fuel, readLoop w intBits sizeBits len (n + fuel) st =
      readLoop w intBits sizeBits len fuel S := by
  induction n generalizing st with
  | zero =>
    have hS : st = S := congrArg Prod.fst h
    subst hS
    exact ⟨hI, rfl, fun fuel => by rw [Nat.zero_add]⟩
  | succ n ih =>
    simp only [readIter] at h
    by_cases hs : (readStep w intBits sizeBits len st).2 = true
    · rw [if_pos hs] at h
      obtain ⟨hb, hst⟩ := readStep_running w intBits sizeBits len st hs
      have hI2 : ReadErrInv intBits (readStep w intBits sizeBits len st).1 := by
        rw [hst]
        exact readBody_err_ok w intBits sizeBits st hI hb
      have hlen : (statuses (readStep w intBits sizeBits len st).1.events).length =
          (statuses st.events).length + 1 := by
        rw [hst]
        show (statuses (readBody w intBits sizeBits st).1.events).length = _
        rw [(readBody_statuses w intBits sizeBits st).1, List.length_append]
        rfl
      obtain ⟨h1, h2, h3⟩ := ih _ hI2 h
      refine ⟨h1, by rw [h2, hlen]; omega, fun fuel => ?_⟩
      have hf : n + 1 + fuel = (n + fuel) + 1 := by omega
      rw [hf, readLoop_succ_step, if_pos hs, h3]
    · rw [if_neg hs] at h
      exact absurd (congrArg Prod.snd h) hs

/-- C15, as amended. For every bus behaviour, every `len ≥ 1` and every `k ≥ 1`: if the loop
of `readBuffer` is still running after `k - 1` iterations and the address phase of the `k`-th
iteration ends with a non-success status `e`, then with any fuel of at least `k` the call
returns; its events are those of the first `k - 1` iterations, then the address phase of the
`k`-th, ending with that `endTransmission`, so no request and no further transaction follows
it; the address phases of iterations `1 .. k-1` ended with success and `k - 1` requests were
made; the bytes received are those of iterations `1 .. k-1`; the return value is their
number converted to `int` (the number itself when it is below `2^(intBits-1)`); and
`getLastError()` is `e` (as stored in the `uint8_t` field). -/
theorem readBuffer_error_short_circuit {σ : Type} (w : TwoWire σ)
    (intBits sizeBits fuel : Nat) (self : AT24Cxxx) (address : Nat) (buf : Nat → Nat)
    (len : Nat) (s : σ) (k e : Nat)
    (hlen : 1 ≤ len) (hk : 1 ≤ k) (hfuel : k ≤ fuel)
    (hrun : (readIter w intBits sizeBits len (k - 1)
      (readInit self address buf len s)).2 = true)
    (hend : (readEnd w (readIter w intBits sizeBits len (k - 1)
      (readInit self address buf len s)).1).2 = e)
    (he : e % 256 ≠ 0) :
    ∃ r, readBuffer w intBits sizeBits fuel self address buf len s = some r ∧
      r.events = (readIter w intBits sizeBits len (k - 1)
          (readInit self address buf len s)).1.events ++
        (writeAddress w
          (readIter w intBits sizeBits len (k - 1) (readInit self address buf len s)).1.self
          (readIter w intBits sizeBits len (k - 1)
            (readInit self address buf len s)).1.nextAddress
          (readIter w intBits sizeBits len (k - 1) (readInit self address buf len s)).1.wire).2
        ++ [Event.endTransmission e] ∧
      (statuses r.events).length = k ∧
      (statuses r.events)[k - 1]? = some e ∧
      (∀ x ∈ (statuses r.events).take (k - 1), x % 256 = 0) ∧
      (requests r.events).length = k - 1 ∧
      received r.events = received (readIter w intBits sizeBits len (k - 1)
        (readInit self address buf len s)).1.events ∧
      r.ret = toInt intBits ((received r.events).length : Int) ∧
      (((received r.events).length : Int) < intLimit intBits →
        r.ret = ((received r.events).length : Int)) ∧
      getLastError r.self = e % 256 ∧ (e < 256 → getLastError r.self = e) := by
  obtain ⟨S, hS⟩ : ∃ S, readIter w intBits sizeBits len (k - 1)
      (readInit self address buf len s) = (S, true) := ⟨_, Prod.ext rfl hrun⟩
  rw [hS] at hend ⊢
  simp only at hend ⊢
  have hI0 : ReadErrInv intBits (readInit self address buf len s) :=
    ⟨fun x hx => by simp [readInit] at hx, (toInt_zero intBits).symm, rfl⟩
  obtain ⟨⟨hall, htot, hreq⟩, hcount, hloop⟩ :=
    readIter_running w intBits sizeBits len (k - 1) _ S hI0 hS
  have hcount2 : (statuses S.events).length = k - 1 := by
    rw [hcount]
    simp [readInit]
  have hne : (readEnd w S).2 % 256 ≠ 0 := by
    rw [hend]
    exact he
  obtain ⟨f, hf⟩ : ∃ f, fuel = (k - 1) + (f + 1) := ⟨fuel - k, by omega⟩
  have hfin : readLoop w intBits sizeBits len fuel (readInit self address buf len s) =
      some (readBody w intBits sizeBits S).1 := by
    rw [hf, hloop, readLoop_succ, if_pos ((readBody_break_iff w intBits sizeBits S).2 hne)]
  obtain ⟨r1, r2, hwa⟩ := writeAddress_events w S.self S.nextAddress S.wire
  have hev : (readBody w intBits sizeBits S).1.events =
      S.events ++ (writeAddress w S.self S.nextAddress S.wire).2 ++
        [Event.endTransmission e] := by
    rw [readBody_of_error w intBits sizeBits S hne, hend]
  have htr : (readBody w intBits sizeBits S).1.totalread = S.totalread := by
    rw [readBody_of_error w intBits sizeBits S hne]
  obtain ⟨hsts, herr⟩ := readBody_statuses w intBits sizeBits S
  rw [hend] at hsts herr
  have hrq : requests (readBody w intBits sizeBits S).1.events = requests S.events := by
    rw [hev, requests_append, requests_append, hwa]
    simp [requests]
  have hrc : received (readBody w intBits sizeBits S).1.events = received S.events := by
    rw [hev]
    simp only [received_append, writeAddress_received, List.append_nil]
    simp [received]
  have hret : (readBody w intBits sizeBits S).1.totalread =
      toInt intBits ((received (readBody w intBits sizeBits S).1.events).length : Int) := by
    rw [htr, hrc, htot]
  have hp := intLimit_pos intBits
  refine ⟨⟨(readBody w intBits sizeBits S).1.totalread, (readBody w intBits sizeBits S).1.self,
    (readBody w intBits sizeBits S).1.wire, (readBody w intBits sizeBits S).1.buf,
    (readBody w intBits sizeBits S).1.events⟩, ?_, hev, ?_, ?_, ?_, ?_, hrc, hret, ?_, herr,
    fun hlt => ?_⟩
  · rw [readBuffer_eq w intBits sizeBits fuel self address buf len s (by omega), hfin]
    rfl
  · show (statuses (readBody w intBits sizeBits S).1.events).length = k
    rw [hsts, List.length_append, hcount2]
    simp only [List.length_singleton]
    omega
  · show (statuses (readBody w intBits sizeBits S).1.events)[k - 1]? = some e
    rw [hsts, List.getElem?_append_right (by omega), hcount2]
    simp
  · show ∀ x ∈ (statuses (readBody w intBits sizeBits S).1.events).take (k - 1), x % 256 = 0
    rw [hsts, ← hcount2, List.take_left]
    exact hall
  · show (requests (readBody w intBits sizeBits S).1.events).length = k - 1
    rw [hrq, hreq, hcount2]
  · intro hfit
    show (readBody w intBits sizeBits S).1.totalread = _
    rw [hret, toInt_of_fits intBits _ (by omega) hfit]
  · show (readBody w intBits sizeBits S).1.self.lastError = e
    rw [herr]
    exact Nat.mod_eq_of_lt hlt

/-- C15 as amended, on a bus whose second transaction ends with address-NACK and whose
requests deliver one byte each, with a 16-bit `int`: a read of 3 bytes returns 1 with
`ERR_NACK`, after one request. -/
theorem readBuffer_error_short_circuit_witness :
    (1 ≤ 3 ∧ 1 ≤ 2 ∧ 2 ≤ 3 ∧
      (readIter (scriptWire 1 fun n => min n 1) 16 16 3 (2 - 1)
        (readInit (AT24Cxxx.new 80 10 256 16) 0 (fun _ => 0) 3 ⟨[0, 2], 0⟩)).2 = true ∧
      (readEnd (scriptWire 1 fun n => min n 1)
        (readIter (scriptWire 1 fun n => min n 1) 16 16 3 (2 - 1)
          (readInit (AT24Cxxx.new 80 10 256 16) 0 (fun _ => 0) 3 ⟨[0, 2], 0⟩)).1).2 = 2 ∧
      2 % 256 ≠ 0) ∧
    ∃ r, readBuffer (scriptWire 1 fun n => min n 1) 16 16 3 (AT24Cxxx.new 80 10 256 16) 0
        (fun _ => 0) 3 ⟨[0, 2], 0⟩ = some r ∧
      (requests r.events).length = 1 ∧ r.ret = 1 ∧ getLastError r.self = ERR_NACK := by
  have hrun : (readIter (scriptWire 1 fun n => min n 1) 16 16 3 (2 - 1)
      (readInit (AT24Cxxx.new 80 10 256 16) 0 (fun _ => 0) 3 ⟨[0, 2], 0⟩)).2 = true := by
    decide
  have hend : (readEnd (scriptWire 1 fun n => min n 1)
      (readIter (scriptWire 1 fun n => min n 1) 16 16 3 (2 - 1)
        (readInit (AT24Cxxx.new 80 10 256 16) 0 (fun _ => 0) 3 ⟨[0, 2], 0⟩)).1).2 = 2 := by
    decide
  have hs : (readBuffer (scriptWire 1 fun n => min n 1) 16 16 3 (AT24Cxxx.new 80 10 256 16) 0
      (fun _ => 0) 3 ⟨[0, 2], 0⟩).map (fun r => received r.events) = some [0] := by decide
  obtain ⟨r, hr, -, -, -, -, h5, -, -, h8, h9, -⟩ := readBuffer_error_short_circuit
    (scriptWire 1 fun n => min n 1) 16 16 3 (AT24Cxxx.new 80 10 256 16) 0 (fun _ => 0) 3
    ⟨[0, 2], 0⟩ 2 2 (by decide) (by decide) (by decide) hrun hend (by decide)
  rw [hr] at hs
  have hrc : received r.events = [0] := Option.some.inj hs
  rw [hrc] at h8
  exact ⟨⟨by decide, by decide, by decide, hrun, hend, by decide⟩, r, hr, h5,
    h8 (by decide), h9⟩

/-- C15 as stated fails where `int` has 16 bits: on a bus that delivers every byte asked for
and whose 130th transaction ends with address-NACK, in a read of 32896 bytes the address
phases of iterations 1..129 end with success and 32895 bytes are copied in them, the 130th
ends with status 2, and the call returns -32641, not 32895. -/
theorem readBuffer_error_return_wraps :
    ∃ r, readBuffer (scriptWire 1 fun n => n) 16 16 130 (AT24Cxxx.new 80 10 65536 128) 0
        (fun _ => 0) 32896 ⟨List.replicate 129 0 ++ [2], 0⟩ = some r ∧
      statuses r.events = List.replicate 129 0 ++ [2] ∧
      (received r.events).length = 32895 ∧
      r.ret = -32641 ∧ r.ret ≠ ((32895 : Nat) : Int) ∧ getLastError r.self = ERR_NACK := by
  have hD := scriptWire_deliversAll 1
  have hstep : ∀ (st : ReadState ScriptState) (m : Nat), m < 129 →
      st.wire.script = List.replicate (129 - m) 0 ++ [2] →
      st.lenRemaining = 32896 - 255 * m →
      (readBody (scriptWire 1 fun n => n) 16 16 st).2 = false ∧
      (readBody (scriptWire 1 fun n => n) 16 16 st).1.dataPointer = st.dataPointer + 255 ∧
      (readBody (scriptWire 1 fun n => n) 16 16 st).1.lenRemaining = 32896 - 255 * (m + 1) ∧
      (readBody (scriptWire 1 fun n => n) 16 16 st).1.wire.script = List.replicate (129 - (m + 1)) 0 ++ [2] ∧
      statuses (readBody (scriptWire 1 fun n => n) 16 16 st).1.events = statuses st.events ++ [0] := by
    intro st m hm hsc hrem
    have h129 : 129 - m = (129 - (m + 1)) + 1 := by omega
    rw [h129] at hsc
    obtain ⟨hh, ht⟩ := script_head (129 - (m + 1)) 2
    have hend : (readEnd (scriptWire 1 fun n => n) st).2 = 0 := by
      rw [scriptWire_readEnd, hsc, hh]
    obtain ⟨hb, -, hdp, hlr, -, -, -, -⟩ := readBody_deliversAll (scriptWire 1 fun n => n) 16
      (fun s => s.pending) hD 16 st (by rw [hend])
    have hmin : min st.lenRemaining 255 = 255 := by omega
    refine ⟨hb, by rw [hdp, hmin], by rw [hlr, hmin, hrem]; omega,
      by rw [scriptWire_readBody_script, hsc, ht], ?_⟩
    rw [(readBody_statuses (scriptWire 1 fun n => n) 16 16 st).1, hend]
  have hlast : ∀ (st : ReadState ScriptState), st.wire.script = [2] →
      (readBody (scriptWire 1 fun n => n) 16 16 st).2 = true ∧
      (readBody (scriptWire 1 fun n => n) 16 16 st).1.dataPointer = st.dataPointer ∧
      statuses (readBody (scriptWire 1 fun n => n) 16 16 st).1.events = statuses st.events ++ [2] ∧
      (readBody (scriptWire 1 fun n => n) 16 16 st).1.self.lastError = 2 := by
    intro st hsc
    have hend : (readEnd (scriptWire 1 fun n => n) st).2 = 2 := by
      rw [scriptWire_readEnd, hsc]
      rfl
    have hne : (readEnd (scriptWire 1 fun n => n) st).2 % 256 ≠ 0 := by
      rw [hend]
      decide
    refine ⟨(readBody_break_iff (scriptWire 1 fun n => n) 16 16 st).2 hne,
      by rw [readBody_of_error (scriptWire 1 fun n => n) 16 16 st hne], ?_, ?_⟩
    · rw [(readBody_statuses (scriptWire 1 fun n => n) 16 16 st).1, hend]
    · rw [(readBody_statuses (scriptWire 1 fun n => n) 16 16 st).2, hend]
  obtain ⟨fin, hfin, ⟨htot, hl, -⟩, hdp, hsts, herr⟩ := readLoop_rule (scriptWire 1 fun n => n) 16 16 32896
    (fun st => ReadFrameInv 16 (fun _ => 0) st ∧ ∃ m, m ≤ 129 ∧ st.numberOfReads = m ∧
      st.wire.script = List.replicate (129 - m) 0 ++ [2] ∧ st.dataPointer = 255 * m ∧
      st.lenRemaining = 32896 - 255 * m ∧ statuses st.events = List.replicate m 0)
    (fun r => ReadFrameInv 16 (fun _ => 0) r ∧ r.dataPointer = 32895 ∧
      statuses r.events = List.replicate 129 0 ++ [2] ∧ r.self.lastError = 2)
    (fun st => 130 - st.numberOfReads)
    (by
      rintro st ⟨-, m, hm, hn, -⟩
      show 0 < 130 - st.numberOfReads
      omega)
    (by
      rintro st ⟨hF, m, hm, hn, hsc, hdp, hrem, hsts⟩ hb
      rcases Nat.lt_or_ge m 129 with hlt | hge
      · rw [(hstep st m hlt hsc hrem).1] at hb
        cases hb
      · have hm129 : m = 129 := by omega
        subst hm129
        obtain ⟨-, h2, h3, h4⟩ := hlast st (by rw [hsc]; rfl)
        exact ⟨readBody_frame (scriptWire 1 fun n => n) 16 16 _ st hF, by rw [h2, hdp], by rw [h3, hsts], h4⟩)
    (by
      rintro st ⟨hF, m, hm, hn, hsc, hdp, hrem, hsts⟩ hb hz
      rcases Nat.lt_or_ge m 129 with hlt | hge
      · exfalso
        apply hz
        rw [(hstep st m hlt hsc hrem).2.2.1]
        omega
      · have hm129 : m = 129 := by omega
        subst hm129
        rw [(hlast st (by rw [hsc]; rfl)).1] at hb
        cases hb)
    (by
      rintro st ⟨hF, m, hm, hn, hsc, hdp, hrem, hsts⟩ hb _ hc
      rcases Nat.lt_or_ge m 129 with hlt | hge
      · exfalso
        apply hc
        rw [readBody_numberOfReads, hn]
        omega
      · have hm129 : m = 129 := by omega
        subst hm129
        rw [(hlast st (by rw [hsc]; rfl)).1] at hb
        cases hb)
    (by
      rintro st ⟨hF, m, hm, hn, hsc, hdp, hrem, hsts⟩ hb _ _
      rcases Nat.lt_or_ge m 129 with hlt | hge
      · obtain ⟨-, h2, h3, h4, h5⟩ := hstep st m hlt hsc hrem
        have hnr := readBody_numberOfReads (scriptWire 1 fun n => n) 16 16 st
        refine ⟨⟨readBody_frame (scriptWire 1 fun n => n) 16 16 _ st hF, m + 1, by omega, ?_, h4, ?_, h3, ?_⟩, ?_⟩
        · show ((readBody (scriptWire 1 fun n => n) 16 16 st).1.numberOfReads + 1) % 256 = m + 1
          rw [hnr, hn]
          omega
        · show (readBody (scriptWire 1 fun n => n) 16 16 st).1.dataPointer = 255 * (m + 1)
          rw [h2, hdp]
          omega
        · show statuses (readBody (scriptWire 1 fun n => n) 16 16 st).1.events = List.replicate (m + 1) 0
          rw [h5, hsts, List.replicate_succ']
        · show 130 - ((readBody (scriptWire 1 fun n => n) 16 16 st).1.numberOfReads + 1) % 256
            < 130 - st.numberOfReads
          rw [hnr, hn]
          omega
      · have hm129 : m = 129 := by omega
        subst hm129
        rw [(hlast st (by rw [hsc]; rfl)).1] at hb
        cases hb)
    130 (readInit (AT24Cxxx.new 80 10 65536 128) 0 (fun _ => 0) 32896
      ⟨List.replicate 129 0 ++ [2], 0⟩)
    ⟨⟨(toInt_zero 16).symm, rfl, fun x => by simp [readInit]⟩, 0, by omega, rfl, rfl, rfl,
      rfl, rfl⟩
    (le_refl _)
  have hv : toInt 16 ((32895 : Nat) : Int) = -32641 := by decide
  rw [hdp, hv] at htot
  refine ⟨⟨fin.totalread, fin.self, fin.wire, fin.buf, fin.events⟩, ?_, hsts, ?_, htot, ?_,
    herr⟩
  · rw [readBuffer_eq _ _ _ _ _ _ _ _ _ (by decide), hfin]
    rfl
  · show (received fin.events).length = 32895
    rw [hl, hdp]
  · show fin.totalread ≠ _
    rw [htot]
    decide

/-! ## Reads on a bus with short deliveries (C14) -/

@[simp] theorem deliveries_nil : deliveries [] = [] := rfl

@[simp] theorem deliveries_append (a b : List Event) :
    deliveries (a ++ b) = deliveries a ++ deliveries b := by
  simp [deliveries, List.filterMap_append]

theorem allCopy_deliveries {xs : List Event} (h : AllCopy xs) : deliveries xs = [] := by
  induction xs with
  | nil => rfl
  | cons e t ih =>
    rcases h _ (List.mem_cons_self _ _) with ⟨r, rfl⟩ | ⟨r, rfl⟩ <;>
      simpa [AT24C.deliveries] using ih (allCopy_tail h)

theorem readHead_deliveries {σ : Type} (w : TwoWire σ) (st : ReadState σ) :
    deliveries (readHead w st) = deliveries st.events ++ [(readRequest w st).2] := by
  obtain ⟨r1, r2, h⟩ := writeAddress_events w st.self st.nextAddress st.wire
  rw [readHead, h]
  simp only [deliveries_append]
  simp [deliveries]

theorem cursors_snoc (a : Nat) (ds : List Nat) (k : Nat) :
    cursors a (ds ++ [k]) = cursors a ds ++ [(a + ds.sum) % 65536] := by
  simp only [cursors, List.length_append, List.length_singleton, List.range_succ,
    List.map_append, List.map_cons, List.map_nil]
  congr 1
  · apply List.map_congr_left
    intro j hj
    have hj2 := List.mem_range.1 hj
    rw [List.take_append_of_le_length (Nat.le_of_lt hj2)]
  · rw [List.take_left']
    rfl

theorem copyLoop_some {σ : Type} (w : TwoWire σ) (pending : σ → Nat)
    (hw : DeliversSome w pending) (base k i : Nat) (s : σ) (buf : Nat → Nat)
    (ev : List Event) (hp : pending s = k) : (copyLoop w base k i s buf ev).i = i + k := by
  induction k generalizing i s buf ev with
  | zero => rfl
  | succ k ih =>
    rw [copyLoop_succ]
    have hav : (w.available s).2 ≠ 0 := (hw.available_ret s).2 (by omega)
    rw [if_pos hav, ih]
    · omega
    · rw [hw.read_pending, hw.available_pending, hp]
      rfl

/-- One iteration of the loop of `readBuffer` on a bus with short deliveries: no `break`, and
exactly the bytes the request reported are moved. -/
theorem readBody_short {σ : Type} (w : TwoWire σ) (intBits : Nat) (pending : σ → Nat)
    (hT : TransactionsSucceed w) (hD : DeliversSome w pending) (sizeBits : Nat)
    (st : ReadState σ) :
    (readRequest w st).2 ≤ min st.lenRemaining 255 ∧
    (0 < st.lenRemaining → 0 < (readRequest w st).2) ∧
    (readBody w intBits sizeBits st).2 = false ∧
    (readBody w intBits sizeBits st).1.self.lastError = 0 ∧
    (readBody w intBits sizeBits st).1.dataPointer = st.dataPointer + (readRequest w st).2 ∧
    (readBody w intBits sizeBits st).1.lenRemaining = st.lenRemaining - (readRequest w st).2 ∧
    (readBody w intBits sizeBits st).1.nextAddress =
      (st.nextAddress + (readRequest w st).2) % 65536 ∧
    (readBody w intBits sizeBits st).1.totalread =
      toInt intBits (st.totalread + ((readRequest w st).2 : Nat)) ∧
    addressCalls (readBody w intBits sizeBits st).1.events =
      addressCalls st.events ++ [st.nextAddress] ∧
    deliveries (readBody w intBits sizeBits st).1.events =
      deliveries st.events ++ [(readRequest w st).2] := by
  have hend : (readEnd w st).2 % 256 = 0 := by
    have : (readEnd w st).2 = 0 := hT _
    rw [this]
  have hle : (readRequest w st).2 ≤ min st.lenRemaining 255 := hD.request_le _ _ _
  have hpos : 0 < st.lenRemaining → 0 < (readRequest w st).2 := fun h =>
    hD.request_pos _ _ _ (by show 0 < min st.lenRemaining 255; omega)
  have hi : (readCopy w st).i = (readRequest w st).2 := by
    have hp : pending (readRequest w st).1 = (readRequest w st).2 := hD.request_pending _ _ _
    rw [readCopy, copyLoop_some w pending hD _ _ _ _ _ _ hp]
    simp
  obtain ⟨xs, hxs, hev⟩ := readCopy_events w st
  rw [readBody_of_ok w intBits sizeBits st hend]
  refine ⟨hle, hpos, rfl, hend, ?_, ?_, ?_, ?_, ?_, ?_⟩
  · simp only [hi]
  · simp only [hi, subSize]
    rw [if_pos (by omega)]
  · simp only [hi]
  · simp only [hi]
  · simp only [hev, addressCalls_append, allCopy_addressCalls hxs, readHead_addressCalls]
    simp
  · simp only [hev, deliveries_append, allCopy_deliveries hxs, readHead_deliveries]
    simp

theorem shortWire_deliversSome (cap : Nat) (deliver : Nat → Nat)
    (hle : ∀ n, deliver n ≤ n) (hpos : ∀ n, 0 < n → 0 < deliver n) :
    DeliversSome (shortWire cap deliver) (fun s => s.pending) where
  request_le _ _ n := hle n
  request_pos _ _ n h := hpos n h
  request_pending _ _ _ := rfl
  available_ret s := by
    show ((s.pending : Nat) : Int) ≠ 0 ↔ 0 < s.pending
    omega
  available_pending _ := rfl
  read_pending _ := rfl

/-- The state after one iteration of the loop of `readBuffer` on a bus with short deliveries,
started in a state satisfying the invariant. -/
theorem readBody_shortInv {σ : Type} (w : TwoWire σ) (intBits : Nat) (pending : σ → Nat)
    (hT : TransactionsSucceed w) (hD : DeliversSome w pending) (sizeBits a len : Nat)
    (st : ReadState σ) (h : ShortReadInv intBits a len st) :
    (readBody w intBits sizeBits st).2 = false ∧
    (readBody w intBits sizeBits st).1.self.lastError = 0 ∧
    (readBody w intBits sizeBits st).1.lenRemaining < st.lenRemaining ∧
    (readBody w intBits sizeBits st).1.dataPointer
      + (readBody w intBits sizeBits st).1.lenRemaining = len ∧
    (readBody w intBits sizeBits st).1.totalread =
      toInt intBits ((readBody w intBits sizeBits st).1.dataPointer : Int) ∧
    (readBody w intBits sizeBits st).1.nextAddress =
      (a + (readBody w intBits sizeBits st).1.dataPointer) % 65536 ∧
    (readBody w intBits sizeBits st).1.numberOfReads + 1
      ≤ (readBody w intBits sizeBits st).1.dataPointer ∧
    (deliveries (readBody w intBits sizeBits st).1.events).sum =
      (readBody w intBits sizeBits st).1.dataPointer ∧
    (∀ d ∈ deliveries (readBody w intBits sizeBits st).1.events, 1 ≤ d) ∧
    addressCalls (readBody w intBits sizeBits st).1.events =
      cursors a (deliveries (readBody w intBits sizeBits st).1.events) := by
  obtain ⟨h1, h2, h3, h4, h5, h6, h7, h8⟩ := h
  obtain ⟨b1, b2, b3, b4, b5, b6, b7, b8, b9, b10⟩ :=
    readBody_short w intBits pending hT hD sizeBits st
  have hk := b2 h2
  have hn := readBody_numberOfReads w intBits sizeBits st
  refine ⟨b3, b4, by omega, by omega, ?_, ?_, by omega, ?_, ?_, ?_⟩
  · rw [b8, b5, h3, toInt_count]
  · rw [b7, b5, h4]
    omega
  · rw [b10, List.sum_append, h6, b5]
    simp
  · rw [b10]
    intro d hd
    rcases List.mem_append.1 hd with hd | hd
    · exact h7 d hd
    · rw [List.mem_singleton.1 hd]
      exact hk
  · rw [b9, b10, cursors_snoc, h8, h6, h4]

/-- The run of `readBuffer` on a bus with short deliveries, for `len ≥ 1` and fuel at least
`len`. -/
theorem readLoop_shortReads {σ : Type} (w : TwoWire σ) (intBits : Nat) (pending : σ → Nat)
    (hT : TransactionsSucceed w) (hD : DeliversSome w pending) (sizeBits fuel : Nat)
    (self : AT24Cxxx) (a : Nat) (buf : Nat → Nat) (len : Nat) (s : σ)
    (hlen : 1 ≤ len) (hfuel : len ≤ fuel) :
    ∃ r, readLoop w intBits sizeBits len fuel (readInit self a buf len s) = some r ∧
      r.totalread = toInt intBits (len : Int) ∧ r.self.lastError = 0 ∧
      (deliveries r.events).sum = len ∧ (∀ d ∈ deliveries r.events, 1 ≤ d) ∧
      addressCalls r.events = cursors a (deliveries r.events) :=
  readLoop_rule w intBits sizeBits len (ShortReadInv intBits a len)
    (fun r => r.totalread = toInt intBits (len : Int) ∧ r.self.lastError = 0 ∧
      (deliveries r.events).sum = len ∧ (∀ d ∈ deliveries r.events, 1 ≤ d) ∧
      addressCalls r.events = cursors a (deliveries r.events))
    (fun st => st.lenRemaining)
    (fun st h => h.2.1)
    (fun st h hb => by
      have := (readBody_shortInv w intBits pending hT hD sizeBits a len st h).1
      rw [this] at hb
      cases hb)
    (fun st h _ hrem => by
      obtain ⟨-, c2, -, c4, c5, -, -, c8, c9, c10⟩ :=
        readBody_shortInv w intBits pending hT hD sizeBits a len st h
      have hdp : (readBody w intBits sizeBits st).1.dataPointer = len := by omega
      exact ⟨by rw [c5, hdp], c2, by rw [c8, hdp], c9, c10⟩)
    (fun st h _ hrem hcap => by
      obtain ⟨-, -, -, c4, -, -, c7, -, -, -⟩ :=
        readBody_shortInv w intBits pending hT hD sizeBits a len st h
      exfalso
      apply hcap
      have := Nat.mod_le ((readBody w intBits sizeBits st).1.numberOfReads + 1) 256
      omega)
    (fun st h _ hrem hcap => by
      obtain ⟨-, -, c3, c4, c5, c6, c7, c8, c9, c10⟩ :=
        readBody_shortInv w intBits pending hT hD sizeBits a len st h
      have := Nat.mod_le ((readBody w intBits sizeBits st).1.numberOfReads + 1) 256
      exact ⟨⟨c4, hrem, c5, c6, by
        show ((readBody w intBits sizeBits st).1.numberOfReads + 1) % 256 ≤
          (readBody w intBits sizeBits st).1.dataPointer
        omega, c8, c9, c10⟩, c3⟩)
    fuel (readInit self a buf len s)
    ⟨by simp [readInit], by simpa [readInit] using hlen, (toInt_zero intBits).symm, rfl,
      le_refl _, rfl, by simp [readInit], rfl⟩
    hfuel

/-- C14, as amended. On a bus whose transactions all succeed and whose every request
delivers at least one byte and at most the number requested, for every address `a`,
destination and length `len ≥ 1`, `readBuffer` returns (given at least `len` units of fuel)
and leaves `getLastError() == ERR_OK`; the value returned is `len` converted to `int`, which
is exactly `len` when `len` is below `2^(intBits-1)`; the deliveries of its requests add up
to `len`, each is at least one byte, there is one address phase per request, and each read is
addressed at the advanced cursor: `a` plus the bytes delivered by the earlier requests, modulo
`2^16`. -/
theorem readBuffer_short_reads_resumed {σ : Type} (w : TwoWire σ) (intBits : Nat)
    (pending : σ → Nat) (hT : TransactionsSucceed w) (hD : DeliversSome w pending)
    (sizeBits fuel : Nat) (self : AT24Cxxx) (a : Nat) (buf : Nat → Nat) (len : Nat) (s : σ)
    (hlen : 1 ≤ len) (hfuel : len ≤ fuel) :
    ∃ r, readBuffer w intBits sizeBits fuel self a buf len s = some r ∧
      r.ret = toInt intBits (len : Int) ∧
      ((len : Int) < intLimit intBits → r.ret = (len : Int)) ∧
      getLastError r.self = ERR_OK ∧
      (deliveries r.events).sum = len ∧
      (∀ d ∈ deliveries r.events, 1 ≤ d) ∧
      (addressCalls r.events).length = (deliveries r.events).length ∧
      addressCalls r.events = cursors a (deliveries r.events) := by
  obtain ⟨r, hr, q1, q2, q3, q4, q5⟩ := readLoop_shortReads w intBits pending hT hD sizeBits
    fuel self a buf len s hlen hfuel
  have hp := intLimit_pos intBits
  rw [readBuffer_eq w intBits sizeBits fuel self a buf len s (by omega), hr]
  refine ⟨_, rfl, q1, fun hfit => ?_, q2, q3, q4, ?_, q5⟩
  · show r.totalread = _
    rw [q1, toInt_of_fits intBits _ (by omega) hfit]
  · show (addressCalls r.events).length = (deliveries r.events).length
    rw [q5]
    simp [cursors]

/-- C14 as amended, on a bus that delivers at most four bytes per request, with a 16-bit
`int`: reading 10 bytes from address 65530 takes three requests (4, 4 and 2 bytes), the last
one addressed past the wrap, and returns 10. -/
theorem readBuffer_short_reads_resumed_witness :
    (TransactionsSucceed (shortWire 32 (fun n => min n 4)) ∧
      DeliversSome (shortWire 32 (fun n => min n 4)) (fun s => s.pending) ∧
      1 ≤ 10 ∧ 10 ≤ 10) ∧
    ∃ r, readBuffer (shortWire 32 (fun n => min n 4)) 16 16 10 (AT24Cxxx.new 80 10 65536 16)
        65530 (fun _ => 0) 10 ⟨0, 0⟩ = some r ∧
      r.ret = (10 : Nat) ∧ getLastError r.self = ERR_OK ∧
      (deliveries r.events).sum = 10 ∧
      (∀ d ∈ deliveries r.events, 1 ≤ d) ∧
      (addressCalls r.events).length = (deliveries r.events).length ∧
      addressCalls r.events = cursors 65530 (deliveries r.events) := by
  have hD : DeliversSome (shortWire 32 (fun n => min n 4)) (fun s => s.pending) :=
    shortWire_deliversSome _ _ (fun n => Nat.min_le_left n 4) (fun n h => by
      show 0 < min n 4
      omega)
  obtain ⟨r, hr, -, h2, h3, h4, h5, h6, h7⟩ := readBuffer_short_reads_resumed
    (shortWire 32 (fun n => min n 4)) 16 (fun s => s.pending)
    (shortWire_transactionsSucceed _ _) hD 16 10 (AT24Cxxx.new 80 10 65536 16) 65530
    (fun _ => 0) 10 ⟨0, 0⟩ (by decide) (le_refl _)
  exact ⟨⟨shortWire_transactionsSucceed _ _, hD, by decide, le_refl _⟩, r, hr,
    h2 (by decide), h3, h4, h5, h6, h7⟩

/-- C14 as stated fails where `int` has 16 bits: on a bus that delivers at most four bytes
per request, reading 32768 bytes gets all of them, in deliveries adding up to 32768, and
returns -32768, not 32768. -/
theorem readBuffer_short_reads_return_wraps :
    TransactionsSucceed (shortWire 32 (fun n => min n 4)) ∧
    DeliversSome (shortWire 32 (fun n => min n 4)) (fun s => s.pending) ∧
    ∃ r, readBuffer (shortWire 32 (fun n => min n 4)) 16 16 32768
        (AT24Cxxx.new 80 10 65536 128) 0 (fun _ => 0) 32768 ⟨0, 0⟩ = some r ∧
      (deliveries r.events).sum = 32768 ∧
      r.ret = -32768 ∧ r.ret ≠ ((32768 : Nat) : Int) ∧ getLastError r.self = ERR_OK := by
  have hD : DeliversSome (shortWire 32 (fun n => min n 4)) (fun s => s.pending) :=
    shortWire_deliversSome _ _ (fun n => Nat.min_le_left n 4) (fun n h => by
      show 0 < min n 4
      omega)
  obtain ⟨r, hr, q1, q2, q3, -, -⟩ := readLoop_shortReads (shortWire 32 (fun n => min n 4)) 16
    (fun s => s.pending) (shortWire_transactionsSucceed _ _) hD 16 32768
    (AT24Cxxx.new 80 10 65536 128) 0 (fun _ => 0) 32768 ⟨0, 0⟩ (by decide) (le_refl _)
  have hv : toInt 16 ((32768 : Nat) : Int) = -32768 := by decide
  rw [hv] at q1
  refine ⟨shortWire_transactionsSucceed _ _, hD,
    ⟨r.totalread, r.self, r.wire, r.buf, r.events⟩, ?_, q3, q1, ?_, q2⟩
  · rw [readBuffer_eq _ _ _ _ _ _ _ _ _ (by decide), hr]
    rfl
  · show r.totalread ≠ _
    rw [q1]
    decide

/-! ## Writes on a bus with short writes (C13) -/

@[simp] theorem writtenCounts_nil : writtenCounts [] = [] := rfl

@[simp] theorem writtenCounts_append (a b : List Event) :
    writtenCounts (a ++ b) = writtenCounts a ++ writtenCounts b := by
  simp [writtenCounts]

/-- The data bytes the byte loop queues are `data[written .. q)`, where `q` is the final
value of `written`. -/
theorem queueLoop_queuedData {σ : Type} (w : TwoWire σ) (data : Nat → Nat) (k written : Nat)
    (s : σ) (ev : List Event) (init : Nat × List Nat) (acc : List Nat)
    (hev : ev.foldl queuedStep init = (0, acc)) :
    (queueLoop w data k written s ev).2.2.foldl queuedStep init =
      (0, acc ++ (List.range' written ((queueLoop w data k written s ev).2.1 - written)).map
        data) := by
  induction k generalizing written s ev acc with
  | zero => simp [queueLoop, hev]
  | succ k ih =>
    by_cases h : (w.write s (data written)).2 ≠ 1
    · have e : queueLoop w data (k + 1) written s ev =
          ((w.write s (data written)).1, written,
            ev ++ [Event.write (data written) (w.write s (data written)).2]) := by
        simp only [queueLoop]
        rw [if_pos h]
      rw [e]
      simp [List.foldl_append, hev, queuedStep, h]
    · have e : queueLoop w data (k + 1) written s ev =
          queueLoop w data k (written + 1) (w.write s (data written)).1
            (ev ++ [Event.write (data written) (w.write s (data written)).2]) := by
        simp only [queueLoop]
        rw [if_neg h]
      have h1 : (w.write s (data written)).2 = 1 := not_not.1 h
      obtain ⟨-, -, -, hq, -⟩ := queueLoop_spec w data k (written + 1)
        (w.write s (data written)).1
        (ev ++ [Event.write (data written) (w.write s (data written)).2])
      rw [e, ih (written + 1) _ _ (acc ++ [data written])
        (by simp [List.foldl_append, hev, queuedStep, h1])]
      have hn : (queueLoop w data k (written + 1) (w.write s (data written)).1
          (ev ++ [Event.write (data written) (w.write s (data written)).2])).2.1 - written =
          ((queueLoop w data k (written + 1) (w.write s (data written)).1
          (ev ++ [Event.write (data written) (w.write s (data written)).2])).2.1 -
            (written + 1)) + 1 := by omega
      rw [hn, List.range'_succ]
      simp

/-- The data bytes a raw write queues are the first `queued` bytes of its source. -/
theorem rawWriteBuffer_queuedData {σ : Type} (w : TwoWire σ) (self : AT24Cxxx) (address : Nat)
    (data : Nat → Nat) (len : Nat) (s : σ) (n : Nat) (acc : List Nat) :
    (rawWriteBuffer w self address data len s).events.foldl queuedStep (n, acc) =
      (0, acc ++ (List.range (rawWriteBuffer w self address data len s).queued).map data) := by
  have hq := queueLoop_queuedData w data len 0
    (writeAddress w { self with lastError := ERR_OK } address s).1
    (Event.callRawWriteBuffer address len ::
      (writeAddress w { self with lastError := ERR_OK } address s).2) (n, acc) acc
    (by simp [writeAddress, queuedStep])
  simp only [rawWriteBuffer, List.foldl_append, hq]
  simp [queuedStep, List.range_eq_range']

/-- When the first data byte of a transaction is accepted, a raw write of at least one byte
queues at least one byte. -/
theorem rawWriteBuffer_queued_pos {σ : Type} (w : TwoWire σ) (hF : AcceptsFirstByte w)
    (self : AT24Cxxx) (address : Nat) (data : Nat → Nat) (len : Nat) (s : σ)
    (hlen : 1 ≤ len) : 1 ≤ (rawWriteBuffer w self address data len s).queued := by
  obtain ⟨k, rfl⟩ : ∃ k, len = k + 1 := ⟨len - 1, by omega⟩
  have h1 : (w.write (writeAddress w { self with lastError := ERR_OK } address s).1
      (data 0)).2 = 1 := hF _ _ _ _ _
  have e : (rawWriteBuffer w self address data (k + 1) s).queued =
      (queueLoop w data k (0 + 1)
        (w.write (writeAddress w { self with lastError := ERR_OK } address s).1 (data 0)).1
        ((Event.callRawWriteBuffer address (k + 1) ::
          (writeAddress w { self with lastError := ERR_OK } address s).2) ++
          [Event.write (data 0)
            (w.write (writeAddress w { self with lastError := ERR_OK } address s).1
              (data 0)).2])).2.1 := by
    simp only [rawWriteBuffer, queueLoop]
    rw [if_neg (not_not.2 h1)]
  rw [e]
  obtain ⟨-, -, -, hq, -⟩ := queueLoop_spec w data k (0 + 1)
    (w.write (writeAddress w { self with lastError := ERR_OK } address s).1 (data 0)).1
    ((Event.callRawWriteBuffer address (k + 1) ::
      (writeAddress w { self with lastError := ERR_OK } address s).2) ++
      [Event.write (data 0)
        (w.write (writeAddress w { self with lastError := ERR_OK } address s).1 (data 0)).2])
  omega

/-- The state after one iteration of the loop of `writeBuffer` on a bus with short writes,
started in a state satisfying the invariant. -/
theorem writeBody_shortInv {σ : Type} (w : TwoWire σ) (intBits : Nat)
    (hT : TransactionsSucceed w) (hF : AcceptsFirstByte w) (a len : Nat) (data : Nat → Nat)
    (st : WriteState σ)
    (h : ShortWriteInv intBits a len data st) :
    (writeBody w intBits data st).2 = false ∧
    (writeBody w intBits data st).1.self.lastError = 0 ∧
    (writeBody w intBits data st).1.dataToWrite
      + (writeBody w intBits data st).1.lenRemaining = len ∧
    (writeBody w intBits data st).1.totalWritten =
      toInt intBits ((writeBody w intBits data st).1.dataToWrite : Int) ∧
    (writeBody w intBits data st).1.nextAddress =
      (a + (writeBody w intBits data st).1.dataToWrite) % 65536 ∧
    (writeBody w intBits data st).1.numberOfWrites + 1
      ≤ (writeBody w intBits data st).1.dataToWrite ∧
    0 < (writeBody w intBits data st).1.self.pageSize ∧
    (writeBody w intBits data st).1.events.foldl queuedStep (0, []) =
      (0, (List.range (writeBody w intBits data st).1.dataToWrite).map data) ∧
    (writtenCounts (writeBody w intBits data st).1.events).sum =
      (writeBody w intBits data st).1.dataToWrite ∧
    (∀ d ∈ writtenCounts (writeBody w intBits data st).1.events, 1 ≤ d) ∧
    (rawWrites (writeBody w intBits data st).1.events).map Prod.fst =
      cursors a (writtenCounts (writeBody w intBits data st).1.events) := by
  obtain ⟨h1, h2, h3, h4, h5, h6, h7, h8, h9, h10⟩ := h
  have herr : (writeCall w data st).self.lastError = 0 :=
    rawWriteBuffer_lastError_ok w hT _ _ _ _ _
  have hmod := Nat.mod_lt st.nextAddress h6
  have hqle : (writeCall w data st).queued ≤
      min (st.self.pageSize - st.nextAddress % st.self.pageSize) st.lenRemaining :=
    rawWriteBuffer_queued_le _ _ _ _ _ _
  have hqpos : 1 ≤ (writeCall w data st).queued :=
    rawWriteBuffer_queued_pos w hF _ _ _ _ _ (by omega)
  have hret : (writeCall w data st).ret.toNat = (writeCall w data st).queued := by
    rw [writeCall_ret, if_pos herr]
    exact Int.toNat_ofNat _
  have hwc : writtenCounts (writeCall w data st).events = [(writeCall w data st).queued] := by
    simp only [writtenCounts, writeCall_rawReturns, List.map_cons, List.map_nil, hret]
  have hqd : (writeCall w data st).events.foldl queuedStep
      (0, (List.range st.dataToWrite).map data) =
      (0, (List.range st.dataToWrite).map data ++
        (List.range (writeCall w data st).queued).map (fun i => data (st.dataToWrite + i))) :=
    rawWriteBuffer_queuedData w _ _ _ _ _ _ _
  rw [writeBody_of_ok w intBits data st herr]
  refine ⟨rfl, herr, ?_, ?_, ?_, ?_, h6, ?_, ?_, ?_, ?_⟩ <;> dsimp only <;>
    try rw [hret]
  · omega
  · rw [h3, toInt_count]
  · rw [h4]
    omega
  · omega
  · rw [List.foldl_append, h7, hqd, List.range_add, List.map_append, List.map_map]
    rfl
  · rw [writtenCounts_append, List.sum_append, h8, hwc]
    simp
  · rw [writtenCounts_append, hwc]
    intro d hd
    rcases List.mem_append.1 hd with hd | hd
    · exact h9 d hd
    · rw [List.mem_singleton.1 hd]
      exact hqpos
  · rw [rawWrites_append, List.map_append, writeCall_rawWrites, writtenCounts_append, hwc,
      cursors_snoc, h10, h8, h4]
    simp

theorem shortWire_acceptsFirstByte (cap : Nat) (deliver : Nat → Nat) (hcap : 3 ≤ cap) :
    AcceptsFirstByte (shortWire cap deliver) := by
  intro s d b1 b2 b
  have h1 : 0 < cap := by omega
  have h2 : 0 < cap - 1 := by omega
  have h3 : 0 < cap - 1 - 1 := by omega
  simp [shortWire, h1, h2, h3]

/-- When every count is at least one, the counts before position `j` sum to less than the
total. -/
theorem sum_take_lt (ds : List Nat) (hpos : ∀ d ∈ ds, 1 ≤ d) (j : Nat) (hj : j < ds.length) :
    (ds.take j).sum < ds.sum := by
  have hsplit := List.sum_take_add_sum_drop ds j
  have hdrop : ds.drop j = ds[j] :: ds.drop (j + 1) := List.drop_eq_getElem_cons hj
  have hd := hpos ds[j] (List.getElem_mem hj)
  rw [hdrop, List.sum_cons] at hsplit
  omega

/-- The run of `writeBuffer` on a bus with short writes, for a page size above 0 and
`len ≥ 1`. -/
theorem writeLoop_shortWrites {σ : Type} (w : TwoWire σ) (intBits : Nat)
    (hT : TransactionsSucceed w) (hF : AcceptsFirstByte w) (self : AT24Cxxx) (a : Nat)
    (data : Nat → Nat) (len : Nat) (s : σ) (hP : 0 < self.pageSize) (hlen : 1 ≤ len) :
    (writeLoop w intBits data len (writeInit self a len s)).totalWritten =
      toInt intBits (len : Int) ∧
    (writeLoop w intBits data len (writeInit self a len s)).self.lastError = 0 ∧
    (writeLoop w intBits data len (writeInit self a len s)).events.foldl queuedStep (0, []) =
      (0, (List.range len).map data) ∧
    (writtenCounts (writeLoop w intBits data len (writeInit self a len s)).events).sum = len ∧
    (∀ d ∈ writtenCounts (writeLoop w intBits data len (writeInit self a len s)).events,
      1 ≤ d) ∧
    (rawWrites (writeLoop w intBits data len (writeInit self a len s)).events).map Prod.fst =
      cursors a (writtenCounts (writeLoop w intBits data len (writeInit self a len s)).events) :=
  writeLoop_rule w intBits data len (ShortWriteInv intBits a len data)
    (fun r => r.totalWritten = toInt intBits (len : Int) ∧ r.self.lastError = 0 ∧
      r.events.foldl queuedStep (0, []) = (0, (List.range len).map data) ∧
      (writtenCounts r.events).sum = len ∧ (∀ d ∈ writtenCounts r.events, 1 ≤ d) ∧
      (rawWrites r.events).map Prod.fst = cursors a (writtenCounts r.events))
    (fun st h hb => by
      have := (writeBody_shortInv w intBits hT hF a len data st h).1
      rw [this] at hb
      cases hb)
    (fun st h _ hrem => by
      obtain ⟨-, c2, c3, c4, -, -, -, c8, c9, c10, c11⟩ :=
        writeBody_shortInv w intBits hT hF a len data st h
      have hdp : (writeBody w intBits data st).1.dataToWrite = len := by omega
      exact ⟨by rw [c4, hdp], c2, by rw [c8, hdp], by rw [c9, hdp], c10, c11⟩)
    (fun st h _ hrem hcap => by
      obtain ⟨-, -, c3, -, -, c6, -, -, -, -, -⟩ :=
        writeBody_shortInv w intBits hT hF a len data st h
      exfalso
      apply hcap
      omega)
    (fun st h _ hrem _ => by
      obtain ⟨-, -, c3, c4, c5, c6, c7, c8, c9, c10, c11⟩ :=
        writeBody_shortInv w intBits hT hF a len data st h
      exact ⟨c3, hrem, c4, c5, c6, c7, c8, c9, c10, c11⟩)
    (writeInit self a len s)
    ⟨by simp [writeInit], by simpa [writeInit] using hlen, (toInt_zero intBits).symm, rfl,
      le_refl _, hP, rfl, rfl, by simp [writeInit], rfl⟩

/-- C13, as amended. On a bus whose transactions all succeed and on which the first data
byte of every transaction is accepted (so each transaction takes between 1 and the requested
count of data bytes), for every page size `P > 0`, address `a`, data and length `len ≥ 1`,
`writeBuffer` leaves `getLastError() == ERR_OK` and returns `len` converted to `int`, which is
exactly `len` when `len` is below `2^(intBits-1)`; every raw write reports at least one byte
written and these reports add up to `len`; each raw write is addressed at `a` plus the bytes
written by the earlier raw writes, modulo `2^16` (at exactly that sum when `a + len ≤ 2^16`);
and the data bytes queued in order over all raw writes are exactly `data[0 .. len)`. -/
theorem writeBuffer_short_writes_resumed {σ : Type} (w : TwoWire σ) (intBits : Nat)
    (hT : TransactionsSucceed w) (hF : AcceptsFirstByte w) (self : AT24Cxxx) (a : Nat)
    (data : Nat → Nat) (len : Nat) (s : σ) (hP : 0 < self.pageSize) (hlen : 1 ≤ len) :
    (writeBuffer w intBits self a data len s).ret = toInt intBits (len : Int) ∧
    ((len : Int) < intLimit intBits →
      (writeBuffer w intBits self a data len s).ret = (len : Int)) ∧
    getLastError (writeBuffer w intBits self a data len s).self = ERR_OK ∧
    (writtenCounts (writeBuffer w intBits self a data len s).events).sum = len ∧
    (∀ d ∈ writtenCounts (writeBuffer w intBits self a data len s).events, 1 ≤ d) ∧
    (rawWrites (writeBuffer w intBits self a data len s).events).length =
      (writtenCounts (writeBuffer w intBits self a data len s).events).length ∧
    (rawWrites (writeBuffer w intBits self a data len s).events).map Prod.fst =
      cursors a (writtenCounts (writeBuffer w intBits self a data len s).events) ∧
    (a + len ≤ 65536 →
      (rawWrites (writeBuffer w intBits self a data len s).events).map Prod.fst =
        (List.range
          (writtenCounts (writeBuffer w intBits self a data len s).events).length).map
          (fun j => a +
            ((writtenCounts (writeBuffer w intBits self a data len s).events).take j).sum)) ∧
    queuedData (writeBuffer w intBits self a data len s).events = (List.range len).map data := by
  obtain ⟨q1, q2, q3, q4, q5, q6⟩ :=
    writeLoop_shortWrites w intBits hT hF self a data len s hP hlen
  have hp := intLimit_pos intBits
  rw [writeBuffer_events, writeBuffer_ret]
  have hlength :
      (rawWrites (writeLoop w intBits data len (writeInit self a len s)).events).length =
      (writtenCounts (writeLoop w intBits data len (writeInit self a len s)).events).length := by
    have := congrArg List.length q6
    simpa [cursors] using this
  refine ⟨q1, fun hfit => ?_, q2, q4, q5, hlength, q6, ?_, ?_⟩
  · rw [q1, toInt_of_fits intBits _ (by omega) hfit]
  · intro hfit
    rw [q6, cursors]
    apply List.map_congr_left
    intro j hj
    have hj2 := List.mem_range.1 hj
    have := sum_take_lt _ q5 j hj2
    exact Nat.mod_eq_of_lt (by omega)
  · rw [queuedData, q3]

/-- C13 as amended, on a bus whose transmit buffer takes the two address bytes and three
data bytes per transaction, with a 16-bit `int`: 20 bytes at address 10 with page size 16. -/
theorem writeBuffer_short_writes_resumed_witness :
    (TransactionsSucceed (shortWire 5 fun n => n) ∧ AcceptsFirstByte (shortWire 5 fun n => n) ∧
      0 < (AT24Cxxx.new 80 10 256 16).pageSize ∧ 1 ≤ 20) ∧
    (writeBuffer (shortWire 5 fun n => n) 16 (AT24Cxxx.new 80 10 256 16) 10 (fun i => i) 20
      ⟨0, 0⟩).ret = (20 : Nat) ∧
    queuedData (writeBuffer (shortWire 5 fun n => n) 16 (AT24Cxxx.new 80 10 256 16) 10
      (fun i => i) 20 ⟨0, 0⟩).events = (List.range 20).map (fun i => i) := by
  have key := writeBuffer_short_writes_resumed (shortWire 5 fun n => n) 16
    (shortWire_transactionsSucceed _ _) (shortWire_acceptsFirstByte _ _ (by decide))
    (AT24Cxxx.new 80 10 256 16) 10 (fun i => i) 20 ⟨0, 0⟩ (by decide) (by decide)
  exact ⟨⟨shortWire_transactionsSucceed _ _, shortWire_acceptsFirstByte _ _ (by decide),
    by decide, by decide⟩, key.2.1 (by decide), key.2.2.2.2.2.2.2.2⟩

/-- C13 as stated fails in two ways, on a bus that succeeds and accepts every byte offered.
Where the 16-bit address cursor wraps: writing 2 bytes at address 65535 with page size 16,
the raw writes report 1 and 1 bytes written and the follow-up raw write is addressed at 0, not
at `65535 + 1`.  Where `int` has 16 bits: writing 32768 bytes at address 0 returns -32768, not
32768. -/
theorem writeBuffer_follow_up_address_wraps :
    TransactionsSucceed (shortWire 32 fun n => n) ∧
    AcceptsFirstByte (shortWire 32 fun n => n) ∧
    rawWrites (writeBuffer (shortWire 32 fun n => n) 16 (AT24Cxxx.new 80 10 256 16) 65535
      (fun i => i) 2 ⟨0, 0⟩).events = [(65535, 1), (0, 1)] ∧
    writtenCounts (writeBuffer (shortWire 32 fun n => n) 16 (AT24Cxxx.new 80 10 256 16) 65535
      (fun i => i) 2 ⟨0, 0⟩).events = [1, 1] ∧
    (rawWrites (writeBuffer (shortWire 32 fun n => n) 16 (AT24Cxxx.new 80 10 256 16) 65535
      (fun i => i) 2 ⟨0, 0⟩).events).map Prod.fst ≠ [65535, 65535 + 1] ∧
    (writeBuffer (shortWire 32 fun n => n) 16 (AT24Cxxx.new 80 10 65536 128) 0 (fun i => i) 32768
      ⟨0, 0⟩).ret = -32768 ∧
    (writeBuffer (shortWire 32 fun n => n) 16 (AT24Cxxx.new 80 10 65536 128) 0 (fun i => i) 32768
      ⟨0, 0⟩).ret ≠ ((32768 : Nat) : Int) := by
  have hv : toInt 16 ((32768 : Nat) : Int) = -32768 := by decide
  have hret := (writeLoop_shortWrites (shortWire 32 fun n => n) 16 (shortWire_transactionsSucceed _ _)
    (shortWire_acceptsFirstByte _ _ (by decide)) (AT24Cxxx.new 80 10 65536 128) 0
    (fun i => i) 32768 ⟨0, 0⟩ (by decide) (by decide)).1
  rw [hv] at hret
  refine ⟨shortWire_transactionsSucceed _ _, shortWire_acceptsFirstByte _ _ (by decide),
    ?_, ?_, ?_, ?_, ?_⟩
  · rw [writeBuffer_eq_fuel]
    decide
  · rw [writeBuffer_eq_fuel]
    decide
  · rw [writeBuffer_eq_fuel]
    decide
  · rw [writeBuffer_ret, hret]
  · rw [writeBuffer_ret, hret]
    decide

/-! ## C5: the total of a long write that ends with address-NACK -/

/-- C5 as stated fails where `int` has 16 bits: writing 32896 bytes at address 0 with page
size 128, on a bus that accepts every byte and whose 257th transaction ends with
address-NACK, raw writes 1..256 end with success and write 128 bytes each, 32768 in all, the
257th returns 0 with `ERR_NACK`, and `writeBuffer` returns -32768, not 32768. -/
theorem writeBuffer_nack_return_wraps :
    rawReturns (writeBuffer (scriptWire 1 fun _ => 0) 16 (AT24Cxxx.new 80 10 65536 128) 0
        (fun i => i) 32896 ⟨List.replicate 256 0 ++ [2], 0⟩).events =
      List.replicate 256 (128, ERR_OK, (128 : Int)) ++ [(128, ERR_NACK, 0)] ∧
    ((List.replicate 256 (128, ERR_OK, (128 : Int))).map fun t => ((t.1 : Nat) : Int)).sum
      = 32768 ∧
    (writeBuffer (scriptWire 1 fun _ => 0) 16 (AT24Cxxx.new 80 10 65536 128) 0
        (fun i => i) 32896 ⟨List.replicate 256 0 ++ [2], 0⟩).ret = -32768 ∧
    getLastError (writeBuffer (scriptWire 1 fun _ => 0) 16 (AT24Cxxx.new 80 10 65536 128) 0
        (fun i => i) 32896 ⟨List.replicate 256 0 ++ [2], 0⟩).self = ERR_NACK := by
  have hstep : ∀ (st : WriteState ScriptState) (m : Nat), m < 256 →
      st.self.pageSize = 128 →
      st.wire.script = List.replicate (256 - m) 0 ++ [2] →
      st.nextAddress = 128 * m → st.lenRemaining = 32896 - 128 * m →
      (writeBody (scriptWire 1 fun _ => 0) 16 (fun i => i) st).2 = false ∧
      (writeBody (scriptWire 1 fun _ => 0) 16 (fun i => i) st).1.self.pageSize = 128 ∧
      (writeBody (scriptWire 1 fun _ => 0) 16 (fun i => i) st).1.wire.script =
        List.replicate (256 - (m + 1)) 0 ++ [2] ∧
      (writeBody (scriptWire 1 fun _ => 0) 16 (fun i => i) st).1.nextAddress = 128 * (m + 1) ∧
      (writeBody (scriptWire 1 fun _ => 0) 16 (fun i => i) st).1.lenRemaining = 32896 - 128 * (m + 1) ∧
      (writeBody (scriptWire 1 fun _ => 0) 16 (fun i => i) st).1.totalWritten =
        toInt 16 (st.totalWritten + ((128 : Nat) : Int)) ∧
      rawReturns (writeBody (scriptWire 1 fun _ => 0) 16 (fun i => i) st).1.events =
        rawReturns st.events ++ [(128, ERR_OK, (128 : Int))] := by
    intro st m hm hps hsc hna hrem
    have h256 : 256 - m = (256 - (m + 1)) + 1 := by omega
    rw [h256] at hsc
    obtain ⟨hh, ht⟩ := script_head (256 - (m + 1)) 2
    obtain ⟨herr, hscript⟩ := scriptWire_writeCall 1 (fun _ => 0) (fun i => i) st
    rw [hsc, hh] at herr
    rw [hsc, ht] at hscript
    have hok : (writeCall (scriptWire 1 fun _ => 0) (fun i => i) st).self.lastError = 0 := herr
    have hchunk : min (st.self.pageSize - st.nextAddress % st.self.pageSize) st.lenRemaining
        = 128 := by
      rw [hps, hna, hrem]
      omega
    have hq : (writeCall (scriptWire 1 fun _ => 0) (fun i => i) st).queued = 128 := by
      rw [writeCall, rawWriteBuffer_queued_all (scriptWire 1 fun _ => 0) (scriptWire_acceptsEveryByte _), hchunk]
    have hret : (writeCall (scriptWire 1 fun _ => 0) (fun i => i) st).ret = ((128 : Nat) : Int) := by
      rw [writeCall_ret, if_pos hok, hq]
    obtain ⟨hb, -, hp2, -, hlr, hna2, htw, -⟩ :=
      writeBody_accepts (scriptWire 1 fun _ => 0) 16 (scriptWire_acceptsEveryByte _) (fun i => i) st hok
    rw [hchunk] at hlr hna2 htw
    refine ⟨hb, by rw [hp2, hps], ?_, by rw [hna2, hna]; omega, by rw [hlr, hrem]; omega,
      htw, ?_⟩
    · have hw : (writeBody (scriptWire 1 fun _ => 0) 16 (fun i => i) st).1.wire =
          (writeCall (scriptWire 1 fun _ => 0) (fun i => i) st).wire := by
        rw [writeBody_of_ok (scriptWire 1 fun _ => 0) 16 (fun i => i) st hok]
      rw [hw, hscript]
    · rw [writeBody_events, rawReturns_append, writeCall_rawReturns, hq, hok, hret]
      rfl
  have hlast : ∀ (st : WriteState ScriptState), st.self.pageSize = 128 →
      st.wire.script = [2] → st.nextAddress = 32768 → st.lenRemaining = 128 →
      (writeBody (scriptWire 1 fun _ => 0) 16 (fun i => i) st).2 = true ∧
      (writeBody (scriptWire 1 fun _ => 0) 16 (fun i => i) st).1.totalWritten = st.totalWritten ∧
      (writeBody (scriptWire 1 fun _ => 0) 16 (fun i => i) st).1.self.lastError = 2 ∧
      rawReturns (writeBody (scriptWire 1 fun _ => 0) 16 (fun i => i) st).1.events =
        rawReturns st.events ++ [(128, ERR_NACK, 0)] := by
    intro st hps hsc hna hrem
    obtain ⟨herr, -⟩ := scriptWire_writeCall 1 (fun _ => 0) (fun i => i) st
    rw [hsc] at herr
    have herr2 : (writeCall (scriptWire 1 fun _ => 0) (fun i => i) st).self.lastError = 2 := herr
    have hne : (writeCall (scriptWire 1 fun _ => 0) (fun i => i) st).self.lastError ≠ 0 := by
      rw [herr2]
      decide
    have hchunk : min (st.self.pageSize - st.nextAddress % st.self.pageSize) st.lenRemaining
        = 128 := by
      rw [hps, hna, hrem]
      decide
    have hq : (writeCall (scriptWire 1 fun _ => 0) (fun i => i) st).queued = 128 := by
      rw [writeCall, rawWriteBuffer_queued_all (scriptWire 1 fun _ => 0) (scriptWire_acceptsEveryByte _), hchunk]
    have hret : (writeCall (scriptWire 1 fun _ => 0) (fun i => i) st).ret = 0 := by
      rw [writeCall_ret, if_neg hne]
    refine ⟨(writeBody_break_iff (scriptWire 1 fun _ => 0) 16 (fun i => i) st).2 hne,
      by rw [writeBody_of_error (scriptWire 1 fun _ => 0) 16 (fun i => i) st hne], ?_, ?_⟩
    · rw [writeBody_self, herr2]
    · rw [writeBody_events, rawReturns_append, writeCall_rawReturns, hq, herr2, hret]
      rfl
  have key := writeLoop_rule (scriptWire 1 fun _ => 0) 16 (fun i => i) 32896
    (fun st => ∃ m, m ≤ 256 ∧ st.numberOfWrites = m ∧ st.self.pageSize = 128 ∧
      st.wire.script = List.replicate (256 - m) 0 ++ [2] ∧ st.nextAddress = 128 * m ∧
      st.lenRemaining = 32896 - 128 * m ∧
      st.totalWritten = toInt 16 ((128 * m : Nat) : Int) ∧
      rawReturns st.events = List.replicate m (128, ERR_OK, (128 : Int)))
    (fun r => r.totalWritten = toInt 16 ((32768 : Nat) : Int) ∧ r.self.lastError = 2 ∧
      rawReturns r.events =
        List.replicate 256 (128, ERR_OK, (128 : Int)) ++ [(128, ERR_NACK, 0)])
    (by
      rintro st ⟨m, hm, hn, hps, hsc, hna, hrem, htw, hrr⟩ hb
      rcases Nat.lt_or_ge m 256 with hlt | hge
      · rw [(hstep st m hlt hps hsc hna hrem).1] at hb
        cases hb
      · have hm256 : m = 256 := by omega
        subst hm256
        obtain ⟨-, h2, h3, h4⟩ := hlast st hps (by rw [hsc]; rfl) hna hrem
        exact ⟨by rw [h2, htw], h3, by rw [h4, hrr]⟩)
    (by
      rintro st ⟨m, hm, hn, hps, hsc, hna, hrem, htw, hrr⟩ hb hz
      rcases Nat.lt_or_ge m 256 with hlt | hge
      · exfalso
        apply hz
        rw [(hstep st m hlt hps hsc hna hrem).2.2.2.2.1]
        omega
      · have hm256 : m = 256 := by omega
        subst hm256
        rw [(hlast st hps (by rw [hsc]; rfl) hna hrem).1] at hb
        cases hb)
    (by
      rintro st ⟨m, hm, hn, hps, hsc, hna, hrem, htw, hrr⟩ hb _ hc
      rcases Nat.lt_or_ge m 256 with hlt | hge
      · exfalso
        apply hc
        rw [writeBody_numberOfWrites, hn]
        omega
      · have hm256 : m = 256 := by omega
        subst hm256
        rw [(hlast st hps (by rw [hsc]; rfl) hna hrem).1] at hb
        cases hb)
    (by
      rintro st ⟨m, hm, hn, hps, hsc, hna, hrem, htw, hrr⟩ hb _ _
      rcases Nat.lt_or_ge m 256 with hlt | hge
      · obtain ⟨-, h2, h3, h4, h5, h6, h7⟩ := hstep st m hlt hps hsc hna hrem
        refine ⟨m + 1, by omega, ?_, h2, h3, h4, h5, ?_, ?_⟩
        · show (writeBody (scriptWire 1 fun _ => 0) 16 (fun i => i) st).1.numberOfWrites + 1 = m + 1
          rw [writeBody_numberOfWrites, hn]
        · show (writeBody (scriptWire 1 fun _ => 0) 16 (fun i => i) st).1.totalWritten = _
          rw [h6, htw, toInt_count]
          rfl
        · show rawReturns (writeBody (scriptWire 1 fun _ => 0) 16 (fun i => i) st).1.events = _
          rw [h7, hrr, List.replicate_succ']
      · have hm256 : m = 256 := by omega
        subst hm256
        rw [(hlast st hps (by rw [hsc]; rfl) hna hrem).1] at hb
        cases hb)
    (writeInit (AT24Cxxx.new 80 10 65536 128) 0 32896 ⟨List.replicate 256 0 ++ [2], 0⟩)
    ⟨0, by omega, rfl, rfl, rfl, rfl, rfl, (toInt_zero 16).symm, rfl⟩
  obtain ⟨q1, q2, q3⟩ := key
  have hv : toInt 16 ((32768 : Nat) : Int) = -32768 := by decide
  rw [hv] at q1
  refine ⟨?_, ?_, ?_, ?_⟩
  · rw [writeBuffer_events, q3]
  · rw [List.map_replicate, List.sum_replicate]
    norm_num
  · rw [writeBuffer_ret, q1]
  · rw [getLastError, writeBuffer_self, q2]
    rfl

end AT24C
